import Mathlib

/-!
RFC text normalisation (`server/internal/rfc/rfc.go`).

A shallow embedding of `removePageHeader`, `cleanWhitespace` and the text part
of `GetText`.  A Go string is modelled as the list of its characters.  The
regular expressions are kept as syntax trees that mirror the pattern constants
of the source one to one, and are run by a small backtracking matcher that
implements the leftmost-first rule of Go's `regexp` package (the match a
backtracking search finds first).
-/

namespace Rfc

/-! ## Regular expressions -/

/-- Syntax of the fragment of Go regular expressions used by `rfc.go`. -/
inductive Regex where
  /-- The empty pattern. -/
  | eps : Regex
  /-- One character of a class (a literal, `\s`, `\w`, `[0-9]`, `.`). -/
  | cls : (Char → Bool) → Regex
  /-- Concatenation. -/
  | seq : Regex → Regex → Regex
  /-- Alternation `a|b`, the left branch preferred. -/
  | alt : Regex → Regex → Regex
  /-- Greedy repetition `a*`. -/
  | star : Regex → Regex
  /-- Beginning of text `^` (no `m` flag). -/
  | bot : Regex
  /-- End of text `$` (no `m` flag). -/
  | eot : Regex

namespace Regex

/-- The literal character `c`. -/
def chr (c : Char) : Regex := cls (fun x => x == c)

/-- A literal string. -/
def lit : List Char → Regex
  | [] => eps
  | c :: cs => seq (chr c) (lit cs)

/-- Greedy `a+`. -/
def plus (a : Regex) : Regex := seq a (star a)

/-- Greedy `a?`: taking `a` is tried before skipping it. -/
def opt (a : Regex) : Regex := alt a eps

/-- The repetition `a{2,}`, that is `aaa*`. -/
def atLeastTwo (a : Regex) : Regex := seq a (seq a (star a))

/-- Greedy iteration of one matching step `step`, then the continuation `k`.
An iteration that consumes nothing is not repeated; `fuel` bounds the number
of iterations and the length of the text is always enough. -/
def starLoop {α : Type} (step : List Char → (List Char → Option α) → Option α)
    (k : List Char → Option α) : Nat → List Char → Option α
  | 0, s => k s
  | fuel + 1, s =>
    match step s (fun t => if t.length < s.length then starLoop step k fuel t else none) with
    | some x => some x
    | none => k s

/-- Backtracking matcher in continuation-passing style.  `run n r s k` matches
`r` at the front of `s`, a suffix of a text of length `n`, and hands what is
left to `k`; the alternatives are tried in the priority order of Go
(leftmost-first): left branch of `|` first, one more iteration of `*` first. -/
def run {α : Type} (n : Nat) : Regex → List Char → (List Char → Option α) → Option α
  | eps, s, k => k s
  | cls _, [], _ => none
  | cls p, c :: cs, k => if p c then k cs else none
  | seq a b, s, k => run n a s (fun t => run n b t k)
  | alt a b, s, k =>
    match run n a s k with
    | some x => some x
    | none => run n b s k
  | star a, s, k => starLoop (fun t j => run n a t j) k s.length s
  | bot, s, k => if s.length = n then k s else none
  | eot, s, k => if s.isEmpty then k s else none

/-- The preferred match of `r` at the front of `s` (a suffix of a text of
length `n`): what is left of `s` after it, or `none`. -/
def matchFront (r : Regex) (n : Nat) (s : List Char) : Option (List Char) :=
  run n r s some

/-- Leftmost match from the current position on: the suffix at which the match
starts and the suffix left after it. -/
def findFrom (r : Regex) (n : Nat) : List Char → Option (List Char × List Char)
  | [] => (matchFront r n []).map (fun rest => ([], rest))
  | c :: cs =>
    match matchFront r n (c :: cs) with
    | some rest => some (c :: cs, rest)
    | none => findFrom r n cs

/-- Go's `(*Regexp).MatchString`. -/
def matchString (r : Regex) (s : List Char) : Bool :=
  (findFrom r s.length s).isSome

/-- Go's `(*Regexp).FindString`: the text of the leftmost match, the empty
string when there is none. -/
def findString (r : Regex) (s : List Char) : List Char :=
  match findFrom r s.length s with
  | some (m, rest) => m.take (m.length - rest.length)
  | none => []

/-- The loop of Go's `(*Regexp).ReplaceAllString` for a replacement without
`$`: `s` is the text from the search position on, `afterMatch` tells that a
match ended exactly here.  An empty match directly after a match is not
replaced, and the search always advances by at least one character. -/
def replaceLoop (r : Regex) (repl : List Char) (n : Nat) :
    Nat → Bool → List Char → List Char
  | 0, _, s => s
  | fuel + 1, afterMatch, s =>
    match matchFront r n s with
    | some rest =>
      if rest.length < s.length then
        repl ++ replaceLoop r repl n fuel true rest
      else
        (if afterMatch then [] else repl) ++
          (match s with
           | [] => []
           | c :: cs => c :: replaceLoop r repl n fuel false cs)
    | none =>
      match s with
      | [] => []
      | c :: cs => c :: replaceLoop r repl n fuel false cs

/-- Go's `(*Regexp).ReplaceAllString` (replacement without `$`). -/
def replaceAllString (r : Regex) (s repl : List Char) : List Char :=
  replaceLoop r repl s.length (s.length + 1) false s

end Regex

/-! ## Character classes -/

/-- Go's `\s`: `[\t\n\f\r ]`. -/
def isSpace (c : Char) : Bool :=
  c == '\t' || c == '\n' || c == '\x0c' || c == '\r' || c == ' '

/-- Go's `\d` and `[0-9]`. -/
def isDigit (c : Char) : Bool := decide ('0' ≤ c) && decide (c ≤ '9')

/-- Go's `\w`: `[0-9A-Za-z_]`. -/
def isWord (c : Char) : Bool :=
  isDigit c || (decide ('A' ≤ c) && decide (c ≤ 'Z')) ||
    (decide ('a' ≤ c) && decide (c ≤ 'z')) || c == '_'

/-- Go's `.` without the `s` flag: any character but a newline. -/
def isDot (c : Char) : Bool := c != '\n'

/-- Go's `.` under `(?s)`: any character. -/
def isAny (_ : Char) : Bool := true

open Regex in
/-- The class `\s`. -/
def reSpace : Regex := cls isSpace

/-! ## The pattern constants of `rfc.go` -/

section Patterns
open Regex

/-- The pattern `\r?\n{2,}\s*`. -/
def newLinesPattern : Regex :=
  seq (opt (chr '\r')) (seq (atLeastTwo (chr '\n')) (star reSpace))

/-- The pattern `\r?\n{2,}`. -/
def newLinesPattern2 : Regex :=
  seq (opt (chr '\r')) (atLeastTwo (chr '\n'))

/-- The pattern `(?:\r?\n|\s)+`. -/
def whiteSpacesPattern : Regex :=
  plus (alt (seq (opt (chr '\r')) (chr '\n')) reSpace)

/-- The alternation
`(?:Standards Track|Informational|Experimental|Best Current Practice|Historic)`. -/
def statusTags : Regex :=
  alt (lit "Standards Track".toList)
    (alt (lit "Informational".toList)
      (alt (lit "Experimental".toList)
        (alt (lit "Best Current Practice".toList) (lit "Historic".toList))))

/-- The pattern
`^.*\s+(?:Standards Track|Informational|Experimental|Best Current Practice|Historic)\s+\[Page [0-9]+\]$`. -/
def firstPageHeaderPattern : Regex :=
  seq bot (seq (star (cls isDot)) (seq (plus reSpace) (seq statusTags
    (seq (plus reSpace) (seq (lit "[Page ".toList)
      (seq (plus (cls isDigit)) (seq (chr ']') eot)))))))

/-- The pattern `^RFC\s[0-9]+\s+[\w\s]+\s+\w+\s\d{4}$`. -/
def secondPageHeaderPattern : Regex :=
  seq bot (seq (lit "RFC".toList) (seq reSpace (seq (plus (cls isDigit))
    (seq (plus reSpace) (seq (plus (cls (fun c => isWord c || isSpace c)))
      (seq (plus reSpace) (seq (plus (cls isWord)) (seq reSpace
        (seq (cls isDigit) (seq (cls isDigit) (seq (cls isDigit)
          (seq (cls isDigit) eot))))))))))))

/-- The end marker `1\.\s{2}Introduction` of the table of contents. -/
def tocEndMarker : Regex :=
  seq (chr '1') (seq (chr '.') (seq reSpace (seq reSpace (lit "Introduction".toList))))

/-- The start marker `Table\sof\sContents` of the table of contents. -/
def tocStartMarker : Regex :=
  seq (lit "Table".toList) (seq reSpace (seq (lit "of".toList)
    (seq reSpace (lit "Contents".toList))))

/-- The pattern `Table\sof\sContents((?s).*)1\.\s{2}Introduction`. -/
def tableOfContentsPattern : Regex :=
  seq tocStartMarker (seq (star (cls isAny)) tocEndMarker)

end Patterns

/-! ## String constants of `rfc.go` -/

/-- The constant `newLine`. -/
def newLine : List Char := ['\n']

/-- The constant `newLines`. -/
def newLines : List Char := ['\n', '\n']

/-- The constant `newLinesPlaceholder`. -/
def newLinesPlaceholder : List Char := "NEWLINES_PLACEHOLDER".toList

/-- The constant `tablePlaceholder`. -/
def tablePlaceholder : List Char := "TABLE_PLACEHOLDER".toList

/-! ## The functions of package `strings` that the source calls -/

/-- Go's `strings.Split(s, sep)` for a separator of one character. -/
def stringsSplit (s : List Char) (sep : Char) : List (List Char) :=
  s.splitOn sep

/-- Go's `strings.Join(parts, sep)`. -/
def stringsJoin (parts : List (List Char)) (sep : List Char) : List Char :=
  sep.intercalate parts

/-- The loop of Go's `strings.ReplaceAll(s, old, new)` for a non-empty `old`:
the occurrences of `old` are replaced from left to right, without overlap. -/
def stringsReplaceLoop (old new : List Char) : Nat → List Char → List Char
  | 0, s => s
  | _ + 1, [] => []
  | fuel + 1, c :: cs =>
    if old.isPrefixOf (c :: cs) then
      new ++ stringsReplaceLoop old new fuel ((c :: cs).drop old.length)
    else
      c :: stringsReplaceLoop old new fuel cs

/-- Go's `strings.ReplaceAll(s, old, new)`, `old` not empty. -/
def stringsReplaceAll (s old new : List Char) : List Char :=
  stringsReplaceLoop old new s.length s

/-! ## The functions of `rfc.go` -/

/-- Whether a line is a page header: the condition under which the loop of
`removePageHeader` drops it. -/
def isPageHeader (line : List Char) : Bool :=
  Regex.matchString firstPageHeaderPattern line ||
    Regex.matchString secondPageHeaderPattern line

/-- The method `removePageHeader`. -/
def removePageHeader (text : List Char) : List Char :=
  let lines := stringsSplit text '\n'
  let filteredLines := lines.filter (fun line =>
    !Regex.matchString firstPageHeaderPattern line &&
      !Regex.matchString secondPageHeaderPattern line)
  stringsJoin filteredLines newLine

/-- The method `cleanWhitespace`. -/
def cleanWhitespace (text : List Char) : List Char :=
  let table := Regex.findString tableOfContentsPattern text
  let table := Regex.replaceAllString newLinesPattern2 table newLine
  let text := Regex.replaceAllString tableOfContentsPattern text tablePlaceholder
  let text := Regex.replaceAllString newLinesPattern text newLinesPlaceholder
  let text := Regex.replaceAllString whiteSpacesPattern text " ".toList
  let text := stringsReplaceAll text newLinesPlaceholder newLines
  let text := stringsReplaceAll text tablePlaceholder table
  text

/-- The two text stages that `GetText` applies to the fetched body. -/
def normalize (text : List Char) : List Char :=
  cleanWhitespace (removePageHeader text)


/-! ## Fetching: `GetText` -/

/-- An `error` value of Go as `GetText` returns it: an error produced outside
this package (by the HTTP client or by reading the body) and passed on
unchanged, or the error built by `fmt.Errorf` with its message. -/
inductive GoError (ε : Type) where
  | foreign (err : ε) : GoError ε
  | errorf (message : List Char) : GoError ε
  deriving DecidableEq

/-- The outcome of `d.client.Get(url)` followed, on a response, by
`io.ReadAll(response.Body)`: an error of the client, or a response with its
status code and its body, the reading of which may fail. -/
inductive HttpResult (ε : Type) where
  | failure (err : ε) : HttpResult ε
  | response (statusCode : Int) (body : Except ε (List Char)) : HttpResult ε

/-- The constant `http.StatusOK`. -/
def statusOK : Int := 200

/-- The address `fmt.Sprintf("https://www.rfc-editor.org/rfc/rfc%d.txt", number)`. -/
def rfcURL (number : Int) : List Char :=
  "https://www.rfc-editor.org/rfc/rfc".toList ++ (toString number).toList ++ ".txt".toList

/-- The method `GetText`, the HTTP client being a parameter; the result is the
pair of the returned text and the returned error (`none` for `nil`). -/
def GetText {ε : Type} (client : List Char → HttpResult ε) (number : Int) :
    List Char × Option (GoError ε) :=
  match client (rfcURL number) with
  | .failure err => ([], some (.foreign err))
  | .response statusCode body =>
    if statusCode = statusOK then
      match body with
      | .error err => ([], some (.foreign err))
      | .ok bodyBytes => (cleanWhitespace (removePageHeader bodyBytes), none)
    else
      ([], some (.errorf
        ("failed to fetch RFC document, status code: ".toList ++ (toString statusCode).toList)))

/-! ## Auxiliary definitions used by the proofs -/

/-- A matching function: at the front of a text, either no match, or the
replacement to emit and the text left after the match. -/
abbrev MatchFn := List Char → Option (List Char × List Char)

/-- Left-to-right rewriting of the non-overlapping matches of `mf`. -/
def rewriteLoop (mf : MatchFn) : Nat → List Char → List Char
  | 0, s => s
  | fuel + 1, s =>
    match mf s with
    | some (out, rest) => out ++ rewriteLoop mf fuel rest
    | none =>
      match s with
      | [] => []
      | c :: cs => c :: rewriteLoop mf fuel cs

/-- Rewriting with enough fuel. -/
def rewrite (mf : MatchFn) (s : List Char) : List Char :=
  rewriteLoop mf (s.length + 1) s

/-- Every match of `mf` consumes at least one character. -/
def Shrinks (mf : MatchFn) : Prop :=
  ∀ s out rest, mf s = some (out, rest) → rest.length < s.length

/-- The matching function of a regular expression whose preferred match at the
front is given by `m`, with the fixed replacement `repl`. -/
def reFn (m : List Char → Option (List Char)) (repl : List Char) : MatchFn :=
  fun s => (m s).map (fun rest => (repl, rest))

/-- The matching function of `strings.ReplaceAll old new`. -/
def litFn (old new : List Char) : MatchFn :=
  fun s => if old.isPrefixOf s then some (new, s.drop old.length) else none


/-- Greedy repetition of a character class followed by `k`, by recursion on
the text. -/
def clsStar {α : Type} (p : Char → Bool) (k : List Char → Option α) : List Char → Option α
  | [] => k []
  | c :: cs =>
    if p c then
      match clsStar p k cs with
      | some x => some x
      | none => k (c :: cs)
    else k (c :: cs)

/-- The regular expression does not use `^`. -/
def Regex.noBot : Regex → Bool
  | .eps => true
  | .cls _ => true
  | .seq a b => a.noBot && b.noBot
  | .alt a b => a.noBot && b.noBot
  | .star a => a.noBot
  | .bot => false
  | .eot => true

/-- The character is a newline. -/
def isNL (c : Char) : Bool := c == '\n'

/-- The text starts with `\n\n` or with `\r\n\n`: a match of `\r?\n{2,}` starts here. -/
def startsNL : List Char → Bool
  | [] => false
  | c :: cs => if c == '\r' then newLines.isPrefixOf cs else newLines.isPrefixOf (c :: cs)

/-- The preferred match of `newLinesPattern` at the front of a text. -/
def mNL (s : List Char) : Option (List Char) :=
  if startsNL s then some (s.dropWhile isSpace) else none

/-- The preferred match of `newLinesPattern2` at the front of a text. -/
def mNL2 : List Char → Option (List Char)
  | [] => none
  | c :: cs =>
    if c == '\r' then (if newLines.isPrefixOf cs then some (cs.dropWhile isNL) else none)
    else if newLines.isPrefixOf (c :: cs) then some ((c :: cs).dropWhile isNL) else none

/-- The preferred match of `whiteSpacesPattern` at the front of a text. -/
def mWS : List Char → Option (List Char)
  | [] => none
  | c :: cs => if isSpace c then some (cs.dropWhile isSpace) else none


/-- The regular expression is a sequence of single characters: it has one way
to match, of a fixed width. -/
def Regex.isSimple : Regex → Bool
  | .eps => true
  | .cls _ => true
  | .seq a b => a.isSimple && b.isSimple
  | _ => false

/-- The number of characters that a sequence of single characters matches. -/
def Regex.width : Regex → Nat
  | .cls _ => 1
  | .seq a b => a.width + b.width
  | _ => 0

/-- The text left after the last match of the end marker `1\.\s{2}Introduction`
in a text: the continuation of the greedy `(?s).*`. -/
def lastEnd (s : List Char) : Option (List Char) :=
  clsStar isAny (fun u => Regex.matchFront tocEndMarker 0 u) s

/-- The preferred match of `tableOfContentsPattern` at the front of a text. -/
def mToc (s : List Char) : Option (List Char) :=
  (Regex.matchFront tocStartMarker 0 s).bind lastEnd


/-- The replacement of the table of contents by its placeholder, as a rewriting. -/
def tocPass (s : List Char) : List Char := rewrite (reFn mToc tablePlaceholder) s

/-- The replacement of paragraph breaks by their placeholder, as a rewriting. -/
def nlPass (s : List Char) : List Char := rewrite (reFn mNL newLinesPlaceholder) s

/-- The replacement of whitespace runs by one space, as a rewriting. -/
def wsPass (s : List Char) : List Char := rewrite (reFn mWS [' ']) s

/-- The restoration of the paragraph breaks, as a rewriting. -/
def nlRestore (s : List Char) : List Char := rewrite (litFn newLinesPlaceholder newLines) s

/-- The restoration of the table of contents, as a rewriting. -/
def tableRestore (table s : List Char) : List Char := rewrite (litFn tablePlaceholder table) s

/-- The cleaning of the extracted table of contents, as a rewriting. -/
def cleanTable (s : List Char) : List Char := rewrite (reFn mNL2 newLine) s

/-- The parity automaton of newline runs: `evenRuns odd s` tells that every
maximal run of newlines of `s` has even length, the first one counted with one
more newline when `odd` is set. -/
def evenRuns : Bool → List Char → Bool
  | odd, [] => !odd
  | odd, c :: cs => if c == '\n' then evenRuns (!odd) cs else (!odd && evenRuns false cs)


/-- A match of `mf` that starts before an occurrence of the character `c`
ends before it: the text left after the match still holds `c` and what
follows it. -/
def StopsAt (mf : MatchFn) (c : Char) : Prop :=
  ∀ (x : Char) (xs Z out rest : List Char), mf (x :: (xs ++ c :: Z)) = some (out, rest) →
    ∃ ys, rest = ys ++ c :: Z ∧ ys.length ≤ xs.length


/-- The replacements of `mf` cannot take part in an occurrence of `w`: each
starts with a character that is not in `w` and holds no character with which
`w` starts; and a match leaves a suffix of the text. -/
def Fresh (mf : MatchFn) (w : List Char) : Prop :=
  ∀ s out rest, mf s = some (out, rest) →
    rest <:+ s ∧ (∃ o os, out = o :: os ∧ o ∉ w) ∧ (∀ x ∈ out, w.head? ≠ some x)


/-- Skip the whitespace in front of a text up to the start of a paragraph
break (a match of `\r?\n{2,}\s*`) or of a word. -/
def skipWS : List Char → List Char
  | [] => []
  | c :: cs => if isSpace c && !startsNL (c :: cs) then skipWS cs else c :: cs

/-- The matching function of the two whitespace passes taken together: a
paragraph break and the whitespace after it become `brk`, other whitespace up
to the next paragraph break or word becomes one space. -/
def mCanon (brk : List Char) : MatchFn
  | [] => none
  | c :: cs =>
    if startsNL (c :: cs) then some (brk, (c :: cs).dropWhile isSpace)
    else if isSpace c then some ([' '], skipWS cs)
    else none

/-- The whitespace of a text in canonical form, a paragraph break written `brk`. -/
def canon (brk : List Char) (s : List Char) : List Char := rewrite (mCanon brk) s


/-! ## Rewriting: fuel and unfolding -/

theorem Shrinks.nil {mf : MatchFn} (h : Shrinks mf) : mf [] = none := by
  cases hm : mf [] with
  | none => rfl
  | some p =>
    obtain ⟨out, rest⟩ := p
    have := h [] out rest hm
    simp at this

theorem rewriteLoop_fuel {mf : MatchFn} (h : Shrinks mf) :
    ∀ (f g : Nat) (s : List Char), s.length < f → s.length < g →
      rewriteLoop mf f s = rewriteLoop mf g s := by
  intro f
  induction f with
  | zero => intro g s hf; omega
  | succ f ih =>
    intro g s hf hg
    cases g with
    | zero => omega
    | succ g =>
      simp only [rewriteLoop]
      cases hm : mf s with
      | some p =>
        obtain ⟨out, rest⟩ := p
        have hl := h s out rest hm
        simp only
        rw [ih g rest (by omega) (by omega)]
      | none =>
        cases s with
        | nil => rfl
        | cons c cs =>
          simp only
          simp only [List.length_cons] at hf hg
          rw [ih g cs (by omega) (by omega)]

theorem rewriteLoop_succ (mf : MatchFn) (fuel : Nat) (s : List Char) :
    rewriteLoop mf (fuel + 1) s =
      match mf s with
      | some (out, rest) => out ++ rewriteLoop mf fuel rest
      | none =>
        match s with
        | [] => []
        | c :: cs => c :: rewriteLoop mf fuel cs := rfl

theorem rewrite_nil {mf : MatchFn} (h : Shrinks mf) : rewrite mf [] = [] := by
  simp [rewrite, rewriteLoop, h.nil]

theorem rewrite_match {mf : MatchFn} (h : Shrinks mf) {s out rest : List Char}
    (hm : mf s = some (out, rest)) : rewrite mf s = out ++ rewrite mf rest := by
  have hl := h s out rest hm
  have h1 : rewrite mf s = out ++ rewriteLoop mf s.length rest := by
    show rewriteLoop mf (s.length + 1) s = _
    rw [rewriteLoop_succ]; simp only [hm]
  rw [h1, rewriteLoop_fuel h s.length (rest.length + 1) rest hl (by omega)]; rfl

theorem rewrite_skip {mf : MatchFn} {c : Char} {cs : List Char}
    (hm : mf (c :: cs) = none) : rewrite mf (c :: cs) = c :: rewrite mf cs := by
  show rewriteLoop mf ((c :: cs).length + 1) (c :: cs) = c :: rewriteLoop mf (cs.length + 1) cs
  rw [rewriteLoop_succ]; simp only [hm, List.length_cons]

theorem reFn_shrinks {m : List Char → Option (List Char)} (repl : List Char)
    (hlt : ∀ s rest, m s = some rest → rest.length < s.length) : Shrinks (reFn m repl) := by
  intro s out rest hm
  simp only [reFn, Option.map_eq_some'] at hm
  obtain ⟨a, ha, hp⟩ := hm
  simp only [Prod.mk.injEq] at hp
  rw [← hp.2]
  exact hlt s a ha

theorem litFn_shrinks (old new : List Char) (hold : old ≠ []) : Shrinks (litFn old new) := by
  intro s out rest hm
  simp only [litFn] at hm
  split at hm
  · rename_i hp
    simp only [Option.some.injEq, Prod.mk.injEq] at hm
    rw [← hm.2]
    have hp2 : old <+: s := List.isPrefixOf_iff_prefix.mp hp
    have hlen := hp2.length_le
    have : 0 < old.length := List.length_pos.mpr hold
    simp only [List.length_drop]
    omega
  · simp at hm

theorem replaceLoop_eq (r : Regex) (repl : List Char) (n : Nat)
    (m : List Char → Option (List Char)) (hm : ∀ s, Regex.matchFront r n s = m s)
    (hlt : ∀ s rest, m s = some rest → rest.length < s.length) :
    ∀ (fuel : Nat) (b : Bool) (s : List Char),
      Regex.replaceLoop r repl n fuel b s = rewriteLoop (reFn m repl) fuel s := by
  intro fuel
  induction fuel with
  | zero => intro b s; rfl
  | succ fuel ih =>
    intro b s
    simp only [Regex.replaceLoop, rewriteLoop, hm, reFn]
    cases hms : m s with
    | some rest =>
      have := hlt s rest hms
      simp only [this, if_true, Option.map_some']
      rw [ih]
    | none =>
      simp only [Option.map_none']
      cases s with
      | nil => rfl
      | cons c cs => simp only; rw [ih]

theorem replaceAllString_eq (r : Regex) (s repl : List Char)
    (m : List Char → Option (List Char)) (hm : ∀ n s, Regex.matchFront r n s = m s)
    (hlt : ∀ s rest, m s = some rest → rest.length < s.length) :
    Regex.replaceAllString r s repl = rewrite (reFn m repl) s := by
  simp only [Regex.replaceAllString, rewrite]
  exact replaceLoop_eq r repl s.length m (hm s.length) hlt _ _ _

theorem stringsReplaceLoop_eq (old new : List Char) (hold : old ≠ []) :
    ∀ (fuel : Nat) (s : List Char), s.length ≤ fuel →
      stringsReplaceLoop old new fuel s = rewrite (litFn old new) s := by
  have hs := litFn_shrinks old new hold
  intro fuel
  induction fuel with
  | zero =>
    intro s hl
    have : s = [] := List.length_eq_zero.mp (by omega)
    subst this
    rw [rewrite_nil hs]; rfl
  | succ fuel ih =>
    intro s hl
    cases s with
    | nil => rw [rewrite_nil hs]; rfl
    | cons c cs =>
      simp only [stringsReplaceLoop]
      by_cases hp : old.isPrefixOf (c :: cs) = true
      · have hm : litFn old new (c :: cs) = some (new, (c :: cs).drop old.length) := by
          simp [litFn, hp]
        have hlt := hs _ _ _ hm
        rw [rewrite_match hs hm, if_pos hp, ih _ (by simp only [List.length_cons] at hl hlt; omega)]
      · have hm : litFn old new (c :: cs) = none := by simp [litFn, hp]
        rw [rewrite_skip hm, if_neg hp, ih _ (by simpa using hl)]

theorem stringsReplaceAll_eq (s old new : List Char) (hold : old ≠ []) :
    stringsReplaceAll s old new = rewrite (litFn old new) s :=
  stringsReplaceLoop_eq old new hold _ _ (le_refl _)


/-! ## The matcher on the patterns of the source -/

section Matcher
open Regex

theorem run_noBot {α : Type} (n m : Nat) :
    ∀ (r : Regex), r.noBot = true →
      (run n r : List Char → (List Char → Option α) → Option α) = run m r := by
  intro r
  induction r with
  | eps => intro _; funext s k; rfl
  | cls p => intro _; funext s k; cases s <;> rfl
  | seq a b iha ihb =>
    intro h
    simp only [Regex.noBot, Bool.and_eq_true] at h
    funext s k
    simp only [run, iha h.1, ihb h.2]
  | alt a b iha ihb =>
    intro h
    simp only [Regex.noBot, Bool.and_eq_true] at h
    funext s k
    simp only [run, iha h.1, ihb h.2]
  | star a iha =>
    intro h
    simp only [Regex.noBot] at h
    funext s k
    simp only [run, iha h]
  | bot => intro h; simp [Regex.noBot] at h
  | eot => intro _; funext s k; rfl

theorem matchFront_noBot (r : Regex) (h : r.noBot = true) (n : Nat) (s : List Char) :
    matchFront r n s = matchFront r 0 s := by
  simp only [matchFront, run_noBot n 0 r h]

theorem run_chr_nil {α : Type} (n : Nat) (c : Char) (k : List Char → Option α) :
    run n (chr c) [] k = none := rfl

theorem run_chr_cons {α : Type} (n : Nat) (c x : Char) (xs : List Char)
    (k : List Char → Option α) :
    run n (chr c) (x :: xs) k = if x = c then k xs else none := by
  simp [chr, run]

theorem starLoop_cls {α : Type} (n : Nat) (p : Char → Bool) (k : List Char → Option α) :
    ∀ (fuel : Nat) (s : List Char), s.length ≤ fuel →
      starLoop (fun t j => run n (cls p) t j) k fuel s = clsStar p k s := by
  intro fuel
  induction fuel with
  | zero =>
    intro s hl
    have : s = [] := List.length_eq_zero.mp (by omega)
    subst this; rfl
  | succ fuel ih =>
    intro s hl
    cases s with
    | nil => rfl
    | cons c cs =>
      simp only [List.length_cons] at hl
      simp only [starLoop, run, clsStar]
      by_cases hp : p c = true
      · simp only [hp, if_true, List.length_cons, Nat.lt_succ_self]
        rw [ih cs (by omega)]
      · simp only [hp]; rfl

theorem run_star_cls {α : Type} (n : Nat) (p : Char → Bool) (s : List Char)
    (k : List Char → Option α) : run n (star (cls p)) s k = clsStar p k s := by
  simp only [run]
  exact starLoop_cls n p k _ _ (le_refl _)

theorem clsStar_some (p q : Char → Bool) (hpq : ∀ c, p c = true → q c = true) :
    ∀ s : List Char, clsStar p (fun u => some (u.dropWhile q)) s = some (s.dropWhile q) := by
  intro s
  induction s with
  | nil => rfl
  | cons c cs ih =>
    simp only [clsStar, ih]
    by_cases hp : p c = true
    · simp [hp, hpq c hp]
    · simp [hp]

end Matcher

section Matcher2
open Regex

theorem run_eps {α : Type} (n : Nat) (s : List Char) (k : List Char → Option α) :
    run n eps s k = k s := rfl

theorem run_seq {α : Type} (n : Nat) (a b : Regex) (s : List Char) (k : List Char → Option α) :
    run n (seq a b) s k = run n a s (fun t => run n b t k) := rfl

theorem run_alt {α : Type} (n : Nat) (a b : Regex) (s : List Char) (k : List Char → Option α) :
    run n (alt a b) s k =
      match run n a s k with
      | some x => some x
      | none => run n b s k := rfl

theorem run_cls_nil {α : Type} (n : Nat) (p : Char → Bool) (k : List Char → Option α) :
    run n (cls p) [] k = none := rfl

theorem run_cls_cons {α : Type} (n : Nat) (p : Char → Bool) (c : Char) (cs : List Char)
    (k : List Char → Option α) :
    run n (cls p) (c :: cs) k = if p c then k cs else none := rfl

theorem isSpace_nl : isSpace '\n' = true := by decide
theorem isSpace_cr : isSpace '\r' = true := by decide

theorem isPrefixOf_newLines (s : List Char) :
    newLines.isPrefixOf s = true ↔ ∃ t, s = '\n' :: '\n' :: t := by
  cases s with
  | nil => simp [newLines]
  | cons a s =>
    cases s with
    | nil => simp [newLines, List.isPrefixOf]
    | cons b s =>
      simp only [newLines, List.isPrefixOf, Bool.and_eq_true, beq_iff_eq, List.cons.injEq]
      constructor
      · rintro ⟨rfl, rfl, _⟩; exact ⟨s, rfl, rfl, rfl⟩
      · rintro ⟨t, h1, h2, _⟩; exact ⟨h1.symm, h2.symm, trivial⟩

theorem clsStar_some_id (p : Char → Bool) :
    ∀ s : List Char, clsStar p some s = some (s.dropWhile p) := by
  intro s
  induction s with
  | nil => rfl
  | cons c cs ih =>
    simp only [clsStar, ih]
    by_cases hp : p c = true
    · simp [hp]
    · simp [hp]

theorem run_atLeastTwo_nl {α : Type} (n : Nat) (k : List Char → Option α) (s : List Char) :
    run n (atLeastTwo (chr '\n')) s k =
      if newLines.isPrefixOf s then clsStar isNL k (s.drop 2) else none := by
  have hstar : ∀ t : List Char, run n (star (chr '\n')) t k = clsStar isNL k t := by
    intro t
    show run n (star (cls (fun x => x == '\n'))) t _ = _
    rw [run_star_cls]; rfl
  by_cases hp : newLines.isPrefixOf s = true
  · obtain ⟨t, rfl⟩ := (isPrefixOf_newLines s).mp hp
    rw [if_pos hp]
    rw [atLeastTwo, run_seq, run_chr_cons, if_pos rfl, run_seq, run_chr_cons, if_pos rfl, hstar]
    rfl
  · rw [if_neg hp]
    cases s with
    | nil => rfl
    | cons a s =>
      rw [atLeastTwo, run_seq, run_chr_cons]
      by_cases ha : a = '\n'
      · subst ha
        cases s with
        | nil => rfl
        | cons b s =>
          rw [if_pos rfl, run_seq, run_chr_cons]
          by_cases hb : b = '\n'
          · subst hb; exact absurd ((isPrefixOf_newLines _).mpr ⟨s, rfl⟩) hp
          · simp [hb]
      · simp [ha]

/-- The tail `\n{2,}` followed by a greedy class `q` that contains the newline. -/
theorem run_atLeastTwo (n : Nat) (q : Char → Bool) (hq : q '\n' = true) (s : List Char) :
    run n (atLeastTwo (chr '\n')) s (fun u => some (u.dropWhile q)) =
      if newLines.isPrefixOf s then some (s.dropWhile q) else none := by
  rw [run_atLeastTwo_nl]
  by_cases hp : newLines.isPrefixOf s = true
  · obtain ⟨t, rfl⟩ := (isPrefixOf_newLines s).mp hp
    rw [if_pos hp, if_pos hp]
    rw [clsStar_some isNL q (by intro c hc; simp only [isNL, beq_iff_eq] at hc; rw [hc]; exact hq)]
    simp [hq]
  · rw [if_neg hp, if_neg hp]

theorem run_opt_cr {α : Type} (n : Nat) (s : List Char) (k : List Char → Option α)
    (hk : ∀ t, k ('\r' :: t) = none) :
    run n (opt (chr '\r')) s k =
      match s with
      | [] => k []
      | c :: cs => if c = '\r' then k cs else k (c :: cs) := by
  cases s with
  | nil => rfl
  | cons c cs =>
    rw [opt, run_alt, run_chr_cons, run_eps]
    by_cases hc : c = '\r'
    · subst hc
      simp only [if_true, hk]
      cases k cs <;> rfl
    · simp [hc]

theorem not_isPrefixOf_newLines_cr (t : List Char) :
    newLines.isPrefixOf ('\r' :: t) = false := by
  simp [newLines, List.isPrefixOf]

theorem matchFront_newLinesPattern (n : Nat) (s : List Char) :
    matchFront newLinesPattern n s = mNL s := by
  have h1 : (fun t => run n (star reSpace) t some) = fun t => some (t.dropWhile isSpace) := by
    funext t
    rw [reSpace, run_star_cls, clsStar_some_id]
  have h2 : (fun t => run n (seq (atLeastTwo (chr '\n')) (star reSpace)) t some) =
      fun t => if newLines.isPrefixOf t then some (t.dropWhile isSpace) else none := by
    funext t
    rw [run_seq, h1, run_atLeastTwo n isSpace isSpace_nl t]
  rw [matchFront, newLinesPattern, run_seq, h2, run_opt_cr]
  · cases s with
    | nil => rfl
    | cons c cs =>
      simp only [mNL, startsNL, beq_iff_eq]
      by_cases hc : c = '\r'
      · subst hc
        simp only [if_true]
        by_cases hp : newLines.isPrefixOf cs = true
        · simp [hp, isSpace_cr]
        · simp [hp]
      · simp only [hc, if_false]
  · intro t
    simp [not_isPrefixOf_newLines_cr]

theorem matchFront_newLinesPattern2 (n : Nat) (s : List Char) :
    matchFront newLinesPattern2 n s = mNL2 s := by
  have h2 : (fun t => run n (atLeastTwo (chr '\n')) t some) =
      fun t => if newLines.isPrefixOf t then some (t.dropWhile isNL) else none := by
    funext t
    rw [run_atLeastTwo_nl]
    by_cases hp : newLines.isPrefixOf t = true
    · obtain ⟨u, rfl⟩ := (isPrefixOf_newLines t).mp hp
      rw [if_pos hp, if_pos hp, clsStar_some_id]
      simp [isNL]
    · rw [if_neg hp, if_neg hp]
  rw [matchFront, newLinesPattern2, run_seq, h2, run_opt_cr]
  · cases s with
    | nil => rfl
    | cons c cs =>
      simp only [mNL2, beq_iff_eq]
  · intro t
    simp [not_isPrefixOf_newLines_cr]

end Matcher2

section Matcher3
open Regex

theorem starLoop_zero {α : Type} (step : List Char → (List Char → Option α) → Option α)
    (k : List Char → Option α) (s : List Char) : starLoop step k 0 s = k s := rfl

theorem starLoop_succ {α : Type} (step : List Char → (List Char → Option α) → Option α)
    (k : List Char → Option α) (fuel : Nat) (s : List Char) :
    starLoop step k (fuel + 1) s =
      match step s (fun t => if t.length < s.length then starLoop step k fuel t else none) with
      | some x => some x
      | none => k s := rfl

theorem run_star {α : Type} (n : Nat) (a : Regex) (s : List Char) (k : List Char → Option α) :
    run n (star a) s k = starLoop (fun t j => run n a t j) k s.length s := rfl

/-- One iteration of `(?:\r?\n|\s)` in front of a continuation that succeeds
on every shorter text. -/
theorem run_wsBody (n : Nat) (c : Char) (cs : List Char) (j : List Char → Option (List Char))
    (hj : ∀ t : List Char, t.length ≤ cs.length → j t = some (t.dropWhile isSpace)) :
    run n (alt (seq (opt (chr '\r')) (chr '\n')) reSpace) (c :: cs) j =
      if isSpace c then some (cs.dropWhile isSpace) else none := by
  rw [run_alt, run_seq, run_opt_cr n _ _ (by intro t; rw [run_chr_cons]; simp)]
  simp only
  by_cases hc : c = '\r'
  · subst hc
    rw [if_pos rfl, reSpace, run_cls_cons, isSpace_cr, if_pos rfl, if_pos rfl, hj cs (le_refl _)]
    cases cs with
    | nil => rfl
    | cons x xs =>
      rw [run_chr_cons]
      by_cases hx : x = '\n'
      · subst hx
        rw [if_pos rfl, hj xs (by simp)]
        simp [isSpace_nl]
      · rw [if_neg hx]
  · rw [if_neg hc, run_chr_cons, reSpace, run_cls_cons]
    by_cases hx : c = '\n'
    · subst hx
      rw [if_pos rfl, hj cs (le_refl _), isSpace_nl, if_pos rfl]
    · rw [if_neg hx]
      by_cases hs : isSpace c = true
      · rw [if_pos hs, if_pos hs, hj cs (le_refl _)]
      · rw [if_neg hs, if_neg hs]

theorem starLoop_wsBody (n : Nat) :
    ∀ (fuel : Nat) (s : List Char), s.length ≤ fuel →
      starLoop (fun t j => run n (alt (seq (opt (chr '\r')) (chr '\n')) reSpace) t j)
        some fuel s = some (s.dropWhile isSpace) := by
  intro fuel
  induction fuel with
  | zero =>
    intro s hl
    have : s = [] := List.length_eq_zero.mp (by omega)
    subst this; rfl
  | succ fuel ih =>
    intro s hl
    cases s with
    | nil => rfl
    | cons c cs =>
      simp only [List.length_cons] at hl
      rw [starLoop_succ, run_wsBody]
      · by_cases hs : isSpace c = true
        · simp [hs]
        · simp [hs]
      · intro t ht
        rw [if_pos (by simp only [List.length_cons]; omega), ih t (by omega)]

theorem matchFront_whiteSpacesPattern (n : Nat) (s : List Char) :
    matchFront whiteSpacesPattern n s = mWS s := by
  rw [matchFront, whiteSpacesPattern, plus, run_seq]
  cases s with
  | nil => rfl
  | cons c cs =>
    rw [run_wsBody]
    · rfl
    · intro t _
      rw [run_star]
      exact starLoop_wsBody n _ _ (le_refl _)

end Matcher3

section Matcher4
open Regex

theorem run_simple (n : Nat) :
    ∀ (r : Regex), r.isSimple = true → ∀ (α : Type) (s : List Char) (k : List Char → Option α),
      run n r s k = (run n r s some).bind k := by
  intro r
  induction r with
  | eps => intro _ α s k; rfl
  | cls p =>
    intro _ α s k
    cases s with
    | nil => rfl
    | cons c cs =>
      rw [run_cls_cons, run_cls_cons]
      by_cases hp : p c = true
      · rw [if_pos hp, if_pos hp]; rfl
      · rw [if_neg hp, if_neg hp]; rfl
  | seq a b iha ihb =>
    intro h α s k
    simp only [Regex.isSimple, Bool.and_eq_true] at h
    rw [run_seq, run_seq, iha h.1 α s (fun t => run n b t k),
      iha h.1 (List Char) s (fun t => run n b t some)]
    rw [Option.bind_assoc]
    congr 1
    funext t
    exact ihb h.2 α t k
  | alt a b _ _ => intro h; simp [Regex.isSimple] at h
  | star a _ => intro h; simp [Regex.isSimple] at h
  | bot => intro h; simp [Regex.isSimple] at h
  | eot => intro h; simp [Regex.isSimple] at h

theorem run_simple_width (n : Nat) :
    ∀ (r : Regex), r.isSimple = true → ∀ (s t : List Char),
      run n r s some = some t → ∃ w, s = w ++ t ∧ w.length = r.width := by
  intro r
  induction r with
  | eps =>
    intro _ s t h
    rw [run_eps] at h
    exact ⟨[], by simpa using (Option.some.inj h), rfl⟩
  | cls p =>
    intro _ s t h
    cases s with
    | nil => simp [run_cls_nil] at h
    | cons c cs =>
      rw [run_cls_cons] at h
      by_cases hp : p c = true
      · rw [if_pos hp] at h
        exact ⟨[c], by simpa using (Option.some.inj h), rfl⟩
      · rw [if_neg hp] at h; simp at h
  | seq a b iha ihb =>
    intro h s t hr
    simp only [Regex.isSimple, Bool.and_eq_true] at h
    rw [run_seq, run_simple n a h.1 _] at hr
    cases ha : run n a s some with
    | none => rw [ha] at hr; simp at hr
    | some u =>
      rw [ha] at hr
      simp only [Option.some_bind] at hr
      obtain ⟨w1, hw1, hl1⟩ := iha h.1 s u ha
      obtain ⟨w2, hw2, hl2⟩ := ihb h.2 u t hr
      exact ⟨w1 ++ w2, by rw [hw1, hw2, List.append_assoc], by simp [hl1, hl2, Regex.width]⟩
  | alt a b _ _ => intro h; simp [Regex.isSimple] at h
  | star a _ => intro h; simp [Regex.isSimple] at h
  | bot => intro h; simp [Regex.isSimple] at h
  | eot => intro h; simp [Regex.isSimple] at h

theorem lit_isSimple : ∀ p : List Char, (lit p).isSimple = true := by
  intro p
  induction p with
  | nil => rfl
  | cons c cs ih => simp [lit, Regex.isSimple, chr, ih]

theorem lit_noBot : ∀ p : List Char, (lit p).noBot = true := by
  intro p
  induction p with
  | nil => rfl
  | cons c cs ih => simp [lit, Regex.noBot, chr, ih]

theorem lit_width : ∀ p : List Char, (lit p).width = p.length := by
  intro p
  induction p with
  | nil => rfl
  | cons c cs ih => simp [lit, Regex.width, chr, ih]; omega

theorem tocStartMarker_isSimple : tocStartMarker.isSimple = true := by
  simp [tocStartMarker, Regex.isSimple, lit_isSimple, reSpace]

theorem tocEndMarker_isSimple : tocEndMarker.isSimple = true := by
  simp [tocEndMarker, Regex.isSimple, lit_isSimple, reSpace, chr]

theorem tocStartMarker_noBot : tocStartMarker.noBot = true := by
  simp [tocStartMarker, Regex.noBot, lit_noBot, reSpace]

theorem tocEndMarker_noBot : tocEndMarker.noBot = true := by
  simp [tocEndMarker, Regex.noBot, lit_noBot, reSpace, chr]

theorem tocStartMarker_width : tocStartMarker.width = 17 := by
  simp [tocStartMarker, Regex.width, lit_width, reSpace]

theorem tocEndMarker_width : tocEndMarker.width = 16 := by
  simp [tocEndMarker, Regex.width, lit_width, reSpace, chr]

theorem matchFront_tableOfContentsPattern (n : Nat) (s : List Char) :
    matchFront tableOfContentsPattern n s = mToc s := by
  rw [matchFront, tableOfContentsPattern, run_seq, run_simple n _ tocStartMarker_isSimple _]
  have h1 : run n tocStartMarker s some = matchFront tocStartMarker 0 s :=
    matchFront_noBot _ tocStartMarker_noBot n s
  rw [h1, mToc]
  congr 1
  funext t
  rw [run_seq, run_star_cls, lastEnd]
  congr 1
  funext u
  exact matchFront_noBot _ tocEndMarker_noBot n u

end Matcher4

/-! ## Lines -/

theorem stringsSplit_ne_nil (s : List Char) (sep : Char) : stringsSplit s sep ≠ [] :=
  List.splitOnP_ne_nil _ _

theorem stringsSplit_no_sep (sep : Char) :
    ∀ (s : List Char), ∀ l ∈ stringsSplit s sep, sep ∉ l := by
  intro s
  induction s with
  | nil =>
    intro l hl
    simp [stringsSplit] at hl
    subst hl; simp
  | cons c cs ih =>
    intro l hl
    simp only [stringsSplit, List.splitOn, List.splitOnP_cons] at hl ih
    by_cases hc : (c == sep) = true
    · rw [if_pos hc] at hl
      rcases List.mem_cons.mp hl with h | h
      · subst h; simp
      · exact ih l h
    · rw [if_neg hc] at hl
      cases hsp : List.splitOnP (fun x => x == sep) cs with
      | nil => rw [hsp] at hl; simp [List.modifyHead] at hl
      | cons l0 ls =>
        rw [hsp] at hl ih
        simp only [List.modifyHead, List.mem_cons] at hl
        rcases hl with h | h
        · subst h
          intro hm
          rcases List.mem_cons.mp hm with h1 | h1
          · exact hc (by simp [h1])
          · exact ih l0 (List.mem_cons_self _ _) h1
        · exact ih l (List.mem_cons_of_mem _ h)

theorem stringsJoin_stringsSplit (s : List Char) (sep : Char) :
    stringsJoin (stringsSplit s sep) [sep] = s :=
  List.intercalate_splitOn s sep

theorem stringsSplit_stringsJoin (ls : List (List Char)) (sep : Char)
    (hx : ∀ l ∈ ls, sep ∉ l) (hls : ls ≠ []) :
    stringsSplit (stringsJoin ls [sep]) sep = ls :=
  List.splitOn_intercalate ls sep hx hls

theorem isPageHeader_eq_false (line : List Char) :
    isPageHeader line = false ↔
      (Regex.matchString firstPageHeaderPattern line = false ∧
        Regex.matchString secondPageHeaderPattern line = false) := by
  simp [isPageHeader]

theorem removePageHeader_eq (text : List Char) :
    removePageHeader text =
      stringsJoin ((stringsSplit text '\n').filter (fun l => !isPageHeader l)) newLine := by
  simp only [removePageHeader, isPageHeader, Bool.not_or]

/-- The lines of the result of `removePageHeader` are the lines of the text
that are not page headers, or the one empty line when none is left. -/
theorem lines_removePageHeader (text : List Char) :
    stringsSplit (removePageHeader text) '\n' =
      if (stringsSplit text '\n').filter (fun l => !isPageHeader l) = [] then [[]]
      else (stringsSplit text '\n').filter (fun l => !isPageHeader l) := by
  rw [removePageHeader_eq]
  by_cases h : (stringsSplit text '\n').filter (fun l => !isPageHeader l) = []
  · rw [if_pos h, h]; rfl
  · rw [if_neg h]
    refine stringsSplit_stringsJoin _ '\n' ?_ h
    intro l hl
    exact stringsSplit_no_sep '\n' text l (List.mem_filter.mp hl).1

theorem isPageHeader_nil : isPageHeader [] = false := by decide

theorem not_isPageHeader_of_mem (text line : List Char)
    (h : line ∈ stringsSplit (removePageHeader text) '\n') : isPageHeader line = false := by
  rw [lines_removePageHeader] at h
  split at h
  · simp only [List.mem_singleton] at h
    subst h; exact isPageHeader_nil
  · have := (List.mem_filter.mp h).2
    simpa using this

/-- C5. Stage 1 removes every header line: no line of `removePageHeader text`
matches the first-page-header or the second-page-header pattern; in particular
the two header lines quoted by the specification, which both match, are never
lines of the result. -/
theorem removePageHeader_drops_headers (text : List Char) :
    (∀ line ∈ stringsSplit (removePageHeader text) '\n',
      Regex.matchString firstPageHeaderPattern line = false ∧
        Regex.matchString secondPageHeaderPattern line = false) ∧
    Regex.matchString firstPageHeaderPattern
      "...  Standards Track                                          [Page 12]".toList = true ∧
    "...  Standards Track                                          [Page 12]".toList ∉
      stringsSplit (removePageHeader text) '\n' ∧
    Regex.matchString secondPageHeaderPattern
      "RFC 5246              TLS                        August 2008".toList = true ∧
    "RFC 5246              TLS                        August 2008".toList ∉
      stringsSplit (removePageHeader text) '\n' := by
  have hall : ∀ line ∈ stringsSplit (removePageHeader text) '\n',
      Regex.matchString firstPageHeaderPattern line = false ∧
        Regex.matchString secondPageHeaderPattern line = false := fun line hl =>
    (isPageHeader_eq_false line).mp (not_isPageHeader_of_mem text line hl)
  have h1 : Regex.matchString firstPageHeaderPattern
      "...  Standards Track                                          [Page 12]".toList = true := by
    decide
  have h2 : Regex.matchString secondPageHeaderPattern
      "RFC 5246              TLS                        August 2008".toList = true := by
    decide
  refine ⟨hall, h1, ?_, h2, ?_⟩
  · intro hm
    have := (hall _ hm).1
    rw [h1] at this; exact absurd this (by simp)
  · intro hm
    have := (hall _ hm).2
    rw [h2] at this; exact absurd this (by simp)

theorem removePageHeader_of_no_header (text : List Char)
    (h : ∀ line ∈ stringsSplit text '\n', isPageHeader line = false) :
    removePageHeader text = text := by
  rw [removePageHeader_eq]
  have hf : (stringsSplit text '\n').filter (fun l => !isPageHeader l) = stringsSplit text '\n' := by
    rw [List.filter_eq_self]
    intro l hl
    simp [h l hl]
  rw [hf]
  exact stringsJoin_stringsSplit text '\n'

/-- C10. Header removal is the identity when no line of the text matches a
header pattern. -/
theorem removePageHeader_id (text : List Char)
    (h : ∀ line ∈ stringsSplit text '\n',
      Regex.matchString firstPageHeaderPattern line = false ∧
        Regex.matchString secondPageHeaderPattern line = false) :
    removePageHeader text = text :=
  removePageHeader_of_no_header text (fun l hl => (isPageHeader_eq_false l).mpr (h l hl))

theorem removePageHeader_id_witness :
    (∀ line ∈ stringsSplit "Abstract\n\n   This memo\n".toList '\n',
      Regex.matchString firstPageHeaderPattern line = false ∧
        Regex.matchString secondPageHeaderPattern line = false) ∧
    removePageHeader "Abstract\n\n   This memo\n".toList = "Abstract\n\n   This memo\n".toList :=
  ⟨by decide, removePageHeader_id _ (by decide)⟩


/-! ## The passes of `cleanWhitespace` as rewritings -/

theorem rewrite_induction {mf : MatchFn} (h : Shrinks mf) (P : List Char → Prop)
    (hnil : P [])
    (hmatch : ∀ s out rest, mf s = some (out, rest) → P rest → P s)
    (hskip : ∀ c cs, mf (c :: cs) = none → P cs → P (c :: cs)) : ∀ s, P s := by
  have key : ∀ (n : Nat) (s : List Char), s.length ≤ n → P s := by
    intro n
    induction n with
    | zero =>
      intro s hl
      have : s = [] := List.length_eq_zero.mp (by omega)
      subst this; exact hnil
    | succ n ih =>
      intro s hl
      cases hm : mf s with
      | some p =>
        obtain ⟨out, rest⟩ := p
        have := h s out rest hm
        exact hmatch s out rest hm (ih rest (by omega))
      | none =>
        cases s with
        | nil => exact hnil
        | cons c cs => exact hskip c cs hm (ih cs (by simpa using hl))
  intro s
  exact key s.length s (le_refl _)

theorem length_dropWhile_le (p : Char → Bool) (s : List Char) :
    (s.dropWhile p).length ≤ s.length :=
  (List.dropWhile_suffix p).length_le

theorem mWS_lt (s rest : List Char) (h : mWS s = some rest) : rest.length < s.length := by
  cases s with
  | nil => simp [mWS] at h
  | cons c cs =>
    simp only [mWS] at h
    split at h
    · simp only [Option.some.injEq] at h
      subst h
      have := length_dropWhile_le isSpace cs
      simp only [List.length_cons]; omega
    · simp at h

theorem startsNL_head {c : Char} {cs : List Char} (h : startsNL (c :: cs) = true) :
    isSpace c = true := by
  simp only [startsNL] at h
  by_cases hc : c = '\r'
  · subst hc; exact isSpace_cr
  · simp only [beq_iff_eq, hc, if_false] at h
    obtain ⟨t, ht⟩ := (isPrefixOf_newLines _).mp h
    simp only [List.cons.injEq] at ht
    rw [ht.1]; exact isSpace_nl

theorem mNL_lt (s rest : List Char) (h : mNL s = some rest) : rest.length < s.length := by
  simp only [mNL] at h
  split at h
  · rename_i hs
    simp only [Option.some.injEq] at h
    subst h
    cases s with
    | nil => simp [startsNL] at hs
    | cons c cs =>
      have hc := startsNL_head hs
      rw [List.dropWhile_cons_of_pos hc]
      have := length_dropWhile_le isSpace cs
      simp only [List.length_cons]; omega
  · simp at h

theorem mNL2_lt (s rest : List Char) (h : mNL2 s = some rest) : rest.length < s.length := by
  cases s with
  | nil => simp [mNL2] at h
  | cons c cs =>
    simp only [mNL2] at h
    split at h
    · split at h
      · simp only [Option.some.injEq] at h
        subst h
        have := length_dropWhile_le isNL cs
        simp only [List.length_cons]; omega
      · simp at h
    · split at h
      · rename_i hp
        simp only [Option.some.injEq] at h
        subst h
        obtain ⟨t, ht⟩ := (isPrefixOf_newLines _).mp hp
        simp only [List.cons.injEq] at ht
        obtain ⟨rfl, rfl⟩ := ht
        have h1 : isNL '\n' = true := by decide
        rw [List.dropWhile_cons_of_pos h1]
        have := length_dropWhile_le isNL ('\n' :: t)
        simp only [List.length_cons] at this ⊢; omega
      · simp at h

theorem clsStar_isAny_suffix {k : List Char → Option (List Char)}
    (hk : ∀ u r, k u = some r → r.length < u.length) :
    ∀ (s rest : List Char), clsStar isAny k s = some rest → rest.length < s.length := by
  intro s
  induction s with
  | nil => intro rest h; exact hk [] rest h
  | cons c cs ih =>
    intro rest h
    simp only [clsStar, isAny, if_true] at h
    cases hc : clsStar isAny k cs with
    | some x =>
      rw [hc] at h
      simp only [Option.some.injEq] at h
      subst h
      have := ih x hc
      simp only [List.length_cons]; omega
    | none =>
      rw [hc] at h
      exact hk _ _ h

theorem tocEndMarker_split (u r : List Char)
    (h : Regex.matchFront tocEndMarker 0 u = some r) :
    ∃ w, u = w ++ r ∧ w.length = 16 := by
  obtain ⟨w, hw, hl⟩ := run_simple_width 0 _ tocEndMarker_isSimple u r h
  exact ⟨w, hw, by rw [hl, tocEndMarker_width]⟩

theorem tocStartMarker_split (u r : List Char)
    (h : Regex.matchFront tocStartMarker 0 u = some r) :
    ∃ w, u = w ++ r ∧ w.length = 17 := by
  obtain ⟨w, hw, hl⟩ := run_simple_width 0 _ tocStartMarker_isSimple u r h
  exact ⟨w, hw, by rw [hl, tocStartMarker_width]⟩

theorem lastEnd_lt (s rest : List Char) (h : lastEnd s = some rest) :
    rest.length < s.length := by
  refine clsStar_isAny_suffix ?_ s rest h
  intro u r hu
  obtain ⟨w, hw, hl⟩ := tocEndMarker_split u r hu
  rw [hw, List.length_append]; omega

theorem mToc_lt (s rest : List Char) (h : mToc s = some rest) : rest.length < s.length := by
  simp only [mToc, Option.bind_eq_some] at h
  obtain ⟨t, ht, hr⟩ := h
  obtain ⟨w, hw, _⟩ := tocStartMarker_split s t ht
  have := lastEnd_lt t rest hr
  rw [hw, List.length_append]; omega

theorem shrinks_toc (repl : List Char) : Shrinks (reFn mToc repl) := reFn_shrinks repl mToc_lt
theorem shrinks_nl (repl : List Char) : Shrinks (reFn mNL repl) := reFn_shrinks repl mNL_lt
theorem shrinks_nl2 (repl : List Char) : Shrinks (reFn mNL2 repl) := reFn_shrinks repl mNL2_lt
theorem shrinks_ws (repl : List Char) : Shrinks (reFn mWS repl) := reFn_shrinks repl mWS_lt

theorem newLinesPlaceholder_ne_nil : newLinesPlaceholder ≠ [] := by decide
theorem tablePlaceholder_ne_nil : tablePlaceholder ≠ [] := by decide

theorem shrinks_nlRestore : Shrinks (litFn newLinesPlaceholder newLines) :=
  litFn_shrinks _ _ newLinesPlaceholder_ne_nil

theorem shrinks_tableRestore (table : List Char) : Shrinks (litFn tablePlaceholder table) :=
  litFn_shrinks _ _ tablePlaceholder_ne_nil

theorem cleanWhitespace_eq (text : List Char) :
    cleanWhitespace text =
      tableRestore (cleanTable (Regex.findString tableOfContentsPattern text))
        (nlRestore (wsPass (nlPass (tocPass text)))) := by
  simp only [cleanWhitespace, tableRestore, cleanTable, nlRestore, wsPass, nlPass, tocPass]
  rw [stringsReplaceAll_eq _ _ _ tablePlaceholder_ne_nil,
    stringsReplaceAll_eq _ _ _ newLinesPlaceholder_ne_nil,
    replaceAllString_eq whiteSpacesPattern _ _ mWS matchFront_whiteSpacesPattern mWS_lt,
    replaceAllString_eq newLinesPattern _ _ mNL matchFront_newLinesPattern mNL_lt,
    replaceAllString_eq tableOfContentsPattern _ _ mToc matchFront_tableOfContentsPattern mToc_lt,
    replaceAllString_eq newLinesPattern2 _ _ mNL2 matchFront_newLinesPattern2 mNL2_lt]
  rfl


/-! ## Searching -/

theorem findFrom_none (r : Regex) (n : Nat) :
    ∀ s : List Char, Regex.findFrom r n s = none →
      ∀ t, t <:+ s → Regex.matchFront r n t = none := by
  intro s
  induction s with
  | nil =>
    intro h t ht
    have : t = [] := List.eq_nil_of_suffix_nil ht
    subst this
    simpa [Regex.findFrom] using h
  | cons c cs ih =>
    intro h t ht
    simp only [Regex.findFrom] at h
    cases hm : Regex.matchFront r n (c :: cs) with
    | some rest => rw [hm] at h; simp at h
    | none =>
      rw [hm] at h
      rcases List.suffix_cons_iff.mp ht with h1 | h1
      · rw [h1]; exact hm
      · exact ih h t h1

theorem findFrom_some (r : Regex) (n : Nat) :
    ∀ (s m rest : List Char), Regex.findFrom r n s = some (m, rest) →
      Regex.matchFront r n m = some rest ∧
      ∃ pre, s = pre ++ m ∧
        ∀ a b, pre = a ++ b → b ≠ [] → Regex.matchFront r n (b ++ m) = none := by
  intro s
  induction s with
  | nil =>
    intro m rest h
    simp only [Regex.findFrom, Option.map_eq_some', Prod.mk.injEq] at h
    obtain ⟨x, hx, h1, h2⟩ := h
    subst h1 h2
    refine ⟨hx, [], rfl, ?_⟩
    intro a b hab hb
    have := List.append_eq_nil.mp hab.symm
    exact absurd this.2 hb
  | cons c cs ih =>
    intro m rest h
    simp only [Regex.findFrom] at h
    cases hm : Regex.matchFront r n (c :: cs) with
    | some x =>
      rw [hm] at h
      simp only [Option.some.injEq, Prod.mk.injEq] at h
      obtain ⟨h1, h2⟩ := h
      subst h1 h2
      refine ⟨hm, [], rfl, ?_⟩
      intro a b hab hb
      have := List.append_eq_nil.mp hab.symm
      exact absurd this.2 hb
    | none =>
      rw [hm] at h
      obtain ⟨h1, pre, hpre, hno⟩ := ih m rest h
      refine ⟨h1, c :: pre, by rw [hpre]; rfl, ?_⟩
      intro a b hab hb
      cases a with
      | nil =>
        simp only [List.nil_append] at hab
        subst hab
        rw [List.cons_append, ← hpre]; exact hm
      | cons x a =>
        simp only [List.cons_append, List.cons.injEq] at hab
        exact hno a b hab.2 hb

theorem rewrite_id {mf : MatchFn} :
    ∀ s : List Char, (∀ t, t <:+ s → mf t = none) → rewrite mf s = s := by
  intro s
  induction s with
  | nil =>
    intro h
    show rewriteLoop mf 1 [] = []
    rw [rewriteLoop_succ, h [] (List.suffix_refl _)]
  | cons c cs ih =>
    intro h
    rw [rewrite_skip (h _ (List.suffix_refl _)), ih]
    intro t ht
    exact h t (ht.trans (List.suffix_cons c cs))

theorem reFn_none {m : List Char → Option (List Char)} {repl s : List Char}
    (h : m s = none) : reFn m repl s = none := by
  simp [reFn, h]

theorem reFn_some {m : List Char → Option (List Char)} {repl s rest : List Char}
    (h : m s = some rest) : reFn m repl s = some (repl, rest) := by
  simp [reFn, h]

theorem reFn_eq_some {m : List Char → Option (List Char)} {repl s out rest : List Char}
    (h : reFn m repl s = some (out, rest)) : out = repl ∧ m s = some rest := by
  simp only [reFn, Option.map_eq_some', Prod.mk.injEq] at h
  obtain ⟨a, ha, h1, h2⟩ := h
  subst h2
  exact ⟨h1.symm, ha⟩

theorem reFn_eq_none {m : List Char → Option (List Char)} {repl s : List Char}
    (h : reFn m repl s = none) : m s = none := by
  simpa [reFn] using h

/-- When the table-of-contents pattern does not match, no suffix of the text
starts a match. -/
theorem mToc_none_of_no_match (text : List Char)
    (h : Regex.matchString tableOfContentsPattern text = false) :
    ∀ t, t <:+ text → mToc t = none := by
  intro t ht
  rw [← matchFront_tableOfContentsPattern text.length t]
  refine findFrom_none _ _ text ?_ t ht
  simpa [Regex.matchString] using h

theorem tocPass_of_no_match (text : List Char)
    (h : Regex.matchString tableOfContentsPattern text = false) : tocPass text = text := by
  refine rewrite_id text ?_
  intro t ht
  exact reFn_none (mToc_none_of_no_match text h t ht)

theorem findString_of_no_match (text : List Char)
    (h : Regex.matchString tableOfContentsPattern text = false) :
    Regex.findString tableOfContentsPattern text = [] := by
  have : Regex.findFrom tableOfContentsPattern text.length text = none := by
    simpa [Regex.matchString] using h
  simp [Regex.findString, this]

theorem cleanTable_nil : cleanTable [] = [] := rewrite_nil (shrinks_nl2 _)

/-- Without a table of contents, `cleanWhitespace` is the three whitespace
passes followed by the deletion of the table placeholder. -/
theorem cleanWhitespace_of_no_match (text : List Char)
    (h : Regex.matchString tableOfContentsPattern text = false) :
    cleanWhitespace text = tableRestore [] (nlRestore (wsPass (nlPass text))) := by
  rw [cleanWhitespace_eq, findString_of_no_match text h, cleanTable_nil,
    tocPass_of_no_match text h]

/-! ## Newline runs -/

theorem wsPass_space (s : List Char) : ∀ c ∈ wsPass s, isSpace c = true → c = ' ' := by
  refine rewrite_induction (shrinks_ws [' ']) (fun s => ∀ c ∈ wsPass s, isSpace c = true → c = ' ')
    ?_ ?_ ?_ s
  · intro c hc
    rw [wsPass, rewrite_nil (shrinks_ws _)] at hc
    simp at hc
  · intro s out rest hm ih c hc hs
    rw [wsPass, rewrite_match (shrinks_ws _) hm] at hc
    obtain ⟨ho, _⟩ := reFn_eq_some hm
    subst ho
    rcases List.mem_append.mp hc with h1 | h1
    · simpa using h1
    · exact ih c h1 hs
  · intro c cs hm ih x hx hs
    rw [wsPass, rewrite_skip hm] at hx
    rcases List.mem_cons.mp hx with h1 | h1
    · subst h1
      have := reFn_eq_none hm
      simp only [mWS, hs, if_true] at this
      simp at this
    · exact ih x h1 hs

theorem wsPass_no_newline (s : List Char) : '\n' ∉ wsPass s := by
  intro h
  have := wsPass_space s '\n' h isSpace_nl
  exact absurd this (by decide)

theorem evenRuns_cons_of_ne (odd : Bool) {c : Char} (cs : List Char) (hc : c ≠ '\n') :
    evenRuns odd (c :: cs) = (!odd && evenRuns false cs) := by
  simp [evenRuns, hc]

theorem evenRuns_cons_nl (odd : Bool) (cs : List Char) :
    evenRuns odd ('\n' :: cs) = evenRuns (!odd) cs := by
  simp [evenRuns]

theorem evenRuns_append_of_no_newline (odd : Bool) :
    ∀ (w rest : List Char), w ≠ [] → '\n' ∉ w →
      evenRuns odd (w ++ rest) = (!odd && evenRuns false rest) := by
  intro w
  induction w generalizing odd with
  | nil => intro rest h; exact absurd rfl h
  | cons c w ih =>
    intro rest _ hn
    have hc : c ≠ '\n' := fun h => hn (h ▸ List.mem_cons_self _ _)
    have hw : '\n' ∉ w := fun h => hn (List.mem_cons_of_mem _ h)
    rw [List.cons_append, evenRuns_cons_of_ne odd _ hc]
    cases w with
    | nil => rfl
    | cons d w =>
      rw [ih false rest (by simp) hw]
      simp

/-- A newline that stands alone is rejected by the parity automaton. -/
theorem evenRuns_no_single (b : List Char) :
    ∀ (a : List Char) (odd : Bool), (a = [] → odd = false) →
      evenRuns odd (a ++ '\n' :: b) = true →
      a.getLast? = some '\n' ∨ b.head? = some '\n' := by
  intro a
  induction a with
  | nil =>
    intro odd ho h
    rw [ho rfl, List.nil_append, evenRuns_cons_nl] at h
    cases b with
    | nil => simp [evenRuns] at h
    | cons d b =>
      by_cases hd : d = '\n'
      · right; simp [hd]
      · rw [evenRuns_cons_of_ne _ _ hd] at h; simp at h
  | cons c a ih =>
    intro odd _ h
    rw [List.cons_append] at h
    by_cases hc : c = '\n'
    · subst hc
      rw [evenRuns_cons_nl] at h
      cases a with
      | nil => left; rfl
      | cons d a =>
        rcases ih (!odd) (by simp) h with h1 | h1
        · left; rw [List.getLast?_cons_cons]; exact h1
        · right; exact h1
    · rw [evenRuns_cons_of_ne _ _ hc] at h
      simp only [Bool.and_eq_true] at h
      rcases ih false (fun _ => rfl) h.2 with h1 | h1
      · left
        cases a with
        | nil => simp at h1
        | cons d a => rw [List.getLast?_cons_cons]; exact h1
      · right; exact h1


theorem litFn_eq_some {old new s out rest : List Char}
    (h : litFn old new s = some (out, rest)) : out = new ∧ s = old ++ rest := by
  simp only [litFn] at h
  split at h
  · rename_i hp
    simp only [Option.some.injEq, Prod.mk.injEq] at h
    obtain ⟨t, ht⟩ := List.isPrefixOf_iff_prefix.mp hp
    refine ⟨h.1.symm, ?_⟩
    rw [← h.2, ← ht]
    simp
  · simp at h

theorem litFn_eq_none {old new s : List Char} (h : litFn old new s = none) : ¬ old <+: s := by
  simp only [litFn] at h
  split at h
  · simp at h
  · rename_i hp
    intro hpre
    exact hp (List.isPrefixOf_iff_prefix.mpr hpre)

theorem litFn_append (old new rest : List Char) :
    litFn old new (old ++ rest) = some (new, rest) := by
  have : old.isPrefixOf (old ++ rest) = true :=
    List.isPrefixOf_iff_prefix.mpr (List.prefix_append _ _)
  simp [litFn, this]

theorem litFn_none_of_not_pre {old new s : List Char} (h : ¬ old <+: s) :
    litFn old new s = none := by
  have : ¬ old.isPrefixOf s = true := fun hp => h (List.isPrefixOf_iff_prefix.mp hp)
  simp [litFn, this]

theorem newline_not_mem_newLinesPlaceholder : '\n' ∉ newLinesPlaceholder := by decide
theorem newline_not_mem_tablePlaceholder : '\n' ∉ tablePlaceholder := by decide

theorem evenRuns_nlRestore (s : List Char) :
    '\n' ∉ s → evenRuns false (nlRestore s) = true := by
  refine rewrite_induction shrinks_nlRestore
    (fun s => '\n' ∉ s → evenRuns false (nlRestore s) = true) ?_ ?_ ?_ s
  · intro _
    rw [nlRestore, rewrite_nil shrinks_nlRestore]; rfl
  · intro s out rest hm ih hn
    obtain ⟨ho, hs⟩ := litFn_eq_some hm
    rw [nlRestore, rewrite_match shrinks_nlRestore hm, ho]
    have hr : '\n' ∉ rest := fun h => hn (by rw [hs]; exact List.mem_append_right _ h)
    show evenRuns false ('\n' :: '\n' :: nlRestore rest) = true
    rw [evenRuns_cons_nl, evenRuns_cons_nl]
    exact ih hr
  · intro c cs hm ih hn
    rw [nlRestore, rewrite_skip hm]
    have hc : c ≠ '\n' := fun h => hn (h ▸ List.mem_cons_self _ _)
    rw [evenRuns_cons_of_ne _ _ hc]
    simp only [Bool.not_false, Bool.true_and]
    exact ih (fun h => hn (List.mem_cons_of_mem _ h))

theorem evenRuns_tableRestore_nil (s : List Char) :
    ∀ odd, evenRuns odd s = true → evenRuns odd (tableRestore [] s) = true := by
  refine rewrite_induction (shrinks_tableRestore [])
    (fun s => ∀ odd, evenRuns odd s = true → evenRuns odd (tableRestore [] s) = true) ?_ ?_ ?_ s
  · intro odd h
    rw [tableRestore, rewrite_nil (shrinks_tableRestore _)]; exact h
  · intro s out rest hm ih odd h
    obtain ⟨ho, hs⟩ := litFn_eq_some hm
    rw [tableRestore, rewrite_match (shrinks_tableRestore _) hm, ho, List.nil_append]
    rw [hs, evenRuns_append_of_no_newline odd _ _ tablePlaceholder_ne_nil
      newline_not_mem_tablePlaceholder] at h
    simp only [Bool.and_eq_true, Bool.not_eq_true'] at h
    rw [h.1]
    exact ih false h.2
  · intro c cs hm ih odd h
    rw [tableRestore, rewrite_skip hm]
    by_cases hc : c = '\n'
    · subst hc
      rw [evenRuns_cons_nl] at h ⊢
      exact ih _ h
    · rw [evenRuns_cons_of_ne _ _ hc] at h ⊢
      simp only [Bool.and_eq_true] at h ⊢
      exact ⟨h.1, ih _ h.2⟩

/-- C4. Without a table of contents, no newline of `cleanWhitespace text`
stands alone: every newline has a newline directly before it or directly after
it, so no maximal run of newlines has length 1. -/
theorem cleanWhitespace_no_single_newline (text : List Char)
    (h : Regex.matchString tableOfContentsPattern text = false) :
    ∀ a b : List Char, cleanWhitespace text = a ++ '\n' :: b →
      a.getLast? = some '\n' ∨ b.head? = some '\n' := by
  intro a b hab
  have h1 : evenRuns false (cleanWhitespace text) = true := by
    rw [cleanWhitespace_of_no_match text h]
    exact evenRuns_tableRestore_nil _ false (evenRuns_nlRestore _ (wsPass_no_newline _))
  rw [hab] at h1
  exact evenRuns_no_single b a false (fun _ => rfl) h1

theorem cleanWhitespace_no_single_newline_witness :
    Regex.matchString tableOfContentsPattern "one\ntwo\n\n\nthree\n".toList = false ∧
    cleanWhitespace "one\ntwo\n\n\nthree\n".toList = "one two\n\nthree ".toList ∧
    ∀ a b : List Char, cleanWhitespace "one\ntwo\n\n\nthree\n".toList = a ++ '\n' :: b →
      a.getLast? = some '\n' ∨ b.head? = some '\n' :=
  ⟨by decide, by decide, cleanWhitespace_no_single_newline _ (by decide)⟩


/-! ## A block that the passes leave alone -/

theorem rewrite_pre {mf : MatchFn} (m : List Char) :
    ∀ pre : List Char, (∀ a b, pre = a ++ b → b ≠ [] → mf (b ++ m) = none) →
      rewrite mf (pre ++ m) = pre ++ rewrite mf m := by
  intro pre
  induction pre with
  | nil => intro _; rfl
  | cons c cs ih =>
    intro h
    have h0 : mf (c :: (cs ++ m)) = none := h [] (c :: cs) rfl (by simp)
    rw [List.cons_append, rewrite_skip h0, ih]
    · rfl
    · intro a b hab hb
      exact h (c :: a) b (by rw [hab]; rfl) hb

theorem rewrite_stopsAt {mf : MatchFn} (hs : Shrinks mf) {c : Char} (hq : StopsAt mf c)
    (Z : List Char) :
    ∀ (n : Nat) (xs : List Char), xs.length ≤ n →
      ∃ X, rewrite mf (xs ++ c :: Z) = X ++ rewrite mf (c :: Z) := by
  intro n
  induction n with
  | zero =>
    intro xs hl
    have : xs = [] := List.length_eq_zero.mp (by omega)
    subst this
    exact ⟨[], rfl⟩
  | succ n ih =>
    intro xs hl
    cases xs with
    | nil => exact ⟨[], rfl⟩
    | cons x xs =>
      simp only [List.length_cons] at hl
      rw [List.cons_append]
      cases hm : mf (x :: (xs ++ c :: Z)) with
      | some p =>
        obtain ⟨out, rest⟩ := p
        obtain ⟨ys, hys, hl2⟩ := hq x xs Z out rest hm
        obtain ⟨X, hX⟩ := ih ys (by omega)
        refine ⟨out ++ X, ?_⟩
        rw [rewrite_match hs hm, hys, hX, List.append_assoc]
      | none =>
        obtain ⟨X, hX⟩ := ih xs (by omega)
        refine ⟨x :: X, ?_⟩
        rw [rewrite_skip hm, hX]; rfl

theorem dropWhile_append_of_not {p : Char → Bool} {c : Char} (hc : p c = false) (Z : List Char) :
    ∀ xs : List Char, (xs ++ c :: Z).dropWhile p = xs.dropWhile p ++ c :: Z := by
  intro xs
  induction xs with
  | nil => simp [List.dropWhile, hc]
  | cons x xs ih =>
    by_cases hx : p x = true
    · rw [List.cons_append, List.dropWhile_cons_of_pos hx, List.dropWhile_cons_of_pos hx, ih]
    · rw [List.cons_append, List.dropWhile_cons_of_neg hx, List.dropWhile_cons_of_neg hx]
      rfl

theorem mNL_none_of_not_space {d : Char} (hd : isSpace d = false) (s : List Char) :
    mNL (d :: s) = none := by
  simp only [mNL]
  split
  · rename_i h
    have := startsNL_head h
    rw [hd] at this; simp at this
  · rfl

theorem mWS_none_of_not_space {d : Char} (hd : isSpace d = false) (s : List Char) :
    mWS (d :: s) = none := by
  simp [mWS, hd]

theorem mNL_eq_some {s rest : List Char} (h : mNL s = some rest) :
    startsNL s = true ∧ rest = s.dropWhile isSpace := by
  simp only [mNL] at h
  split at h
  · rename_i hs
    exact ⟨hs, by simpa using h.symm⟩
  · simp at h

theorem mWS_eq_some {c : Char} {cs rest : List Char} (h : mWS (c :: cs) = some rest) :
    isSpace c = true ∧ rest = cs.dropWhile isSpace := by
  simp only [mWS] at h
  split at h
  · rename_i hs
    exact ⟨hs, by simpa using h.symm⟩
  · simp at h

theorem stopsAt_nl (repl : List Char) {c : Char} (hc : isSpace c = false) :
    StopsAt (reFn mNL repl) c := by
  intro x xs Z out rest hm
  obtain ⟨_, hm2⟩ := reFn_eq_some hm
  obtain ⟨hs, hr⟩ := mNL_eq_some hm2
  have hx : isSpace x = true := startsNL_head hs
  refine ⟨xs.dropWhile isSpace, ?_, length_dropWhile_le _ _⟩
  rw [hr, List.dropWhile_cons_of_pos hx, dropWhile_append_of_not hc]

theorem stopsAt_ws (repl : List Char) {c : Char} (hc : isSpace c = false) :
    StopsAt (reFn mWS repl) c := by
  intro x xs Z out rest hm
  obtain ⟨_, hm2⟩ := reFn_eq_some hm
  obtain ⟨_, hr⟩ := mWS_eq_some hm2
  refine ⟨xs.dropWhile isSpace, ?_, length_dropWhile_le _ _⟩
  rw [hr, dropWhile_append_of_not hc]

theorem prefix_append_cases {old l1 l2 : List Char} (h : old <+: l1 ++ l2) :
    old <+: l1 ∨ ∃ t, old = l1 ++ t ∧ t <+: l2 := by
  induction l1 generalizing old with
  | nil => right; exact ⟨old, rfl, h⟩
  | cons x xs ih =>
    cases old with
    | nil => left; exact List.nil_prefix
    | cons a tl =>
      rw [List.cons_append, List.cons_prefix_cons] at h
      rcases ih h.2 with h1 | ⟨t, ht, ht2⟩
      · left; rw [List.cons_prefix_cons]; exact ⟨h.1, h1⟩
      · right; exact ⟨t, by rw [h.1, ht]; rfl, ht2⟩

/-- A literal in whose tail `c` does not occur cannot reach over an occurrence
of `c` when it starts before it. -/
theorem prefix_before_char {old : List Char} {c : Char} (hc : c ∉ old.tail) (x : Char)
    (xs Z : List Char) (h : old <+: x :: (xs ++ c :: Z)) : old <+: x :: xs := by
  rw [← List.cons_append] at h
  rcases prefix_append_cases h with h1 | ⟨t, ht, ht2⟩
  · exact h1
  · cases t with
    | nil => rw [ht]; simp
    | cons d t =>
      rw [List.cons_prefix_cons] at ht2
      exfalso
      apply hc
      rw [ht, ← ht2.1]
      simp

theorem stopsAt_lit (old new : List Char) (hold : old ≠ []) {c : Char} (hc : c ∉ old.tail) :
    StopsAt (litFn old new) c := by
  intro x xs Z out rest hm
  obtain ⟨_, hs⟩ := litFn_eq_some hm
  have hp : old <+: x :: (xs ++ c :: Z) := ⟨rest, hs.symm⟩
  obtain ⟨u, hu⟩ := prefix_before_char hc x xs Z hp
  refine ⟨u, ?_, ?_⟩
  · have : old ++ rest = old ++ (u ++ c :: Z) := by
      rw [← hs, ← List.append_assoc, hu]; rfl
    exact List.append_cancel_left this
  · have hl : (old ++ u).length = (x :: xs).length := by rw [hu]
    have hpos : 0 < old.length := List.length_pos.mpr hold
    simp only [List.length_append, List.length_cons] at hl
    omega


/-! ## The span of the table of contents -/

theorem clsStar_isAny_none {k : List Char → Option (List Char)} :
    ∀ s : List Char, clsStar isAny k s = none → ∀ u, u <:+ s → k u = none := by
  intro s
  induction s with
  | nil =>
    intro h u hu
    have : u = [] := List.eq_nil_of_suffix_nil hu
    subst this; exact h
  | cons c cs ih =>
    intro h u hu
    simp only [clsStar, isAny, if_true] at h
    cases hc : clsStar isAny k cs with
    | some x => rw [hc] at h; simp at h
    | none =>
      rw [hc] at h
      rcases List.suffix_cons_iff.mp hu with h1 | h1
      · rw [h1]; exact h
      · exact ih hc u h1

/-- The greedy `(?s).*` hands over at the last position where the
continuation succeeds. -/
theorem clsStar_isAny_spec {k : List Char → Option (List Char)} :
    ∀ (s rest : List Char), clsStar isAny k s = some rest →
      ∃ a u, s = a ++ u ∧ k u = some rest ∧
        ∀ x y, u = x ++ y → x ≠ [] → k y = none := by
  intro s
  induction s with
  | nil =>
    intro rest h
    refine ⟨[], [], rfl, h, ?_⟩
    intro x y hxy hx
    exact absurd (List.append_eq_nil.mp hxy.symm).1 hx
  | cons c cs ih =>
    intro rest h
    simp only [clsStar, isAny, if_true] at h
    cases hc : clsStar isAny k cs with
    | some r =>
      rw [hc] at h
      simp only [Option.some.injEq] at h
      subst h
      obtain ⟨a, u, hs, hk, hlast⟩ := ih r hc
      exact ⟨c :: a, u, by rw [hs]; rfl, hk, hlast⟩
    | none =>
      rw [hc] at h
      refine ⟨[], c :: cs, rfl, h, ?_⟩
      intro x y hxy hx
      cases x with
      | nil => exact absurd rfl hx
      | cons d x =>
        simp only [List.cons_append, List.cons.injEq] at hxy
        exact clsStar_isAny_none cs hc y ⟨x, hxy.2.symm⟩

/-- The shape of a match of the table-of-contents pattern: the start marker
`w`, the middle `a`, the last end marker `e` of the text, and the rest. -/
theorem mToc_spec (m post : List Char) (h : mToc m = some post) :
    ∃ w a e, m = w ++ a ++ e ++ post ∧ w.length = 17 ∧ e.length = 16 ∧
      Regex.matchFront tocStartMarker 0 m = some (a ++ e ++ post) ∧
      Regex.matchFront tocEndMarker 0 (e ++ post) = some post ∧
      ∀ x y, e ++ post = x ++ y → x ≠ [] → Regex.matchFront tocEndMarker 0 y = none := by
  simp only [mToc, Option.bind_eq_some] at h
  obtain ⟨t, ht, hr⟩ := h
  obtain ⟨w, hw, hwl⟩ := tocStartMarker_split m t ht
  obtain ⟨a, u, hs, hk, hlast⟩ := clsStar_isAny_spec t post hr
  obtain ⟨e, he, hel⟩ := tocEndMarker_split u post hk
  refine ⟨w, a, e, ?_, hwl, hel, ?_, ?_, ?_⟩
  · rw [hw, hs, he]; simp
  · rw [ht, hs, he]; simp
  · rw [← he]; exact hk
  · rw [← he]; exact hlast

/-- When the table-of-contents pattern matches, the text splits into the part
before the match, the matched span and the part after it. -/
theorem toc_split (text : List Char)
    (h : Regex.matchString tableOfContentsPattern text = true) :
    ∃ pre T post, text = pre ++ T ++ post ∧
      Regex.findString tableOfContentsPattern text = T ∧
      mToc (T ++ post) = some post ∧
      ∀ a b, pre = a ++ b → b ≠ [] → mToc (b ++ (T ++ post)) = none := by
  simp only [Regex.matchString, Option.isSome_iff_exists] at h
  obtain ⟨⟨m, rest⟩, hf⟩ := h
  obtain ⟨hm, pre, hpre, hno⟩ := findFrom_some _ _ text m rest hf
  rw [matchFront_tableOfContentsPattern] at hm
  obtain ⟨w, a, e, hme, _, _, _, _, _⟩ := mToc_spec m rest hm
  refine ⟨pre, w ++ a ++ e, rest, ?_, ?_, ?_, ?_⟩
  · rw [hpre, hme]; simp
  · simp only [Regex.findString, hf]
    have hlen : m.length - rest.length = (w ++ a ++ e).length := by
      rw [hme]; simp only [List.length_append]; omega
    rw [hlen, hme, List.take_left]
  · rw [← hme]; exact hm
  · intro x y hxy hy
    rw [← hme, ← matchFront_tableOfContentsPattern text.length]
    exact hno x y hxy hy

theorem tocPass_of_match (pre T post : List Char)
    (hm : mToc (T ++ post) = some post)
    (hno : ∀ a b, pre = a ++ b → b ≠ [] → mToc (b ++ (T ++ post)) = none) :
    tocPass (pre ++ T ++ post) = pre ++ tablePlaceholder ++ tocPass post := by
  rw [tocPass, List.append_assoc, rewrite_pre (T ++ post) pre
    (fun a b hab hb => reFn_none (hno a b hab hb)),
    rewrite_match (shrinks_toc _) (reFn_some hm)]
  simp [tocPass]

theorem tablePlaceholder_eq : tablePlaceholder = 'T' :: "ABLE_PLACEHOLDER".toList := by decide

theorem tablePlaceholder_not_space : ∀ d ∈ tablePlaceholder, isSpace d = false := by decide

theorem tablePlaceholder_no_N : ∀ d ∈ tablePlaceholder, d ≠ 'N' := by decide

theorem newLinesPlaceholder_eq :
    newLinesPlaceholder = 'N' :: "EWLINES_PLACEHOLDER".toList := by decide

/-- A pass that stops at `T` and does not match inside the table placeholder
leaves an occurrence of the placeholder in place. -/
theorem rewrite_keeps_placeholder {mf : MatchFn} (hs : Shrinks mf) (hq : StopsAt mf 'T')
    (hb : ∀ (d : Char) (s : List Char), d ∈ tablePlaceholder → mf (d :: s) = none)
    (A B : List Char) :
    ∃ X, rewrite mf (A ++ tablePlaceholder ++ B) = X ++ tablePlaceholder ++ rewrite mf B := by
  obtain ⟨X, hX⟩ := rewrite_stopsAt hs hq ("ABLE_PLACEHOLDER".toList ++ B) A.length A (le_refl _)
  refine ⟨X, ?_⟩
  have h1 : A ++ tablePlaceholder ++ B = A ++ 'T' :: ("ABLE_PLACEHOLDER".toList ++ B) := by
    rw [tablePlaceholder_eq]; simp
  have h2 : 'T' :: ("ABLE_PLACEHOLDER".toList ++ B) = tablePlaceholder ++ B := by
    rw [tablePlaceholder_eq]; rfl
  rw [h1, hX, h2, rewrite_pre B tablePlaceholder, List.append_assoc]
  intro a b hab hne
  cases b with
  | nil => exact absurd rfl hne
  | cons d b =>
    rw [List.cons_append]
    exact hb d _ (by rw [hab]; simp)

theorem nlPass_keeps_placeholder (A B : List Char) :
    ∃ X, nlPass (A ++ tablePlaceholder ++ B) = X ++ tablePlaceholder ++ nlPass B :=
  rewrite_keeps_placeholder (shrinks_nl _) (stopsAt_nl _ (by decide))
    (fun d s hd => reFn_none (mNL_none_of_not_space (tablePlaceholder_not_space d hd) s)) A B

theorem wsPass_keeps_placeholder (A B : List Char) :
    ∃ X, wsPass (A ++ tablePlaceholder ++ B) = X ++ tablePlaceholder ++ wsPass B :=
  rewrite_keeps_placeholder (shrinks_ws _) (stopsAt_ws _ (by decide))
    (fun d s hd => reFn_none (mWS_none_of_not_space (tablePlaceholder_not_space d hd) s)) A B

theorem nlRestore_keeps_placeholder (A B : List Char) :
    ∃ X, nlRestore (A ++ tablePlaceholder ++ B) = X ++ tablePlaceholder ++ nlRestore B := by
  have hT : 'T' ∉ newLinesPlaceholder.tail := by decide
  refine rewrite_keeps_placeholder shrinks_nlRestore
    (stopsAt_lit _ _ newLinesPlaceholder_ne_nil hT) ?_ A B
  intro d s hd
  refine litFn_none_of_not_pre ?_
  intro hp
  rw [newLinesPlaceholder_eq, List.cons_prefix_cons] at hp
  exact tablePlaceholder_no_N d hd hp.1.symm

theorem tableRestore_placeholder (table A B : List Char) :
    ∃ X, tableRestore table (A ++ tablePlaceholder ++ B) =
      X ++ table ++ tableRestore table B := by
  have hT : 'T' ∉ tablePlaceholder.tail := by decide
  obtain ⟨X, hX⟩ := rewrite_stopsAt (shrinks_tableRestore table)
    (stopsAt_lit tablePlaceholder table tablePlaceholder_ne_nil hT)
    ("ABLE_PLACEHOLDER".toList ++ B) A.length A (le_refl _)
  refine ⟨X, ?_⟩
  have h1 : A ++ tablePlaceholder ++ B = A ++ 'T' :: ("ABLE_PLACEHOLDER".toList ++ B) := by
    rw [tablePlaceholder_eq]; simp
  have h2 : 'T' :: ("ABLE_PLACEHOLDER".toList ++ B) = tablePlaceholder ++ B := by
    rw [tablePlaceholder_eq]; rfl
  rw [tableRestore, h1, hX, h2, rewrite_match (shrinks_tableRestore table) (litFn_append _ _ _),
    List.append_assoc]
  rfl

/-- With a table of contents, the output of `cleanWhitespace` is the cleaned
table between two other pieces of text. -/
theorem cleanWhitespace_of_match (text : List Char)
    (h : Regex.matchString tableOfContentsPattern text = true) :
    ∃ X Y, cleanWhitespace text =
      X ++ cleanTable (Regex.findString tableOfContentsPattern text) ++ Y := by
  obtain ⟨pre, T, post, htext, hT, hm, hno⟩ := toc_split text h
  rw [cleanWhitespace_eq, hT]
  have h1 : tocPass text = pre ++ tablePlaceholder ++ tocPass post := by
    rw [htext]; exact tocPass_of_match pre T post hm hno
  obtain ⟨X2, h2⟩ := nlPass_keeps_placeholder pre (tocPass post)
  obtain ⟨X3, h3⟩ := wsPass_keeps_placeholder X2 (nlPass (tocPass post))
  obtain ⟨X4, h4⟩ := nlRestore_keeps_placeholder X3 (wsPass (nlPass (tocPass post)))
  obtain ⟨X5, h5⟩ := tableRestore_placeholder (cleanTable T) X4
    (nlRestore (wsPass (nlPass (tocPass post))))
  exact ⟨X5, _, by rw [h1, h2, h3, h4, h5]⟩

/-- C2. Table-of-contents preservation: when the table-of-contents pattern
matches, the matched span with every match of `\r?\n{2,}` replaced by one
newline occurs as a contiguous substring of `cleanWhitespace text`. -/
theorem cleanWhitespace_keeps_table (text : List Char)
    (h : Regex.matchString tableOfContentsPattern text = true) :
    Regex.replaceAllString newLinesPattern2
      (Regex.findString tableOfContentsPattern text) newLine <:+: cleanWhitespace text := by
  obtain ⟨X, Y, hXY⟩ := cleanWhitespace_of_match text h
  rw [replaceAllString_eq newLinesPattern2 _ _ mNL2 matchFront_newLinesPattern2 mNL2_lt]
  exact ⟨X, Y, hXY.symm⟩

theorem cleanWhitespace_keeps_table_witness :
    Regex.matchString tableOfContentsPattern
      "Table of Contents\n\n   1.  Foo\n\n\n   2.  Bar\n\n1.  Introduction".toList = true ∧
    Regex.replaceAllString newLinesPattern2 (Regex.findString tableOfContentsPattern
      "Table of Contents\n\n   1.  Foo\n\n\n   2.  Bar\n\n1.  Introduction".toList) newLine =
      "Table of Contents\n   1.  Foo\n   2.  Bar\n1.  Introduction".toList ∧
    "1.  Foo\n   2.  Bar".toList <:+: cleanWhitespace
      "Table of Contents\n\n   1.  Foo\n\n\n   2.  Bar\n\n1.  Introduction".toList ∧
    Regex.replaceAllString newLinesPattern2 (Regex.findString tableOfContentsPattern
      "Table of Contents\n\n   1.  Foo\n\n\n   2.  Bar\n\n1.  Introduction".toList) newLine <:+:
      cleanWhitespace
        "Table of Contents\n\n   1.  Foo\n\n\n   2.  Bar\n\n1.  Introduction".toList :=
  ⟨by decide, by decide, ⟨"Table of Contents\n   ".toList, "\n1.  Introduction".toList, by decide⟩,
    cleanWhitespace_keeps_table _ (by decide)⟩


theorem tocPass_eq (text : List Char) :
    Regex.replaceAllString tableOfContentsPattern text tablePlaceholder = tocPass text :=
  replaceAllString_eq tableOfContentsPattern _ _ mToc matchFront_tableOfContentsPattern mToc_lt

/-- After the last end marker no match of the table-of-contents pattern starts. -/
theorem mToc_none_after_last (e post : List Char)
    (hlast : ∀ x y, e ++ post = x ++ y → x ≠ [] → Regex.matchFront tocEndMarker 0 y = none)
    (he : e ≠ []) : ∀ y, y <:+ post → mToc y = none := by
  intro y hy
  cases hm : mToc y with
  | none => rfl
  | some r =>
    exfalso
    obtain ⟨w, a, e2, hy2, _, _, _, hend, _⟩ := mToc_spec y r hm
    obtain ⟨p, hp⟩ := hy
    have h1 : e ++ post = (e ++ p ++ w ++ a) ++ (e2 ++ r) := by
      rw [← hp, hy2]; simp
    have := hlast _ _ h1 (by simp [he])
    rw [hend] at this
    simp at this

/-- C8, as the code has it. When the table-of-contents pattern matches, the
span that `cleanWhitespace` extracts and replaces by the table placeholder
starts at the first match of `Table\sof\sContents` and ends with the LAST
match of `1\.\s{2}Introduction` in the text (the `.*` is greedy): the span
ends with a match `e` of the end marker, no match of the end marker starts
after the start of `e`, and only the text `post` after it is left to the
whitespace passes. -/
theorem toc_span_extent (text : List Char)
    (h : Regex.matchString tableOfContentsPattern text = true) :
    ∃ pre T0 e post, text = pre ++ (T0 ++ e) ++ post ∧
      Regex.findString tableOfContentsPattern text = T0 ++ e ∧
      Regex.replaceAllString tableOfContentsPattern text tablePlaceholder =
        pre ++ tablePlaceholder ++ post ∧
      (Regex.matchFront tocStartMarker 0 (T0 ++ e ++ post)).isSome = true ∧
      (∀ a b, pre = a ++ b → b ≠ [] →
        Regex.matchFront tocStartMarker 0 (b ++ (T0 ++ e ++ post)) = none) ∧
      17 ≤ T0.length ∧ e.length = 16 ∧
      Regex.matchFront tocEndMarker 0 (e ++ post) = some post ∧
      (∀ x y, e ++ post = x ++ y → x ≠ [] → Regex.matchFront tocEndMarker 0 y = none) := by
  obtain ⟨pre, T, post, htext, hT, hm, hno⟩ := toc_split text h
  obtain ⟨w, a, e, hme, hwl, hel, hstart, hend, hlast⟩ := mToc_spec _ _ hm
  have hTe : T = (w ++ a) ++ e := by
    have : T ++ post = (w ++ a ++ e) ++ post := by rw [hme]
    exact List.append_cancel_right this
  have hene : e ≠ [] := by
    intro h0; rw [h0] at hel; simp at hel
  refine ⟨pre, w ++ a, e, post, ?_, ?_, ?_, ?_, ?_, ?_, hel, hend, hlast⟩
  · rw [htext, hTe]
  · rw [hT, hTe]
  · rw [tocPass_eq, htext, tocPass_of_match pre T post hm hno, tocPass,
      rewrite_id post (fun y hy => reFn_none (mToc_none_after_last e post hlast hene y hy))]
  · rw [← hTe, hstart]; rfl
  · intro x y hxy hy
    cases hs : Regex.matchFront tocStartMarker 0 (y ++ (w ++ a ++ e ++ post)) with
    | none => rfl
    | some t =>
      exfalso
      have hnone := hno x y hxy hy
      rw [hTe] at hnone
      simp only [mToc, hs, Option.some_bind] at hnone
      obtain ⟨w2, hw2, hw2l⟩ := tocStartMarker_split _ _ hs
      have hsuf : (e ++ post) <:+ t := by
        have hlen : w2.length ≤ (y ++ w ++ a).length := by
          simp only [List.length_append]; omega
        have hw : y ++ w ++ a ++ (e ++ post) = w2 ++ t := by
          rw [← hw2]; simp
        have hpre : w2 <+: y ++ w ++ a :=
          List.prefix_of_prefix_length_le ⟨t, hw.symm⟩ ⟨e ++ post, rfl⟩ hlen
        obtain ⟨v, hv⟩ := hpre
        refine ⟨v, ?_⟩
        have : w2 ++ (v ++ (e ++ post)) = w2 ++ t := by
          rw [← hw, ← hv]; simp
        exact List.append_cancel_left this
      have := clsStar_isAny_none t hnone (e ++ post) hsuf
      rw [hend] at this
      simp at this
  · simp only [List.length_append]; omega

theorem toc_span_extent_witness :
    Regex.matchString tableOfContentsPattern
      "Table of Contents 1.  Introduction x\ny 1.  Introduction z".toList = true ∧
    ∃ pre T0 e post,
      "Table of Contents 1.  Introduction x\ny 1.  Introduction z".toList =
        pre ++ (T0 ++ e) ++ post ∧
      Regex.findString tableOfContentsPattern
        "Table of Contents 1.  Introduction x\ny 1.  Introduction z".toList = T0 ++ e ∧
      Regex.replaceAllString tableOfContentsPattern
        "Table of Contents 1.  Introduction x\ny 1.  Introduction z".toList tablePlaceholder =
        pre ++ tablePlaceholder ++ post ∧
      (Regex.matchFront tocStartMarker 0 (T0 ++ e ++ post)).isSome = true ∧
      (∀ a b, pre = a ++ b → b ≠ [] →
        Regex.matchFront tocStartMarker 0 (b ++ (T0 ++ e ++ post)) = none) ∧
      17 ≤ T0.length ∧ e.length = 16 ∧
      Regex.matchFront tocEndMarker 0 (e ++ post) = some post ∧
      (∀ x y, e ++ post = x ++ y → x ≠ [] → Regex.matchFront tocEndMarker 0 y = none) :=
  ⟨by decide, toc_span_extent _ (by decide)⟩

/-- C8, as stated, fails: with two end markers the extracted span runs to the
second one, so it is not the span that ends at the first `1.  Introduction`,
and the newline between the two end markers is kept instead of becoming a
space. -/
theorem toc_span_not_first_end :
    Regex.findString tableOfContentsPattern
        "Table of Contents 1.  Introduction x\ny 1.  Introduction z".toList =
      "Table of Contents 1.  Introduction x\ny 1.  Introduction".toList ∧
    Regex.findString tableOfContentsPattern
        "Table of Contents 1.  Introduction x\ny 1.  Introduction z".toList ≠
      "Table of Contents 1.  Introduction".toList ∧
    cleanWhitespace "Table of Contents 1.  Introduction x\ny 1.  Introduction z".toList =
      "Table of Contents 1.  Introduction x\ny 1.  Introduction z".toList := by
  decide


/-! ## The cleaned table of contents -/

theorem startsNL_iff (s : List Char) :
    startsNL s = true ↔
      (∃ t, s = '\n' :: '\n' :: t) ∨ (∃ t, s = '\r' :: '\n' :: '\n' :: t) := by
  cases s with
  | nil => simp [startsNL]
  | cons c cs =>
    simp only [startsNL, beq_iff_eq]
    by_cases hc : c = '\r'
    · subst hc
      rw [if_pos rfl, isPrefixOf_newLines]
      constructor
      · rintro ⟨t, rfl⟩; right; exact ⟨t, rfl⟩
      · rintro (⟨t, ht⟩ | ⟨t, ht⟩)
        · simp at ht
        · exact ⟨t, by simpa using ht⟩
    · rw [if_neg hc, isPrefixOf_newLines]
      constructor
      · rintro ⟨t, ht⟩; left; exact ⟨t, ht⟩
      · rintro (⟨t, ht⟩ | ⟨t, ht⟩)
        · exact ⟨t, ht⟩
        · simp only [List.cons.injEq] at ht
          exact absurd ht.1 hc

theorem mNL2_eq_some {s rest : List Char} (h : mNL2 s = some rest) :
    (∃ t, s = '\n' :: '\n' :: t ∧ rest = t.dropWhile isNL) ∨
      (∃ t, s = '\r' :: '\n' :: '\n' :: t ∧ rest = t.dropWhile isNL) := by
  cases s with
  | nil => simp [mNL2] at h
  | cons c cs =>
    simp only [mNL2, beq_iff_eq] at h
    by_cases hc : c = '\r'
    · subst hc
      rw [if_pos rfl] at h
      split at h
      · rename_i hp
        obtain ⟨t, rfl⟩ := (isPrefixOf_newLines _).mp hp
        right
        refine ⟨t, rfl, ?_⟩
        simp only [Option.some.injEq] at h
        rw [← h]
        simp [isNL]
      · simp at h
    · rw [if_neg hc] at h
      split at h
      · rename_i hp
        obtain ⟨t, ht⟩ := (isPrefixOf_newLines _).mp hp
        left
        refine ⟨t, ht, ?_⟩
        simp only [Option.some.injEq] at h
        rw [← h, ht]
        simp [isNL]
      · simp at h

theorem mNL2_eq_none {s : List Char} (h : mNL2 s = none) : startsNL s = false := by
  cases s with
  | nil => rfl
  | cons c cs =>
    simp only [mNL2, beq_iff_eq] at h
    simp only [startsNL, beq_iff_eq]
    by_cases hc : c = '\r'
    · subst hc
      rw [if_pos rfl] at h ⊢
      split at h
      · simp at h
      · rename_i hp; exact Bool.eq_false_iff.mpr hp
    · rw [if_neg hc] at h ⊢
      split at h
      · simp at h
      · rename_i hp; exact Bool.eq_false_iff.mpr hp

theorem head_dropWhile (p : Char → Bool) :
    ∀ (l : List Char) (c : Char), (l.dropWhile p).head? = some c → p c = false := by
  intro l
  induction l with
  | nil => intro c h; simp at h
  | cons x xs ih =>
    intro c h
    by_cases hx : p x = true
    · rw [List.dropWhile_cons_of_pos hx] at h; exact ih c h
    · rw [List.dropWhile_cons_of_neg hx] at h
      simp only [List.head?_cons, Option.some.injEq] at h
      rw [← h]; simpa using hx

theorem newline_before_dropWhile :
    ∀ (t A : List Char), ∃ B, A ++ '\n' :: t = B ++ '\n' :: t.dropWhile isNL := by
  intro t
  induction t with
  | nil => intro A; exact ⟨A, rfl⟩
  | cons c t ih =>
    intro A
    by_cases hc : isNL c = true
    · have hc2 : c = '\n' := by simpa [isNL] using hc
      subst hc2
      obtain ⟨B, hB⟩ := ih (A ++ ['\n'])
      refine ⟨B, ?_⟩
      rw [List.dropWhile_cons_of_pos hc, ← hB]
      simp
    · exact ⟨A, by rw [List.dropWhile_cons_of_neg hc]⟩

/-- What is left after a match of `\r?\n{2,}` has a newline directly before it. -/
theorem mNL2_newline_before {s rest : List Char} (h : mNL2 s = some rest) :
    ∃ B, s = B ++ '\n' :: rest := by
  rcases mNL2_eq_some h with ⟨t, hs, hr⟩ | ⟨t, hs, hr⟩
  · obtain ⟨B, hB⟩ := newline_before_dropWhile t ['\n']
    exact ⟨B, by rw [hs, hr, ← hB]; rfl⟩
  · obtain ⟨B, hB⟩ := newline_before_dropWhile t ['\r', '\n']
    exact ⟨B, by rw [hs, hr, ← hB]; rfl⟩

theorem mNL2_rest_head {s rest : List Char} (h : mNL2 s = some rest) :
    rest.head? ≠ some '\n' := by
  intro hh
  have : isNL '\n' = false := by
    rcases mNL2_eq_some h with ⟨t, _, hr⟩ | ⟨t, _, hr⟩
    · rw [hr] at hh; exact head_dropWhile isNL t _ hh
    · rw [hr] at hh; exact head_dropWhile isNL t _ hh
  exact absurd this (by decide)

theorem infix_in_suffix {w t s : List Char} (h : w <:+: t) (hs : t <:+ s) : w <:+: s :=
  h.trans hs.isInfix

theorem cleanTable_aux (s : List Char) :
    ¬ ['\n', '\r', '\n', '\n'] <:+: s →
      ¬ ['\n', '\n'] <:+: cleanTable s ∧
        ((cleanTable s).head? = some '\n' → s.head? = some '\n' ∨ startsNL s = true) := by
  refine rewrite_induction (shrinks_nl2 newLine)
    (fun s => ¬ ['\n', '\r', '\n', '\n'] <:+: s →
      ¬ ['\n', '\n'] <:+: cleanTable s ∧
        ((cleanTable s).head? = some '\n' → s.head? = some '\n' ∨ startsNL s = true)) ?_ ?_ ?_ s
  · intro _
    rw [cleanTable_nil]
    exact ⟨by simp, by simp⟩
  · intro s out rest hm ih hcr
    obtain ⟨ho, hm2⟩ := reFn_eq_some hm
    obtain ⟨B, hB⟩ := mNL2_newline_before hm2
    have hsuf : rest <:+ s := ⟨B ++ ['\n'], by rw [hB]; simp⟩
    have hcr2 : ¬ ['\n', '\r', '\n', '\n'] <:+: rest := fun h => hcr (infix_in_suffix h hsuf)
    obtain ⟨ih1, ih2⟩ := ih hcr2
    have hstart : startsNL s = true := by
      rcases mNL2_eq_some hm2 with ⟨t, hs, _⟩ | ⟨t, hs, _⟩
      · exact (startsNL_iff s).mpr (Or.inl ⟨t, hs⟩)
      · exact (startsNL_iff s).mpr (Or.inr ⟨t, hs⟩)
    have hhead : (cleanTable rest).head? ≠ some '\n' := by
      intro hh
      rcases ih2 hh with h1 | h1
      · exact mNL2_rest_head hm2 h1
      · rcases (startsNL_iff rest).mp h1 with ⟨t, ht⟩ | ⟨t, ht⟩
        · exact mNL2_rest_head hm2 (by rw [ht]; rfl)
        · apply hcr
          refine ⟨B, t, ?_⟩
          rw [hB, ht]; simp
    rw [cleanTable, rewrite_match (shrinks_nl2 _) hm, ho]
    refine ⟨?_, fun _ => Or.inr hstart⟩
    intro hin
    rw [show newLine ++ rewrite (reFn mNL2 newLine) rest = '\n' :: cleanTable rest from rfl,
      List.infix_cons_iff] at hin
    rcases hin with h1 | h1
    · rw [List.cons_prefix_cons] at h1
      obtain ⟨u, hu⟩ := h1.2
      apply hhead
      rw [← hu]; rfl
    · exact ih1 h1
  · intro c cs hm ih hcr
    have hm2 := mNL2_eq_none (reFn_eq_none hm)
    have hcr2 : ¬ ['\n', '\r', '\n', '\n'] <:+: cs :=
      fun h => hcr (infix_in_suffix h (List.suffix_cons c cs))
    obtain ⟨ih1, ih2⟩ := ih hcr2
    rw [cleanTable, rewrite_skip hm]
    refine ⟨?_, ?_⟩
    · intro hin
      rw [List.infix_cons_iff] at hin
      rcases hin with h1 | h1
      · rw [List.cons_prefix_cons] at h1
        obtain ⟨hc, u, hu⟩ := h1
        subst hc
        have hh : (cleanTable cs).head? = some '\n' := by
          rw [cleanTable, ← hu]; rfl
        rcases ih2 hh with h2 | h2
        · cases cs with
          | nil => simp at h2
          | cons d ds =>
            simp only [List.head?_cons, Option.some.injEq] at h2
            subst h2
            have : startsNL ('\n' :: '\n' :: ds) = true :=
              (startsNL_iff _).mpr (Or.inl ⟨ds, rfl⟩)
            rw [this] at hm2; simp at hm2
        · rcases (startsNL_iff cs).mp h2 with ⟨t, ht⟩ | ⟨t, ht⟩
          · have : startsNL ('\n' :: cs) = true :=
              (startsNL_iff _).mpr (Or.inl ⟨'\n' :: t, by rw [ht]⟩)
            rw [this] at hm2; simp at hm2
          · apply hcr
            exact ⟨[], t, by rw [ht]; rfl⟩
      · exact ih1 h1
    · intro hh
      left
      simpa using hh

/-- C9, as the code has it. The cleaned table of contents (the matched span
after each match of `\r?\n{2,}` has been replaced by one newline) contains no
two consecutive newlines, provided the matched span does not contain a newline
directly followed by the match `\r\n\n`. -/
theorem cleanTable_no_double_newline (text : List Char)
    (hcr : ¬ ['\n', '\r', '\n', '\n'] <:+: Regex.findString tableOfContentsPattern text) :
    ¬ ['\n', '\n'] <:+: Regex.replaceAllString newLinesPattern2
      (Regex.findString tableOfContentsPattern text) newLine := by
  rw [replaceAllString_eq newLinesPattern2 _ _ mNL2 matchFront_newLinesPattern2 mNL2_lt]
  exact (cleanTable_aux _ hcr).1


theorem cleanTable_no_double_newline_witness :
    ¬ ['\n', '\r', '\n', '\n'] <:+: Regex.findString tableOfContentsPattern
      "Table of Contents\n\n   1.  Foo\n\n\n   2.  Bar\n\n1.  Introduction".toList ∧
    ¬ ['\n', '\n'] <:+: Regex.replaceAllString newLinesPattern2
      (Regex.findString tableOfContentsPattern
        "Table of Contents\n\n   1.  Foo\n\n\n   2.  Bar\n\n1.  Introduction".toList) newLine :=
  ⟨by decide, cleanTable_no_double_newline _ (by decide)⟩

/-- C9, as stated, fails: a carriage return between two runs of newlines
separates two matches of `\r?\n{2,}`, each replaced by one newline, and the
cleaned table then has two consecutive newlines. -/
theorem cleanTable_double_newline :
    Regex.matchString tableOfContentsPattern
      "Table of Contents\n\n\r\n\n1.  Introduction".toList = true ∧
    Regex.replaceAllString newLinesPattern2 (Regex.findString tableOfContentsPattern
      "Table of Contents\n\n\r\n\n1.  Introduction".toList) newLine =
      "Table of Contents\n\n1.  Introduction".toList ∧
    ['\n', '\n'] <:+: Regex.replaceAllString newLinesPattern2
      (Regex.findString tableOfContentsPattern
        "Table of Contents\n\n\r\n\n1.  Introduction".toList) newLine := by
  decide


/-! ## Occurrences of a literal are not created by a pass -/

theorem infix_append_of_head_not_mem {w : List Char} :
    ∀ (out R : List Char), (∀ x ∈ out, w.head? ≠ some x) → w <:+: out ++ R → w <:+: R := by
  intro out
  induction out with
  | nil => intro R _ h; exact h
  | cons x out ih =>
    intro R hx h
    rw [List.cons_append, List.infix_cons_iff] at h
    rcases h with h1 | h1
    · cases w with
      | nil => exact ⟨[], R, rfl⟩
      | cons a w =>
        rw [List.cons_prefix_cons] at h1
        exact absurd (by rw [h1.1]; rfl) (hx x (List.mem_cons_self _ _))
    · exact ih R (fun y hy => hx y (List.mem_cons_of_mem _ hy)) h1

theorem prefix_rewrite {mf : MatchFn} (hs : Shrinks mf) :
    ∀ (w s : List Char),
      (∀ t out rest, mf t = some (out, rest) → ∃ o os, out = o :: os ∧ o ∉ w) →
      w <+: rewrite mf s → w <+: s := by
  intro w
  induction w with
  | nil => intro s _ _; exact List.nil_prefix
  | cons a w ih =>
    intro s hf h
    cases hm : mf s with
    | some p =>
      obtain ⟨out, rest⟩ := p
      exfalso
      obtain ⟨o, os, ho, hno⟩ := hf s out rest hm
      rw [rewrite_match hs hm, ho, List.cons_append, List.cons_prefix_cons] at h
      exact hno (by rw [h.1]; exact List.mem_cons_self _ _)
    | none =>
      cases s with
      | nil =>
        rw [rewrite_nil hs] at h
        exact h
      | cons c cs =>
        rw [rewrite_skip hm, List.cons_prefix_cons] at h
        rw [List.cons_prefix_cons]
        refine ⟨h.1, ih cs ?_ h.2⟩
        intro t out rest ht
        obtain ⟨o, os, ho, hno⟩ := hf t out rest ht
        exact ⟨o, os, ho, fun hmem => hno (List.mem_cons_of_mem _ hmem)⟩

/-- A pass whose replacements are fresh for `w` does not create an occurrence
of `w`. -/
theorem infix_rewrite {mf : MatchFn} (hs : Shrinks mf) {w : List Char} (hf : Fresh mf w)
    (s : List Char) : w <:+: rewrite mf s → w <:+: s := by
  refine rewrite_induction hs (fun s => w <:+: rewrite mf s → w <:+: s) ?_ ?_ ?_ s
  · intro h
    rw [rewrite_nil hs] at h; exact h
  · intro s out rest hm ih h
    obtain ⟨hsuf, _, hhead⟩ := hf s out rest hm
    rw [rewrite_match hs hm] at h
    exact infix_in_suffix (ih (infix_append_of_head_not_mem out _ hhead h)) hsuf
  · intro c cs hm ih h
    rw [rewrite_skip hm, List.infix_cons_iff] at h
    rcases h with h1 | h1
    · exact (prefix_rewrite hs w (c :: cs) (fun t out rest ht => (hf t out rest ht).2.1)
        (by rw [rewrite_skip hm]; exact h1)).isInfix
    · exact infix_in_suffix (ih h1) (List.suffix_cons c cs)

theorem mNL_suffix {s rest : List Char} (h : mNL s = some rest) : rest <:+ s := by
  rw [(mNL_eq_some h).2]; exact List.dropWhile_suffix _

theorem mWS_suffix {s rest : List Char} (h : mWS s = some rest) : rest <:+ s := by
  cases s with
  | nil => simp [mWS] at h
  | cons c cs =>
    rw [(mWS_eq_some h).2]
    exact (List.dropWhile_suffix _).trans (List.suffix_cons c cs)

theorem fresh_re {m : List Char → Option (List Char)} {w : List Char} (o : Char)
    (os : List Char) (hsuf : ∀ s rest, m s = some rest → rest <:+ s) (ho : o ∉ w)
    (hw : ∀ x ∈ o :: os, w.head? ≠ some x) : Fresh (reFn m (o :: os)) w := by
  intro s out rest hm
  obtain ⟨hout, hm2⟩ := reFn_eq_some hm
  subst hout
  exact ⟨hsuf s rest hm2, ⟨o, os, rfl, ho⟩, hw⟩

theorem fresh_lit (old : List Char) {w : List Char} (o : Char)
    (os : List Char) (ho : o ∉ w)
    (hw : ∀ x ∈ o :: os, w.head? ≠ some x) : Fresh (litFn old (o :: os)) w := by
  intro s out rest hm
  obtain ⟨hout, hs⟩ := litFn_eq_some hm
  subst hout
  exact ⟨⟨old, hs.symm⟩, ⟨o, os, rfl, ho⟩, hw⟩

theorem tablePlaceholder_nlPass (s : List Char) :
    tablePlaceholder <:+: nlPass s → tablePlaceholder <:+: s := by
  have hN : 'N' ∉ tablePlaceholder := by decide
  have hT : ∀ x ∈ newLinesPlaceholder, tablePlaceholder.head? ≠ some x := by decide
  refine infix_rewrite (shrinks_nl _) ?_ s
  rw [newLinesPlaceholder_eq] at hT ⊢
  exact fresh_re 'N' _ (fun s rest h => mNL_suffix h) hN hT

theorem tablePlaceholder_wsPass (s : List Char) :
    tablePlaceholder <:+: wsPass s → tablePlaceholder <:+: s :=
  infix_rewrite (shrinks_ws _)
    (fresh_re ' ' [] (fun s rest h => mWS_suffix h) (by decide) (by decide)) s

theorem tablePlaceholder_nlRestore (s : List Char) :
    tablePlaceholder <:+: nlRestore s → tablePlaceholder <:+: s :=
  infix_rewrite shrinks_nlRestore (fresh_lit _ '\n' ['\n'] (by decide) (by decide)) s

/-- The restoration of the paragraph breaks leaves no paragraph-break
placeholder behind. -/
theorem newLinesPlaceholder_nlRestore (s : List Char) :
    ¬ newLinesPlaceholder <:+: nlRestore s := by
  refine rewrite_induction shrinks_nlRestore
    (fun s => ¬ newLinesPlaceholder <:+: nlRestore s) ?_ ?_ ?_ s
  · show ¬ newLinesPlaceholder <:+: nlRestore []
    rw [nlRestore, rewrite_nil shrinks_nlRestore]
    decide
  · intro s out rest hm ih h
    obtain ⟨hout, _⟩ := litFn_eq_some hm
    rw [nlRestore, rewrite_match shrinks_nlRestore hm, hout] at h
    exact ih (infix_append_of_head_not_mem newLines _ (by decide) h)
  · intro c cs hm ih h
    rw [nlRestore, rewrite_skip hm, List.infix_cons_iff] at h
    rcases h with h1 | h1
    · refine litFn_eq_none hm ?_
      refine prefix_rewrite shrinks_nlRestore _ (c :: cs) ?_ (by rw [rewrite_skip hm]; exact h1)
      intro t out rest ht
      obtain ⟨hout, _⟩ := litFn_eq_some ht
      exact ⟨'\n', ['\n'], hout, by decide⟩
    · exact ih h1

theorem tableRestore_id (table s : List Char) (h : ¬ tablePlaceholder <:+: s) :
    tableRestore table s = s := by
  refine rewrite_id s ?_
  intro t ht
  refine litFn_none_of_not_pre ?_
  intro hp
  exact h (infix_in_suffix hp.isInfix ht)

/-! ## Occurrences of a literal in the lines of a text -/

theorem infix_append_cons_of_not_mem {w : List Char} {c : Char} (hc : c ∉ w) :
    ∀ (l R : List Char), w <:+: l ++ c :: R → w <:+: l ∨ w <:+: R := by
  intro l
  induction l with
  | nil =>
    intro R h
    rw [List.nil_append, List.infix_cons_iff] at h
    rcases h with h1 | h1
    · cases w with
      | nil => left; exact List.infix_refl _
      | cons a w =>
        rw [List.cons_prefix_cons] at h1
        exact absurd (by rw [h1.1]; exact List.mem_cons_self _ _) hc
    · right; exact h1
  | cons x l ih =>
    intro R h
    rw [List.cons_append, List.infix_cons_iff] at h
    rcases h with h1 | h1
    · rw [← List.cons_append] at h1
      rcases prefix_append_cases h1 with h2 | ⟨t, ht, ht2⟩
      · left; exact h2.isInfix
      · cases t with
        | nil => left; rw [ht]; simp
        | cons d t =>
          rw [List.cons_prefix_cons] at ht2
          exact absurd (by rw [ht, ← ht2.1]; simp) hc
    · rcases ih R h1 with h2 | h2
      · left; exact infix_in_suffix h2 (List.suffix_cons x l)
      · right; exact h2

theorem stringsJoin_nil (sep : List Char) : stringsJoin [] sep = [] := rfl

theorem stringsJoin_single (l sep : List Char) : stringsJoin [l] sep = l := by
  simp [stringsJoin, List.intercalate]

theorem stringsJoin_cons_cons (l l2 : List Char) (ls : List (List Char)) (c : Char) :
    stringsJoin (l :: l2 :: ls) [c] = l ++ c :: stringsJoin (l2 :: ls) [c] := by
  simp [stringsJoin, List.intercalate]

theorem infix_stringsJoin {w : List Char} {c : Char} (hc : c ∉ w) :
    ∀ ls : List (List Char), w <:+: stringsJoin ls [c] → w = [] ∨ ∃ l ∈ ls, w <:+: l := by
  intro ls
  induction ls with
  | nil =>
    intro h
    left
    rw [stringsJoin_nil] at h
    exact List.eq_nil_of_infix_nil h
  | cons l ls ih =>
    intro h
    cases ls with
    | nil =>
      rw [stringsJoin_single] at h
      right; exact ⟨l, List.mem_cons_self _ _, h⟩
    | cons l2 ls =>
      rw [stringsJoin_cons_cons] at h
      rcases infix_append_cons_of_not_mem hc _ _ h with h1 | h1
      · right; exact ⟨l, List.mem_cons_self _ _, h1⟩
      · rcases ih h1 with h2 | ⟨l3, hl3, h3⟩
        · left; exact h2
        · right; exact ⟨l3, List.mem_cons_of_mem _ hl3, h3⟩

theorem mem_infix_stringsJoin (c : Char) :
    ∀ (ls : List (List Char)) (l : List Char), l ∈ ls → l <:+: stringsJoin ls [c] := by
  intro ls
  induction ls with
  | nil => intro l h; simp at h
  | cons l0 ls ih =>
    intro l h
    cases ls with
    | nil =>
      rw [stringsJoin_single]
      simp only [List.mem_singleton] at h
      rw [h]
    | cons l2 ls =>
      rw [stringsJoin_cons_cons]
      rcases List.mem_cons.mp h with h1 | h1
      · rw [h1]; exact (List.prefix_append _ _).isInfix
      · exact infix_in_suffix (ih l h1) ⟨l0 ++ [c], by simp⟩

/-- Header removal does not create an occurrence of a literal without newline. -/
theorem infix_removePageHeader {w : List Char} (hw : '\n' ∉ w) (text : List Char)
    (h : w <:+: removePageHeader text) : w <:+: text := by
  rw [removePageHeader_eq] at h
  rcases infix_stringsJoin hw _ h with h1 | ⟨l, hl, h2⟩
  · rw [h1]; exact ⟨[], text, rfl⟩
  · have hmem : l ∈ stringsSplit text '\n' := (List.mem_filter.mp hl).1
    have := mem_infix_stringsJoin '\n' _ l hmem
    rw [stringsJoin_stringsSplit] at this
    exact h2.trans this


/-- C7, as the code has it. When the table-of-contents pattern does not match
the header-stripped text and the input does not contain the literal
`TABLE_PLACEHOLDER`, the output of `normalize` contains neither
`NEWLINES_PLACEHOLDER` nor `TABLE_PLACEHOLDER`. -/
theorem normalize_no_placeholder (text : List Char)
    (h : Regex.matchString tableOfContentsPattern (removePageHeader text) = false)
    (hT : ¬ tablePlaceholder <:+: text) :
    ¬ newLinesPlaceholder <:+: normalize text ∧ ¬ tablePlaceholder <:+: normalize text := by
  have h4 : ¬ tablePlaceholder <:+: nlRestore (wsPass (nlPass (removePageHeader text))) :=
    fun hin => hT (infix_removePageHeader newline_not_mem_tablePlaceholder text
      (tablePlaceholder_nlPass _ (tablePlaceholder_wsPass _ (tablePlaceholder_nlRestore _ hin))))
  rw [normalize, cleanWhitespace_of_no_match _ h, tableRestore_id _ _ h4]
  exact ⟨newLinesPlaceholder_nlRestore _, h4⟩

theorem normalize_no_placeholder_witness :
    Regex.matchString tableOfContentsPattern
      (removePageHeader "A NEWLINES_PLACEHOLDER B\n\nC".toList) = false ∧
    ¬ tablePlaceholder <:+: "A NEWLINES_PLACEHOLDER B\n\nC".toList ∧
    ¬ newLinesPlaceholder <:+: normalize "A NEWLINES_PLACEHOLDER B\n\nC".toList ∧
    ¬ tablePlaceholder <:+: normalize "A NEWLINES_PLACEHOLDER B\n\nC".toList :=
  ⟨by decide, by decide, normalize_no_placeholder _ (by decide) (by decide)⟩

set_option maxRecDepth 20000 in
/-- C7, as stated, fails: deleting an occurrence of `TABLE_PLACEHOLDER` can
join its neighbours into a placeholder; and header removal can bring the
markers of a table of contents together, whose span is then copied to the
output with the placeholder literal it contains. -/
theorem normalize_placeholder_leak :
    (Regex.matchString tableOfContentsPattern
        "TABLE_TABLE_PLACEHOLDERPLACEHOLDER".toList = false ∧
      normalize "TABLE_TABLE_PLACEHOLDERPLACEHOLDER".toList = tablePlaceholder) ∧
    (Regex.matchString tableOfContentsPattern
        "NEWLINES_TABLE_PLACEHOLDERPLACEHOLDER".toList = false ∧
      normalize "NEWLINES_TABLE_PLACEHOLDERPLACEHOLDER".toList = newLinesPlaceholder) ∧
    (Regex.matchString tableOfContentsPattern
        "Table\nRFC 1 a b 2008\nof Contents NEWLINES_PLACEHOLDER 1.  Introduction".toList
          = false ∧
      ¬ tablePlaceholder <:+:
        "Table\nRFC 1 a b 2008\nof Contents NEWLINES_PLACEHOLDER 1.  Introduction".toList ∧
      normalize
        "Table\nRFC 1 a b 2008\nof Contents NEWLINES_PLACEHOLDER 1.  Introduction".toList =
        "Table\nof Contents NEWLINES_PLACEHOLDER 1.  Introduction".toList) :=
  ⟨⟨by decide, by decide⟩, ⟨by decide, by decide⟩, by decide, by decide, by decide⟩


/-! ## The two whitespace passes taken together -/

theorem skipWS_length_le : ∀ s : List Char, (skipWS s).length ≤ s.length := by
  intro s
  induction s with
  | nil => simp [skipWS]
  | cons c cs ih =>
    simp only [skipWS]
    split
    · simp only [List.length_cons]; omega
    · exact le_refl _

theorem skipWS_suffix : ∀ s : List Char, skipWS s <:+ s := by
  intro s
  induction s with
  | nil => simp [skipWS]
  | cons c cs ih =>
    simp only [skipWS]
    split
    · exact ih.trans (List.suffix_cons c cs)
    · exact List.suffix_refl _

/-- The cases of `mCanon`. -/
theorem mCanon_cases (brk : List Char) (c : Char) (cs : List Char) :
    (startsNL (c :: cs) = true ∧ isSpace c = true ∧
        mCanon brk (c :: cs) = some (brk, (c :: cs).dropWhile isSpace)) ∨
      (startsNL (c :: cs) = false ∧ isSpace c = true ∧
        mCanon brk (c :: cs) = some ([' '], skipWS cs)) ∨
      (startsNL (c :: cs) = false ∧ isSpace c = false ∧ mCanon brk (c :: cs) = none) := by
  by_cases h1 : startsNL (c :: cs) = true
  · left
    exact ⟨h1, startsNL_head h1, by simp [mCanon, h1]⟩
  · right
    have h1f : startsNL (c :: cs) = false := Bool.eq_false_iff.mpr h1
    by_cases h2 : isSpace c = true
    · left; exact ⟨h1f, h2, by simp [mCanon, h1f, h2]⟩
    · right
      have h2f : isSpace c = false := Bool.eq_false_iff.mpr h2
      exact ⟨h1f, h2f, by simp [mCanon, h1f, h2f]⟩

theorem mCanon_nil (brk : List Char) : mCanon brk [] = none := rfl

theorem shrinks_canon (brk : List Char) : Shrinks (mCanon brk) := by
  intro s out rest hm
  cases s with
  | nil => simp [mCanon] at hm
  | cons c cs =>
    rcases mCanon_cases brk c cs with ⟨_, h2, h3⟩ | ⟨_, _, h3⟩ | ⟨_, _, h3⟩
    · rw [h3] at hm
      simp only [Option.some.injEq, Prod.mk.injEq] at hm
      rw [← hm.2, List.dropWhile_cons_of_pos h2]
      have := length_dropWhile_le isSpace cs
      simp only [List.length_cons]; omega
    · rw [h3] at hm
      simp only [Option.some.injEq, Prod.mk.injEq] at hm
      rw [← hm.2]
      have := skipWS_length_le cs
      simp only [List.length_cons]; omega
    · rw [h3] at hm; simp at hm

theorem canon_nil (brk : List Char) : canon brk [] = [] := rewrite_nil (shrinks_canon brk)

theorem canon_break (brk : List Char) {c : Char} {cs : List Char}
    (h : startsNL (c :: cs) = true) :
    canon brk (c :: cs) = brk ++ canon brk ((c :: cs).dropWhile isSpace) := by
  rcases mCanon_cases brk c cs with ⟨_, _, h3⟩ | ⟨h1, _, _⟩ | ⟨h1, _, _⟩
  · exact rewrite_match (shrinks_canon brk) h3
  · rw [h] at h1; simp at h1
  · rw [h] at h1; simp at h1

theorem canon_space (brk : List Char) {c : Char} {cs : List Char}
    (h : startsNL (c :: cs) = false) (hc : isSpace c = true) :
    canon brk (c :: cs) = ' ' :: canon brk (skipWS cs) := by
  rcases mCanon_cases brk c cs with ⟨h1, _, _⟩ | ⟨_, _, h3⟩ | ⟨_, h2, _⟩
  · rw [h] at h1; simp at h1
  · exact rewrite_match (shrinks_canon brk) h3
  · rw [hc] at h2; simp at h2

theorem canon_word (brk : List Char) {c : Char} (cs : List Char) (hc : isSpace c = false) :
    canon brk (c :: cs) = c :: canon brk cs := by
  rcases mCanon_cases brk c cs with ⟨_, h2, _⟩ | ⟨_, h2, _⟩ | ⟨_, _, h3⟩
  · rw [hc] at h2; simp at h2
  · rw [hc] at h2; simp at h2
  · exact rewrite_skip h3

/-- Induction along the cases of `canon`. -/
theorem canon_induction (P : List Char → Prop) (hnil : P [])
    (hbreak : ∀ c cs, startsNL (c :: cs) = true → isSpace c = true →
      P ((c :: cs).dropWhile isSpace) → P (c :: cs))
    (hspace : ∀ c cs, startsNL (c :: cs) = false → isSpace c = true →
      P (skipWS cs) → P (c :: cs))
    (hword : ∀ c cs, isSpace c = false → P cs → P (c :: cs)) : ∀ s, P s := by
  refine rewrite_induction (shrinks_canon []) P hnil ?_ ?_
  · intro s out rest hm ih
    cases s with
    | nil => simp [mCanon] at hm
    | cons c cs =>
      rcases mCanon_cases [] c cs with ⟨h1, h2, h3⟩ | ⟨h1, h2, h3⟩ | ⟨_, _, h3⟩
      · rw [h3] at hm
        simp only [Option.some.injEq, Prod.mk.injEq] at hm
        rw [← hm.2] at ih
        exact hbreak c cs h1 h2 ih
      · rw [h3] at hm
        simp only [Option.some.injEq, Prod.mk.injEq] at hm
        rw [← hm.2] at ih
        exact hspace c cs h1 h2 ih
      · rw [h3] at hm; simp at hm
  · intro c cs hm ih
    rcases mCanon_cases [] c cs with ⟨_, _, h3⟩ | ⟨_, _, h3⟩ | ⟨_, h2, _⟩
    · rw [h3] at hm; simp at hm
    · rw [h3] at hm; simp at hm
    · exact hword c cs h2 ih

theorem nlPass_nil : nlPass [] = [] := rewrite_nil (shrinks_nl _)
theorem wsPass_nil : wsPass [] = [] := rewrite_nil (shrinks_ws _)
theorem nlRestore_nil : nlRestore [] = [] := rewrite_nil shrinks_nlRestore

theorem nlPass_break {s : List Char} (h : startsNL s = true) :
    nlPass s = newLinesPlaceholder ++ nlPass (s.dropWhile isSpace) := by
  have : mNL s = some (s.dropWhile isSpace) := by simp [mNL, h]
  exact rewrite_match (shrinks_nl _) (reFn_some this)

theorem nlPass_cons {c : Char} {cs : List Char} (h : startsNL (c :: cs) = false) :
    nlPass (c :: cs) = c :: nlPass cs := by
  have : mNL (c :: cs) = none := by simp [mNL, h]
  exact rewrite_skip (reFn_none this)

theorem wsPass_cons_space {c : Char} (hc : isSpace c = true) (s : List Char) :
    wsPass (c :: s) = ' ' :: wsPass (s.dropWhile isSpace) := by
  have : mWS (c :: s) = some (s.dropWhile isSpace) := by simp [mWS, hc]
  exact rewrite_match (shrinks_ws _) (reFn_some this)

theorem wsPass_word {c : Char} (hc : isSpace c = false) (s : List Char) :
    wsPass (c :: s) = c :: wsPass s :=
  rewrite_skip (reFn_none (mWS_none_of_not_space hc s))

theorem wsPass_append_word :
    ∀ (w s : List Char), (∀ c ∈ w, isSpace c = false) → wsPass (w ++ s) = w ++ wsPass s := by
  intro w
  induction w with
  | nil => intro s _; rfl
  | cons a w ih =>
    intro s h
    rw [List.cons_append, wsPass_word (h a (List.mem_cons_self _ _)),
      ih s (fun c hc => h c (List.mem_cons_of_mem _ hc))]
    rfl

theorem newLinesPlaceholder_not_space : ∀ c ∈ newLinesPlaceholder, isSpace c = false := by
  decide

theorem startsNL_false_of_not_space {c : Char} (hc : isSpace c = false) (cs : List Char) :
    startsNL (c :: cs) = false := by
  cases h : startsNL (c :: cs) with
  | false => rfl
  | true => have := startsNL_head h; rw [hc] at this; simp at this

/-- Dropping the leading whitespace of the output of the first whitespace
pass. -/
theorem dropWhile_nlPass : ∀ s : List Char, (nlPass s).dropWhile isSpace = nlPass (skipWS s) := by
  intro s
  induction s with
  | nil => rw [nlPass_nil]; rfl
  | cons c cs ih =>
    by_cases h1 : startsNL (c :: cs) = true
    · have : skipWS (c :: cs) = c :: cs := by simp [skipWS, h1]
      rw [this, nlPass_break h1, newLinesPlaceholder_eq, List.cons_append,
        List.dropWhile_cons_of_neg (by decide)]
    · have h1f : startsNL (c :: cs) = false := Bool.eq_false_iff.mpr h1
      by_cases h2 : isSpace c = true
      · have : skipWS (c :: cs) = skipWS cs := by simp [skipWS, h1f, h2]
        rw [this, nlPass_cons h1f, List.dropWhile_cons_of_pos h2, ih]
      · have : skipWS (c :: cs) = c :: cs := by simp [skipWS, h2]
        rw [this, nlPass_cons h1f, List.dropWhile_cons_of_neg h2]

/-- The two whitespace passes as one rewriting, the paragraph break written
as its placeholder. -/
theorem wsPass_nlPass : ∀ s : List Char, wsPass (nlPass s) = canon newLinesPlaceholder s := by
  refine canon_induction _ ?_ ?_ ?_ ?_
  · rw [nlPass_nil, wsPass_nil, canon_nil]
  · intro c cs h1 _ ih
    rw [nlPass_break h1, wsPass_append_word _ _ newLinesPlaceholder_not_space, ih, canon_break _ h1]
  · intro c cs h1 h2 ih
    rw [nlPass_cons h1, wsPass_cons_space h2, dropWhile_nlPass, ih, canon_space _ h1 h2]
  · intro c cs h2 ih
    rw [nlPass_cons (startsNL_false_of_not_space h2 cs), wsPass_word h2, ih, canon_word _ _ h2]


/-! ## Restoring the paragraph breaks -/

/-- The paragraph-break placeholder does not overlap itself. -/
theorem newLinesPlaceholder_no_border :
    ∀ k, k < 20 → 0 < k → (newLinesPlaceholder.drop k).isPrefixOf newLinesPlaceholder = false := by
  decide

theorem newLinesPlaceholder_length : newLinesPlaceholder.length = 20 := by decide

/-- A text without whitespace at the front of the output of the two whitespace
passes either stands at the front of the input, or runs into a placeholder
that the passes have put there. -/
theorem prefix_canon_placeholder :
    ∀ (w s : List Char), (∀ c ∈ w, isSpace c = false) →
      w <+: canon newLinesPlaceholder s →
      w <+: s ∨ ∃ w1 w2 t, w = w1 ++ w2 ∧ w2 ≠ [] ∧ w2 <+: newLinesPlaceholder ++ t ∧
        (w1 = [] → startsNL s = true) := by
  intro w
  induction w with
  | nil => intro s _ _; left; exact List.nil_prefix
  | cons a w ih =>
    intro s hw h
    have ha : isSpace a = false := hw a (List.mem_cons_self _ _)
    cases s with
    | nil => rw [canon_nil] at h; simp at h
    | cons c cs =>
      by_cases h1 : startsNL (c :: cs) = true
      · right
        rw [canon_break _ h1] at h
        exact ⟨[], a :: w, _, rfl, by simp, h, fun _ => h1⟩
      · have h1f : startsNL (c :: cs) = false := Bool.eq_false_iff.mpr h1
        by_cases h2 : isSpace c = true
        · exfalso
          rw [canon_space _ h1f h2, List.cons_prefix_cons] at h
          rw [h.1] at ha
          exact absurd ha (by decide)
        · have h2f : isSpace c = false := Bool.eq_false_iff.mpr h2
          rw [canon_word _ _ h2f, List.cons_prefix_cons] at h
          rcases ih cs (fun x hx => hw x (List.mem_cons_of_mem _ hx)) h.2 with h3 | h3
          · left
            rw [List.cons_prefix_cons]; exact ⟨h.1, h3⟩
          · obtain ⟨w1, w2, t, hw12, hne, hp, _⟩ := h3
            right
            exact ⟨a :: w1, w2, t, by rw [hw12]; rfl, hne, hp, fun h0 => by simp at h0⟩

/-- In the output of the two whitespace passes on a text without the literal
`NEWLINES_PLACEHOLDER`, the placeholder stands only where a paragraph break
was. -/
theorem placeholder_prefix_canon {s : List Char} (hs : ¬ newLinesPlaceholder <:+: s)
    (h : newLinesPlaceholder <+: canon newLinesPlaceholder s) : startsNL s = true := by
  rcases prefix_canon_placeholder _ s newLinesPlaceholder_not_space h with h1 | h1
  · exact absurd h1.isInfix hs
  · obtain ⟨w1, w2, t, hw, hne, hp, hstart⟩ := h1
    by_cases hw1 : w1 = []
    · exact hstart hw1
    · exfalso
      have hlen : w1.length + w2.length = 20 := by
        rw [← List.length_append, ← hw, newLinesPlaceholder_length]
      have h1pos : 0 < w1.length := List.length_pos.mpr hw1
      have h2pos : 0 < w2.length := List.length_pos.mpr hne
      have hdrop : newLinesPlaceholder.drop w1.length = w2 := by
        rw [hw, List.drop_left]
      have hp2 : w2 <+: newLinesPlaceholder :=
        List.prefix_of_prefix_length_le hp (List.prefix_append _ _)
          (by rw [newLinesPlaceholder_length]; omega)
      have := newLinesPlaceholder_no_border w1.length (by omega) h1pos
      rw [hdrop] at this
      rw [List.isPrefixOf_iff_prefix.mpr hp2] at this
      simp at this

theorem nlRestore_placeholder (s : List Char) :
    nlRestore (newLinesPlaceholder ++ s) = newLines ++ nlRestore s :=
  rewrite_match shrinks_nlRestore (litFn_append _ _ _)

theorem nlRestore_cons {c : Char} {s : List Char} (h : ¬ newLinesPlaceholder <+: c :: s) :
    nlRestore (c :: s) = c :: nlRestore s :=
  rewrite_skip (litFn_none_of_not_pre h)

/-- The three whitespace steps on a text without the literal
`NEWLINES_PLACEHOLDER`: the whitespace is brought into canonical form, a
paragraph break being two newlines. -/
theorem nlRestore_canon :
    ∀ s : List Char, ¬ newLinesPlaceholder <:+: s →
      nlRestore (canon newLinesPlaceholder s) = canon newLines s := by
  refine canon_induction _ ?_ ?_ ?_ ?_
  · intro _
    rw [canon_nil, canon_nil, nlRestore_nil]
  · intro c cs h1 _ ih hs
    rw [canon_break _ h1, canon_break _ h1, nlRestore_placeholder,
      ih (fun h => hs (infix_in_suffix h (List.dropWhile_suffix _)))]
  · intro c cs h1 h2 ih hs
    rw [canon_space _ h1 h2, canon_space _ h1 h2, nlRestore_cons, ih]
    · exact fun h => hs (infix_in_suffix h ((skipWS_suffix cs).trans (List.suffix_cons c cs)))
    · rw [newLinesPlaceholder_eq, List.cons_prefix_cons]
      intro h; exact absurd h.1 (by decide)
  · intro c cs h2 ih hs
    rw [canon_word _ _ h2, canon_word _ _ h2, nlRestore_cons, ih]
    · exact fun h => hs (infix_in_suffix h (List.suffix_cons c cs))
    · intro hp
      rw [← canon_word newLinesPlaceholder cs h2] at hp
      have := placeholder_prefix_canon hs hp
      rw [startsNL_false_of_not_space h2 cs] at this
      simp at this

theorem fresh_canon {w : List Char} (hsp : ' ' ∉ w) (hnl : '\n' ∉ w)
    (h1 : w.head? ≠ some ' ') (h2 : w.head? ≠ some '\n') : Fresh (mCanon newLines) w := by
  intro s out rest hm
  cases s with
  | nil => simp [mCanon] at hm
  | cons c cs =>
    rcases mCanon_cases newLines c cs with ⟨_, _, h3⟩ | ⟨_, _, h3⟩ | ⟨_, _, h3⟩
    · rw [h3] at hm
      simp only [Option.some.injEq, Prod.mk.injEq] at hm
      rw [← hm.1, ← hm.2]
      refine ⟨List.dropWhile_suffix _, ⟨'\n', ['\n'], rfl, hnl⟩, ?_⟩
      intro x hx
      simp only [newLines, List.mem_cons, List.mem_singleton, List.not_mem_nil, or_false,
        or_self] at hx
      rw [hx]; exact h2
    · rw [h3] at hm
      simp only [Option.some.injEq, Prod.mk.injEq] at hm
      rw [← hm.1, ← hm.2]
      refine ⟨(skipWS_suffix cs).trans (List.suffix_cons c cs), ⟨' ', [], rfl, hsp⟩, ?_⟩
      intro x hx
      simp only [List.mem_singleton] at hx
      rw [hx]; exact h1
    · rw [h3] at hm; simp at hm

theorem tablePlaceholder_canon (s : List Char) :
    tablePlaceholder <:+: canon newLines s → tablePlaceholder <:+: s :=
  infix_rewrite (shrinks_canon _)
    (fresh_canon (by decide) (by decide) (by decide) (by decide)) s

theorem newLinesPlaceholder_canon (s : List Char) :
    newLinesPlaceholder <:+: canon newLines s → newLinesPlaceholder <:+: s :=
  infix_rewrite (shrinks_canon _)
    (fresh_canon (by decide) (by decide) (by decide) (by decide)) s

/-- Without a table of contents and without placeholder literals in the text,
`cleanWhitespace` brings the whitespace into canonical form. -/
theorem cleanWhitespace_eq_canon (text : List Char)
    (h : Regex.matchString tableOfContentsPattern text = false)
    (hN : ¬ newLinesPlaceholder <:+: text) (hT : ¬ tablePlaceholder <:+: text) :
    cleanWhitespace text = canon newLines text := by
  rw [cleanWhitespace_of_no_match text h, wsPass_nlPass, nlRestore_canon text hN,
    tableRestore_id _ _ (fun hin => hT (tablePlaceholder_canon text hin))]


/-! ## The shape of the canonical form -/

theorem not_startsNL_dropWhile (s : List Char) : startsNL (s.dropWhile isSpace) = false := by
  cases h : s.dropWhile isSpace with
  | nil => rfl
  | cons r rs =>
    have hr : isSpace r = false := head_dropWhile isSpace s r (by rw [h]; rfl)
    exact startsNL_false_of_not_space hr rs

theorem canon_no_triple :
    ∀ s : List Char, ¬ ['\n', '\n', '\n'] <:+: canon newLines s ∧
      ((canon newLines s).head? = some '\n' → startsNL s = true) := by
  refine canon_induction _ ?_ ?_ ?_ ?_
  · rw [canon_nil]
    exact ⟨by decide, by simp⟩
  · intro c cs h1 _ ih
    obtain ⟨ih1, ih2⟩ := ih
    have hhead : (canon newLines ((c :: cs).dropWhile isSpace)).head? ≠ some '\n' := by
      intro hh
      have := ih2 hh
      rw [not_startsNL_dropWhile] at this
      simp at this
    rw [canon_break _ h1]
    refine ⟨?_, fun _ => h1⟩
    intro hin
    rw [show newLines ++ canon newLines ((c :: cs).dropWhile isSpace) =
      '\n' :: '\n' :: canon newLines ((c :: cs).dropWhile isSpace) from rfl,
      List.infix_cons_iff] at hin
    rcases hin with h2 | h2
    · rw [List.cons_prefix_cons, List.cons_prefix_cons] at h2
      obtain ⟨u, hu⟩ := h2.2.2
      exact hhead (by rw [← hu]; rfl)
    · rw [List.infix_cons_iff] at h2
      rcases h2 with h3 | h3
      · rw [List.cons_prefix_cons] at h3
        obtain ⟨u, hu⟩ := h3.2
        exact hhead (by rw [← hu]; rfl)
      · exact ih1 h3
  · intro c cs h1 h2 ih
    rw [canon_space _ h1 h2]
    refine ⟨?_, ?_⟩
    · intro hin
      rw [List.infix_cons_iff] at hin
      rcases hin with h3 | h3
      · rw [List.cons_prefix_cons] at h3
        exact absurd h3.1 (by decide)
      · exact ih.1 h3
    · intro hh
      simp only [List.head?_cons, Option.some.injEq] at hh
      exact absurd hh (by decide)
  · intro c cs h2 ih
    have hc : c ≠ '\n' := by
      intro h0; rw [h0, isSpace_nl] at h2; simp at h2
    rw [canon_word _ _ h2]
    refine ⟨?_, ?_⟩
    · intro hin
      rw [List.infix_cons_iff] at hin
      rcases hin with h3 | h3
      · rw [List.cons_prefix_cons] at h3
        exact hc h3.1.symm
      · exact ih.1 h3
    · intro hh
      simp only [List.head?_cons, Option.some.injEq] at hh
      exact absurd hh hc

/-- Without a table of contents in the header-stripped text and without
placeholder literals in the input, `normalize` is header removal followed by
the canonical form of the whitespace. -/
theorem normalize_eq_canon (text : List Char)
    (h : Regex.matchString tableOfContentsPattern (removePageHeader text) = false)
    (hN : ¬ newLinesPlaceholder <:+: text) (hT : ¬ tablePlaceholder <:+: text) :
    normalize text = canon newLines (removePageHeader text) :=
  cleanWhitespace_eq_canon _ h
    (fun hin => hN (infix_removePageHeader newline_not_mem_newLinesPlaceholder text hin))
    (fun hin => hT (infix_removePageHeader newline_not_mem_tablePlaceholder text hin))

/-- C3, as the code has it. When the table-of-contents pattern does not match
the header-stripped text and the input contains neither the literal
`NEWLINES_PLACEHOLDER` nor the literal `TABLE_PLACEHOLDER`, the output of
`normalize` has no three consecutive newlines. -/
theorem normalize_no_triple_newline (text : List Char)
    (h : Regex.matchString tableOfContentsPattern (removePageHeader text) = false)
    (hN : ¬ newLinesPlaceholder <:+: text) (hT : ¬ tablePlaceholder <:+: text) :
    ¬ ['\n', '\n', '\n'] <:+: normalize text := by
  rw [normalize_eq_canon text h hN hT]
  exact (canon_no_triple _).1

theorem normalize_no_triple_newline_witness :
    Regex.matchString tableOfContentsPattern
      (removePageHeader "one\n\n\n\n\ntwo \n\n \n three".toList) = false ∧
    ¬ newLinesPlaceholder <:+: "one\n\n\n\n\ntwo \n\n \n three".toList ∧
    ¬ tablePlaceholder <:+: "one\n\n\n\n\ntwo \n\n \n three".toList ∧
    ¬ ['\n', '\n', '\n'] <:+: normalize "one\n\n\n\n\ntwo \n\n \n three".toList :=
  ⟨by decide, by decide, by decide,
    normalize_no_triple_newline _ (by decide) (by decide) (by decide)⟩

set_option maxRecDepth 20000 in
/-- C3, as stated, fails: two adjacent `NEWLINES_PLACEHOLDER` literals of the
input become four newlines; the deletion of a `TABLE_PLACEHOLDER` literal joins
two paragraph breaks; and header removal can bring the markers of a table of
contents together, whose cleaned span keeps three newlines when carriage
returns separate its newline runs. -/
theorem normalize_triple_newline :
    (Regex.matchString tableOfContentsPattern
        "NEWLINES_PLACEHOLDERNEWLINES_PLACEHOLDER".toList = false ∧
      normalize "NEWLINES_PLACEHOLDERNEWLINES_PLACEHOLDER".toList = "\n\n\n\n".toList) ∧
    (Regex.matchString tableOfContentsPattern "a\n\nTABLE_PLACEHOLDER\n\nb".toList = false ∧
      normalize "a\n\nTABLE_PLACEHOLDER\n\nb".toList = "a\n\n\n\nb".toList) ∧
    (Regex.matchString tableOfContentsPattern
        "Table\nRFC 1 a b 2008\nof Contents\n\n\r\n\n\r\n\n1.  Introduction".toList = false ∧
      normalize "Table\nRFC 1 a b 2008\nof Contents\n\n\r\n\n\r\n\n1.  Introduction".toList =
        "Table\nof Contents\n\n\n1.  Introduction".toList) :=
  ⟨⟨by decide, by decide⟩, ⟨by decide, by decide⟩, by decide, by decide⟩

/-! ## Normalising twice -/

theorem skipWS_head : ∀ (s : List Char) (c : Char) (cs : List Char), skipWS s = c :: cs →
    startsNL (c :: cs) = true ∨ isSpace c = false := by
  intro s
  induction s with
  | nil => intro c cs h; simp [skipWS] at h
  | cons x xs ih =>
    intro c cs h
    simp only [skipWS] at h
    split at h
    · exact ih c cs h
    · rename_i hx
      simp only [List.cons.injEq] at h
      obtain ⟨rfl, rfl⟩ := h
      by_cases h1 : startsNL (x :: xs) = true
      · left; exact h1
      · right
        simp only [Bool.and_eq_true, Bool.not_eq_true', not_and] at hx
        cases hsp : isSpace x with
        | false => rfl
        | true => exact absurd (hx hsp) (by simpa using h1)

theorem skipWS_of_break {s : List Char} (h : startsNL s = true) : skipWS s = s := by
  cases s with
  | nil => rfl
  | cons c cs => simp [skipWS, h]

theorem skipWS_of_word {c : Char} (cs : List Char) (h : isSpace c = false) :
    skipWS (c :: cs) = c :: cs := by
  simp [skipWS, h]

theorem startsNL_newLines_append (R : List Char) : startsNL (newLines ++ R) = true :=
  (startsNL_iff _).mpr (Or.inl ⟨R, rfl⟩)

/-- The canonical form of a text that does not start with whitespace does not
start with whitespace. -/
theorem dropWhile_canon_of_word (s : List Char)
    (h : ∀ c cs, s = c :: cs → isSpace c = false) :
    (canon newLines s).dropWhile isSpace = canon newLines s := by
  cases s with
  | nil => rw [canon_nil]; rfl
  | cons c cs =>
    have hc := h c cs rfl
    rw [canon_word _ _ hc, List.dropWhile_cons_of_neg (by simp [hc])]

theorem skipWS_canon_skipWS (s : List Char) :
    skipWS (canon newLines (skipWS s)) = canon newLines (skipWS s) := by
  cases h : skipWS s with
  | nil => rw [canon_nil]; rfl
  | cons c cs =>
    rcases skipWS_head s c cs h with h1 | h1
    · rw [canon_break _ h1]
      exact skipWS_of_break (startsNL_newLines_append _)
    · rw [canon_word _ _ h1]
      exact skipWS_of_word _ h1

/-- The canonical form is a fixed point of `canon`. -/
theorem canon_canon : ∀ s : List Char, canon newLines (canon newLines s) = canon newLines s := by
  refine canon_induction _ ?_ ?_ ?_ ?_
  · rw [canon_nil, canon_nil]
  · intro c cs h1 _ ih
    rw [canon_break _ h1]
    have hb : startsNL ('\n' :: ('\n' :: canon newLines ((c :: cs).dropWhile isSpace))) = true :=
      startsNL_newLines_append _
    have hd : ('\n' :: ('\n' :: canon newLines ((c :: cs).dropWhile isSpace))).dropWhile isSpace =
        canon newLines ((c :: cs).dropWhile isSpace) := by
      rw [List.dropWhile_cons_of_pos isSpace_nl, List.dropWhile_cons_of_pos isSpace_nl]
      refine dropWhile_canon_of_word _ ?_
      intro r rs hr
      exact head_dropWhile isSpace (c :: cs) r (by rw [hr]; rfl)
    show canon newLines ('\n' :: ('\n' :: canon newLines ((c :: cs).dropWhile isSpace))) = _
    rw [canon_break _ hb, hd, ih]
  · intro c cs h1 h2 ih
    rw [canon_space _ h1 h2]
    have hb : startsNL (' ' :: canon newLines (skipWS cs)) = false := by
      cases hh : startsNL (' ' :: canon newLines (skipWS cs)) with
      | false => rfl
      | true =>
        rcases (startsNL_iff _).mp hh with ⟨t, ht⟩ | ⟨t, ht⟩
        · simp only [List.cons.injEq] at ht
          exact absurd ht.1 (by decide)
        · simp only [List.cons.injEq] at ht
          exact absurd ht.1 (by decide)
    rw [canon_space _ hb (by decide), skipWS_canon_skipWS, ih]
  · intro c cs h2 ih
    rw [canon_word _ _ h2, canon_word _ _ h2, ih]


/-! ## The empty text, and header removal twice -/

/-- C11. Empty input gives empty output: `removePageHeader`, `cleanWhitespace`
and their composition `normalize` all map the empty text to the empty text. -/
theorem normalize_empty :
    removePageHeader [] = [] ∧ cleanWhitespace [] = [] ∧
      normalize [] = cleanWhitespace (removePageHeader []) ∧ normalize [] = [] :=
  ⟨by decide, by decide, rfl, by decide⟩

/-- C15. Header removal is idempotent; in particular a text all of whose lines
are header lines is mapped to the empty text, which header removal leaves
empty. -/
theorem removePageHeader_idempotent (text : List Char) :
    removePageHeader (removePageHeader text) = removePageHeader text ∧
    (removePageHeader
        "RFC 5246              TLS                        August 2008\nRFC 1 a b 2008".toList = [] ∧
      removePageHeader (removePageHeader
        "RFC 5246              TLS                        August 2008\nRFC 1 a b 2008".toList) =
        []) :=
  ⟨removePageHeader_of_no_header _ (fun l hl => not_isPageHeader_of_mem text l hl),
    by decide, by decide⟩


/-! ## The result of `GetText` -/

/-- C12. The result of `GetText` for each outcome of the HTTP exchange: an
error of the client is returned unchanged with the empty text; a response
whose status code is not 200 gives the empty text and the error whose message
ends with the status code; a response with status code 200 and a readable body
gives the normalised body and no error (an error of reading the body is
returned unchanged with the empty text).  So an error is returned exactly when
the retrieval did not succeed, and then the text is empty. -/
theorem getText_contract {ε : Type} (client : List Char → HttpResult ε) (number : Int) :
    (∀ e, client (rfcURL number) = .failure e →
      GetText client number = ([], some (.foreign e))) ∧
    (∀ s body, client (rfcURL number) = .response s body → s ≠ 200 →
      GetText client number = ([], some (.errorf
        ("failed to fetch RFC document, status code: ".toList ++ (toString s).toList)))) ∧
    (∀ b, client (rfcURL number) = .response 200 (.ok b) →
      GetText client number = (cleanWhitespace (removePageHeader b), none)) ∧
    (∀ e, client (rfcURL number) = .response 200 (.error e) →
      GetText client number = ([], some (.foreign e))) ∧
    ((GetText client number).2.isSome = true ↔
      ¬ ∃ b, client (rfcURL number) = .response 200 (.ok b)) ∧
    ((GetText client number).2.isSome = true → (GetText client number).1 = []) := by
  refine ⟨?_, ?_, ?_, ?_, ?_, ?_⟩
  · intro e h
    simp [GetText, h]
  · intro s body h hs
    simp [GetText, h, statusOK, hs]
  · intro b h
    simp [GetText, h, statusOK]
  · intro e h
    simp [GetText, h, statusOK]
  · cases h : client (rfcURL number) with
    | failure e => simp [GetText, h]
    | response s body =>
      by_cases hs : s = 200
      · subst hs
        cases body with
        | error e => simp [GetText, h, statusOK]
        | ok b => simp [GetText, h, statusOK]
      · simp [GetText, h, statusOK, hs]
  · cases h : client (rfcURL number) with
    | failure e => simp [GetText, h]
    | response s body =>
      by_cases hs : s = 200
      · subst hs
        cases body with
        | error e => simp [GetText, h, statusOK]
        | ok b => simp [GetText, h, statusOK]
      · simp [GetText, h, statusOK, hs]

theorem getText_contract_witness :
    rfcURL 5246 = "https://www.rfc-editor.org/rfc/rfc5246.txt".toList ∧
    GetText (fun url => if url = "https://www.rfc-editor.org/rfc/rfc5246.txt".toList
        then HttpResult.response 200 (Except.ok "one\ntwo".toList)
        else HttpResult.failure "no such host".toList) 5246 = ("one two".toList, none) ∧
    GetText (fun url => if url = "https://www.rfc-editor.org/rfc/rfc5246.txt".toList
        then HttpResult.response 200 (Except.ok "one\ntwo".toList)
        else HttpResult.failure "no such host".toList) 1 =
      ([], some (GoError.foreign "no such host".toList)) ∧
    GetText (fun _ => (HttpResult.response 404 (Except.ok "Not Found".toList) :
        HttpResult (List Char))) 5246 =
      ([], some (GoError.errorf
        "failed to fetch RFC document, status code: 404".toList)) ∧
    ((GetText (fun _ => (HttpResult.response 404 (Except.ok "Not Found".toList) :
        HttpResult (List Char))) 5246).2.isSome = true →
      (GetText (fun _ => (HttpResult.response 404 (Except.ok "Not Found".toList) :
        HttpResult (List Char))) 5246).1 = []) :=
  ⟨by decide, by decide, by decide, by decide,
    (getText_contract (fun _ => (HttpResult.response 404 (Except.ok "Not Found".toList) :
        HttpResult (List Char))) 5246).2.2.2.2.2⟩


/-! ## The whitespace of the canonical form -/

theorem canon_space_chars :
    ∀ s : List Char, ∀ c ∈ canon newLines s, isSpace c = true → c = ' ' ∨ c = '\n' := by
  refine canon_induction _ ?_ ?_ ?_ ?_
  · intro c hc
    rw [canon_nil] at hc
    simp at hc
  · intro c cs h1 _ ih x hx _
    rw [canon_break _ h1] at hx
    rcases List.mem_append.mp hx with h | h
    · right
      simpa [newLines] using h
    · exact ih x h ‹_›
  · intro c cs h1 h2 ih x hx hs
    rw [canon_space _ h1 h2] at hx
    rcases List.mem_cons.mp hx with h | h
    · left; exact h
    · exact ih x h hs
  · intro c cs h2 ih x hx hs
    rw [canon_word _ _ h2] at hx
    rcases List.mem_cons.mp hx with h | h
    · rw [h, h2] at hs; simp at hs
    · exact ih x h hs

theorem canon_skipWS_head (s : List Char) :
    (canon newLines (skipWS s)).head? ≠ some ' ' := by
  cases h : skipWS s with
  | nil => rw [canon_nil]; simp
  | cons c cs =>
    rcases skipWS_head s c cs h with h1 | h1
    · rw [canon_break _ h1]
      show (some '\n' : Option Char) ≠ some ' '
      decide
    · rw [canon_word _ _ h1]
      simp only [List.head?_cons, ne_eq, Option.some.injEq]
      intro h0
      rw [h0] at h1
      exact absurd h1 (by decide)

theorem canon_no_double_space :
    ∀ s : List Char, ¬ [' ', ' '] <:+: canon newLines s := by
  refine canon_induction _ ?_ ?_ ?_ ?_
  · rw [canon_nil]; decide
  · intro c cs h1 _ ih hin
    rw [canon_break _ h1,
      show newLines ++ canon newLines ((c :: cs).dropWhile isSpace) =
        '\n' :: '\n' :: canon newLines ((c :: cs).dropWhile isSpace) from rfl,
      List.infix_cons_iff] at hin
    rcases hin with h | h
    · rw [List.cons_prefix_cons] at h
      exact absurd h.1 (by decide)
    · rw [List.infix_cons_iff] at h
      rcases h with h3 | h3
      · rw [List.cons_prefix_cons] at h3
        exact absurd h3.1 (by decide)
      · exact ih h3
  · intro c cs h1 h2 ih hin
    rw [canon_space _ h1 h2, List.infix_cons_iff] at hin
    rcases hin with h | h
    · rw [List.cons_prefix_cons] at h
      obtain ⟨u, hu⟩ := h.2
      exact canon_skipWS_head cs (by rw [← hu]; rfl)
    · exact ih h
  · intro c cs h2 ih hin
    rw [canon_word _ _ h2, List.infix_cons_iff] at hin
    rcases hin with h | h
    · rw [List.cons_prefix_cons] at h
      rw [← h.1] at h2
      exact absurd h2 (by decide)
    · exact ih h

/-- C14. Canonical whitespace shape of prose: when the table-of-contents
pattern does not match and the text contains neither placeholder literal,
`cleanWhitespace text` contains no tab, carriage return or form feed, no two
adjacent spaces, and every maximal run of newlines in it has length exactly 2:
no newline stands alone and no three newlines are adjacent. -/
theorem cleanWhitespace_canonical_shape (text : List Char)
    (h : Regex.matchString tableOfContentsPattern text = false)
    (hN : ¬ newLinesPlaceholder <:+: text) (hT : ¬ tablePlaceholder <:+: text) :
    (∀ c ∈ cleanWhitespace text, c ≠ '\t' ∧ c ≠ '\r' ∧ c ≠ '\x0c') ∧
    ¬ [' ', ' '] <:+: cleanWhitespace text ∧
    (∀ a b : List Char, cleanWhitespace text = a ++ '\n' :: b →
      a.getLast? = some '\n' ∨ b.head? = some '\n') ∧
    ¬ ['\n', '\n', '\n'] <:+: cleanWhitespace text := by
  have hc : cleanWhitespace text = canon newLines text := cleanWhitespace_eq_canon text h hN hT
  refine ⟨?_, ?_, ?_, ?_⟩
  · intro c hmem
    rw [hc] at hmem
    refine ⟨?_, ?_, ?_⟩
    · intro h0
      subst h0
      rcases canon_space_chars text _ hmem (by decide) with h1 | h1
      · exact absurd h1 (by decide)
      · exact absurd h1 (by decide)
    · intro h0
      subst h0
      rcases canon_space_chars text _ hmem (by decide) with h1 | h1
      · exact absurd h1 (by decide)
      · exact absurd h1 (by decide)
    · intro h0
      subst h0
      rcases canon_space_chars text _ hmem (by decide) with h1 | h1
      · exact absurd h1 (by decide)
      · exact absurd h1 (by decide)
  · rw [hc]; exact canon_no_double_space text
  · intro a b hab
    have h1 : evenRuns false (cleanWhitespace text) = true := by
      rw [cleanWhitespace_of_no_match text h]
      exact evenRuns_tableRestore_nil _ false (evenRuns_nlRestore _ (wsPass_no_newline _))
    rw [hab] at h1
    exact evenRuns_no_single b a false (fun _ => rfl) h1
  · rw [hc]; exact (canon_no_triple text).1

theorem cleanWhitespace_canonical_shape_witness :
    Regex.matchString tableOfContentsPattern "one\t two\r\n\n\n \x0cthree \n".toList = false ∧
    ¬ newLinesPlaceholder <:+: "one\t two\r\n\n\n \x0cthree \n".toList ∧
    ¬ tablePlaceholder <:+: "one\t two\r\n\n\n \x0cthree \n".toList ∧
    cleanWhitespace "one\t two\r\n\n\n \x0cthree \n".toList = "one two\n\nthree ".toList ∧
    ((∀ c ∈ cleanWhitespace "one\t two\r\n\n\n \x0cthree \n".toList,
        c ≠ '\t' ∧ c ≠ '\r' ∧ c ≠ '\x0c') ∧
      ¬ [' ', ' '] <:+: cleanWhitespace "one\t two\r\n\n\n \x0cthree \n".toList ∧
      (∀ a b : List Char, cleanWhitespace "one\t two\r\n\n\n \x0cthree \n".toList =
          a ++ '\n' :: b → a.getLast? = some '\n' ∨ b.head? = some '\n') ∧
      ¬ ['\n', '\n', '\n'] <:+: cleanWhitespace "one\t two\r\n\n\n \x0cthree \n".toList) :=
  ⟨by decide, by decide, by decide, by decide,
    cleanWhitespace_canonical_shape _ (by decide) (by decide) (by decide)⟩


/-! ## The characters that are not whitespace -/

theorem filter_dropWhile (p : Char → Bool) (hp : ∀ c, p c = true → isSpace c = true) :
    ∀ s : List Char,
      (s.dropWhile p).filter (fun c => !isSpace c) = s.filter (fun c => !isSpace c) := by
  intro s
  induction s with
  | nil => rfl
  | cons c cs ih =>
    by_cases hc : p c = true
    · rw [List.dropWhile_cons_of_pos hc, ih, List.filter_cons_of_neg (by simp [hp c hc])]
    · rw [List.dropWhile_cons_of_neg hc]

theorem filter_skipWS :
    ∀ s : List Char,
      (skipWS s).filter (fun c => !isSpace c) = s.filter (fun c => !isSpace c) := by
  intro s
  induction s with
  | nil => rfl
  | cons c cs ih =>
    simp only [skipWS]
    split
    · rename_i h
      simp only [Bool.and_eq_true] at h
      rw [ih, List.filter_cons_of_neg (by simp [h.1])]
    · rfl

theorem filter_canon (brk : List Char) (hb : ∀ c ∈ brk, isSpace c = true) :
    ∀ s : List Char,
      (canon brk s).filter (fun c => !isSpace c) = s.filter (fun c => !isSpace c) := by
  have hbrk : brk.filter (fun c => !isSpace c) = [] := by
    rw [List.filter_eq_nil_iff]
    intro c hc
    simp [hb c hc]
  refine canon_induction _ ?_ ?_ ?_ ?_
  · rw [canon_nil]
  · intro c cs h1 _ ih
    rw [canon_break _ h1, List.filter_append, hbrk, List.nil_append, ih,
      filter_dropWhile isSpace (fun _ h => h)]
  · intro c cs h1 h2 ih
    rw [canon_space _ h1 h2, List.filter_cons_of_neg (by decide), ih, filter_skipWS,
      List.filter_cons_of_neg (by simp [h2])]
  · intro c cs h2 ih
    rw [canon_word _ _ h2, List.filter_cons_of_pos (by simp [h2]),
      List.filter_cons_of_pos (by simp [h2]), ih]

theorem filter_cleanTable :
    ∀ s : List Char,
      (cleanTable s).filter (fun c => !isSpace c) = s.filter (fun c => !isSpace c) := by
  have hnl : ∀ c, isNL c = true → isSpace c = true := by
    intro c hc
    have : c = '\n' := by simpa [isNL] using hc
    rw [this]; exact isSpace_nl
  refine rewrite_induction (shrinks_nl2 newLine) _ ?_ ?_ ?_
  · rw [cleanTable_nil]
  · intro s out rest hm ih
    obtain ⟨ho, hm2⟩ := reFn_eq_some hm
    rw [cleanTable, rewrite_match (shrinks_nl2 _) hm, ho, List.filter_append]
    have h0 : newLine.filter (fun c => !isSpace c) = [] := by decide
    rw [h0, List.nil_append]
    show (cleanTable rest).filter _ = _
    rw [ih]
    rcases mNL2_eq_some hm2 with ⟨t, hs, hr⟩ | ⟨t, hs, hr⟩
    · rw [hs, hr, filter_dropWhile isNL hnl, List.filter_cons_of_neg (by decide),
        List.filter_cons_of_neg (by decide)]
    · rw [hs, hr, filter_dropWhile isNL hnl, List.filter_cons_of_neg (by decide),
        List.filter_cons_of_neg (by decide), List.filter_cons_of_neg (by decide)]
  · intro c cs hm ih
    rw [cleanTable, rewrite_skip hm]
    show (c :: cleanTable cs).filter _ = _
    by_cases hc : isSpace c = true
    · rw [List.filter_cons_of_neg (by simp [hc]), List.filter_cons_of_neg (by simp [hc]), ih]
    · rw [List.filter_cons_of_pos (by simpa using hc), List.filter_cons_of_pos (by simpa using hc),
        ih]


/-! ## The output of `cleanWhitespace` around the table of contents -/

theorem startsNL_append_word (s : List Char) {b : Char} (hb : isSpace b = false)
    (B : List Char) : startsNL (s ++ b :: B) = startsNL s := by
  have hn : ¬ '\n' = b := by
    intro h0; rw [← h0] at hb; exact absurd hb (by decide)
  have hr : ¬ b = '\r' := by
    intro h0; rw [h0] at hb; exact absurd hb (by decide)
  cases s with
  | nil => simp [startsNL, newLines, List.isPrefixOf, hn, hr]
  | cons x s =>
    cases s with
    | nil =>
      by_cases hx : x = '\r'
      · simp [startsNL, newLines, List.isPrefixOf, hx, hn]
      · simp [startsNL, newLines, List.isPrefixOf, hx, hn]
    | cons y s =>
      cases s with
      | nil =>
        by_cases hx : x = '\r'
        · simp [startsNL, newLines, List.isPrefixOf, hx, hn]
        · simp [startsNL, newLines, List.isPrefixOf, hx]
      | cons z s =>
        by_cases hx : x = '\r'
        · simp [startsNL, newLines, List.isPrefixOf, hx]
        · simp [startsNL, newLines, List.isPrefixOf, hx]

theorem skipWS_cons (c : Char) (cs : List Char) :
    skipWS (c :: cs) = if isSpace c && !startsNL (c :: cs) then skipWS cs else c :: cs := rfl

theorem skipWS_append_word {b : Char} (hb : isSpace b = false) (B : List Char) :
    ∀ s : List Char, skipWS (s ++ b :: B) = skipWS s ++ b :: B := by
  intro s
  induction s with
  | nil => simp [skipWS, hb]
  | cons c cs ih =>
    have h := startsNL_append_word (c :: cs) hb B
    rw [List.cons_append] at h
    rw [List.cons_append, skipWS_cons, skipWS_cons, h]
    by_cases hc : (isSpace c && !startsNL (c :: cs)) = true
    · rw [if_pos hc, if_pos hc, ih]
    · rw [if_neg hc, if_neg hc]; rfl

/-- The canonical form of a text followed by a word is the canonical form of
the text followed by that of the rest. -/
theorem canon_append_word (brk : List Char) {b : Char} (hb : isSpace b = false)
    (B : List Char) :
    ∀ s : List Char, canon brk (s ++ b :: B) = canon brk s ++ canon brk (b :: B) := by
  refine canon_induction _ ?_ ?_ ?_ ?_
  · rw [canon_nil]; rfl
  · intro c cs h1 _ ih
    have h := startsNL_append_word (c :: cs) hb B
    rw [h1, List.cons_append] at h
    rw [List.cons_append, canon_break _ h, canon_break _ h1, ← List.cons_append,
      dropWhile_append_of_not hb, ih, List.append_assoc]
  · intro c cs h1 h2 ih
    have h := startsNL_append_word (c :: cs) hb B
    rw [h1, List.cons_append] at h
    rw [List.cons_append, canon_space _ h h2, canon_space _ h1 h2, skipWS_append_word hb, ih]
    rfl
  · intro c cs h2 ih
    rw [List.cons_append, canon_word _ _ h2, canon_word _ _ h2, ih]
    rfl

theorem canon_word_append (brk : List Char) :
    ∀ (w s : List Char), (∀ c ∈ w, isSpace c = false) → canon brk (w ++ s) = w ++ canon brk s := by
  intro w
  induction w with
  | nil => intro s _; rfl
  | cons a w ih =>
    intro s h
    rw [List.cons_append, canon_word _ _ (h a (List.mem_cons_self _ _)),
      ih s (fun c hc => h c (List.mem_cons_of_mem _ hc))]
    rfl

theorem canon_around_placeholder (brk A B : List Char) :
    canon brk (A ++ tablePlaceholder ++ B) = canon brk A ++ tablePlaceholder ++ canon brk B := by
  have h1 : A ++ tablePlaceholder ++ B = A ++ 'T' :: ("ABLE_PLACEHOLDER".toList ++ B) := by
    rw [tablePlaceholder_eq]; simp
  have h2 : 'T' :: ("ABLE_PLACEHOLDER".toList ++ B) = tablePlaceholder ++ B := by
    rw [tablePlaceholder_eq]; rfl
  rw [h1, canon_append_word brk (by decide), h2,
    canon_word_append brk _ _ tablePlaceholder_not_space, List.append_assoc]

/-- The restoration of the table replaces the one placeholder that stands
between two texts without placeholder. -/
theorem tableRestore_around (table A B : List Char) (hA : ¬ tablePlaceholder <:+: A)
    (hB : ¬ tablePlaceholder <:+: B) :
    tableRestore table (A ++ tablePlaceholder ++ B) = A ++ table ++ B := by
  have hT : 'T' ∉ tablePlaceholder.tail := by decide
  have h2 : tablePlaceholder ++ B = 'T' :: ("ABLE_PLACEHOLDER".toList ++ B) := by
    rw [tablePlaceholder_eq]; rfl
  rw [tableRestore, List.append_assoc, rewrite_pre (tablePlaceholder ++ B) A,
    rewrite_match (shrinks_tableRestore table) (litFn_append _ _ _)]
  · have := tableRestore_id table B hB
    rw [tableRestore] at this
    rw [this, List.append_assoc]
  · intro a b hab hne
    cases b with
    | nil => exact absurd rfl hne
    | cons x xs =>
      refine litFn_none_of_not_pre ?_
      intro hp
      rw [h2, List.cons_append] at hp
      have := prefix_before_char hT x xs _ hp
      exact hA (infix_in_suffix this.isInfix ⟨a, hab.symm⟩)

theorem newLinesPlaceholder_around (A B : List Char) (hA : ¬ newLinesPlaceholder <:+: A)
    (hB : ¬ newLinesPlaceholder <:+: B) :
    ¬ newLinesPlaceholder <:+: A ++ tablePlaceholder ++ B := by
  have hT : 'T' ∉ newLinesPlaceholder := by decide
  have hN : ∀ x ∈ "ABLE_PLACEHOLDER".toList, newLinesPlaceholder.head? ≠ some x := by decide
  have h1 : A ++ tablePlaceholder ++ B = A ++ 'T' :: ("ABLE_PLACEHOLDER".toList ++ B) := by
    rw [tablePlaceholder_eq]; simp
  intro hin
  rw [h1] at hin
  rcases infix_append_cons_of_not_mem hT _ _ hin with h | h
  · exact hA h
  · exact hB (infix_append_of_head_not_mem _ _ hN h)

/-- With a table of contents, the text splits into the part before the span,
the span and the part after it, and the first pass puts the placeholder in
the place of the span. -/
theorem tocPass_split (text : List Char)
    (h : Regex.matchString tableOfContentsPattern text = true) :
    ∃ pre T post, text = pre ++ T ++ post ∧
      Regex.findString tableOfContentsPattern text = T ∧
      tocPass text = pre ++ tablePlaceholder ++ post := by
  obtain ⟨pre, T, post, htext, hT, hm, hno⟩ := toc_split text h
  obtain ⟨w, a, e, _, _, hel, _, _, hlast⟩ := mToc_spec _ _ hm
  have hene : e ≠ [] := by
    intro h0; rw [h0] at hel; simp at hel
  refine ⟨pre, T, post, htext, hT, ?_⟩
  rw [htext, tocPass_of_match pre T post hm hno, tocPass,
    rewrite_id post (fun y hy => reFn_none (mToc_none_after_last e post hlast hene y hy))]

/-- The output of `cleanWhitespace` on a text without placeholder literals in
which the table-of-contents pattern matches: the canonical forms of the parts
before and after the span, and the cleaned span between them. -/
theorem cleanWhitespace_of_match_eq (text : List Char)
    (h : Regex.matchString tableOfContentsPattern text = true)
    (hN : ¬ newLinesPlaceholder <:+: text) (hT : ¬ tablePlaceholder <:+: text) :
    ∃ pre T post, text = pre ++ T ++ post ∧
      cleanWhitespace text = canon newLines pre ++ cleanTable T ++ canon newLines post := by
  obtain ⟨pre, T, post, htext, hfind, hpass⟩ := tocPass_split text h
  have hpre : pre <:+: text := ⟨[], T ++ post, by rw [htext]; simp⟩
  have hpost : post <:+: text := ⟨pre ++ T, [], by rw [htext]; simp⟩
  have hN1 : ¬ newLinesPlaceholder <:+: pre ++ tablePlaceholder ++ post :=
    newLinesPlaceholder_around pre post (fun hin => hN (hin.trans hpre))
      (fun hin => hN (hin.trans hpost))
  refine ⟨pre, T, post, htext, ?_⟩
  rw [cleanWhitespace_eq, hfind, hpass, wsPass_nlPass, nlRestore_canon _ hN1,
    canon_around_placeholder,
    tableRestore_around _ _ _ (fun hin => hT ((tablePlaceholder_canon pre hin).trans hpre))
      (fun hin => hT ((tablePlaceholder_canon post hin).trans hpost))]

/-- C13. Normalization changes whitespace only: for every text that contains
neither placeholder literal, deleting the whitespace characters from
`cleanWhitespace text` gives the same as deleting them from the text, with or
without a table of contents. -/
theorem cleanWhitespace_whitespace_only (text : List Char)
    (hN : ¬ newLinesPlaceholder <:+: text) (hT : ¬ tablePlaceholder <:+: text) :
    (cleanWhitespace text).filter (fun c => !isSpace c) =
      text.filter (fun c => !isSpace c) := by
  have hnn : ∀ c ∈ newLines, isSpace c = true := by decide
  by_cases h : Regex.matchString tableOfContentsPattern text = true
  · obtain ⟨pre, T, post, htext, hc⟩ := cleanWhitespace_of_match_eq text h hN hT
    rw [hc, List.filter_append, List.filter_append, filter_canon _ hnn, filter_canon _ hnn,
      filter_cleanTable, ← List.filter_append, ← List.filter_append, ← htext]
  · rw [cleanWhitespace_eq_canon text (Bool.eq_false_iff.mpr h) hN hT, filter_canon _ hnn]

set_option maxRecDepth 100000 in
theorem cleanWhitespace_whitespace_only_witness :
    ¬ newLinesPlaceholder <:+:
      "Abstract\n\n  text\nTable of Contents\n\n   1.  Foo\n\n1.  Introduction\n\n  more\ntext".toList ∧
    ¬ tablePlaceholder <:+:
      "Abstract\n\n  text\nTable of Contents\n\n   1.  Foo\n\n1.  Introduction\n\n  more\ntext".toList ∧
    cleanWhitespace
      "Abstract\n\n  text\nTable of Contents\n\n   1.  Foo\n\n1.  Introduction\n\n  more\ntext".toList =
      "Abstract\n\ntext Table of Contents\n   1.  Foo\n1.  Introduction\n\nmore text".toList ∧
    (cleanWhitespace
      "Abstract\n\n  text\nTable of Contents\n\n   1.  Foo\n\n1.  Introduction\n\n  more\ntext".toList
        ).filter (fun c => !isSpace c) =
      "Abstract\n\n  text\nTable of Contents\n\n   1.  Foo\n\n1.  Introduction\n\n  more\ntext".toList.filter
        (fun c => !isSpace c) :=
  ⟨by decide, by decide, by decide, cleanWhitespace_whitespace_only _ (by decide) (by decide)⟩


/-! ## Where the second run finds the table of contents -/

/-- A sequence of single characters matches by its first characters alone. -/
theorem run_simple_front (n : Nat) :
    ∀ (r : Regex), r.isSimple = true → ∀ (s t : List Char),
      Regex.run n r s some = some t →
      ∃ w, s = w ++ t ∧ ∀ t2 : List Char, Regex.run n r (w ++ t2) some = some t2 := by
  intro r
  induction r with
  | eps =>
    intro _ s t h
    rw [run_eps] at h
    exact ⟨[], by simpa using (Option.some.inj h), fun t2 => rfl⟩
  | cls p =>
    intro _ s t h
    cases s with
    | nil => simp [run_cls_nil] at h
    | cons c cs =>
      rw [run_cls_cons] at h
      by_cases hp : p c = true
      · rw [if_pos hp] at h
        refine ⟨[c], by simpa using (Option.some.inj h), ?_⟩
        intro t2
        show Regex.run n (Regex.cls p) (c :: t2) some = some t2
        rw [run_cls_cons, if_pos hp]
      · rw [if_neg hp] at h; simp at h
  | seq a b iha ihb =>
    intro h s t hr
    simp only [Regex.isSimple, Bool.and_eq_true] at h
    rw [run_seq, run_simple n a h.1 _] at hr
    cases ha : Regex.run n a s some with
    | none => rw [ha] at hr; simp at hr
    | some u =>
      rw [ha] at hr
      simp only [Option.some_bind] at hr
      obtain ⟨w1, hw1, hf1⟩ := iha h.1 s u ha
      obtain ⟨w2, hw2, hf2⟩ := ihb h.2 u t hr
      refine ⟨w1 ++ w2, by rw [hw1, hw2, List.append_assoc], ?_⟩
      intro t2
      rw [run_seq, run_simple n a h.1 _, List.append_assoc, hf1 (w2 ++ t2)]
      simp only [Option.some_bind]
      exact hf2 t2
  | alt a b _ _ => intro h; simp [Regex.isSimple] at h
  | star a _ => intro h; simp [Regex.isSimple] at h
  | bot => intro h; simp [Regex.isSimple] at h
  | eot => intro h; simp [Regex.isSimple] at h

theorem matchFront_simple_front {r : Regex} (hr : r.isSimple = true) {w t : List Char}
    (h : Regex.matchFront r 0 (w ++ t) = some t) (t2 : List Char) :
    Regex.matchFront r 0 (w ++ t2) = some t2 := by
  obtain ⟨w0, hw0, hf⟩ := run_simple_front 0 r hr (w ++ t) t h
  have : w0 = w := (List.append_cancel_right hw0).symm
  rw [← this]
  exact hf t2

theorem lastEnd_ne_none {s u : List Char} (hu : u <:+ s)
    (hm : Regex.matchFront tocEndMarker 0 u ≠ none) : lastEnd s ≠ none := by
  intro h
  exact hm (clsStar_isAny_none s h u hu)

/-- The pieces of the leftmost match of the table-of-contents pattern. -/
theorem toc_split_full (text : List Char)
    (h : Regex.matchString tableOfContentsPattern text = true) :
    ∃ pre w a e post, text = pre ++ (w ++ a ++ e) ++ post ∧
      Regex.findString tableOfContentsPattern text = w ++ a ++ e ∧
      tocPass text = pre ++ tablePlaceholder ++ post ∧
      w.length = 17 ∧ e.length = 16 ∧
      Regex.matchFront tocStartMarker 0 (w ++ (a ++ e ++ post)) = some (a ++ e ++ post) ∧
      Regex.matchFront tocEndMarker 0 (e ++ post) = some post ∧
      (∀ x y, e ++ post = x ++ y → x ≠ [] → Regex.matchFront tocEndMarker 0 y = none) ∧
      (∀ x y, pre = x ++ y → y ≠ [] → mToc (y ++ (w ++ a ++ e ++ post)) = none) := by
  obtain ⟨pre, T, post, htext, hT, hm, hno⟩ := toc_split text h
  obtain ⟨w, a, e, hme, hwl, hel, hstart, hend, hlast⟩ := mToc_spec _ _ hm
  have hTe : T = w ++ a ++ e := by
    have : T ++ post = (w ++ a ++ e) ++ post := by rw [hme]
    exact List.append_cancel_right this
  have hene : e ≠ [] := by
    intro h0; rw [h0] at hel; simp at hel
  refine ⟨pre, w, a, e, post, ?_, ?_, ?_, hwl, hel, ?_, hend, hlast, ?_⟩
  · rw [htext, hTe]
  · rw [hT, hTe]
  · rw [htext, tocPass_of_match pre T post hm hno, tocPass,
      rewrite_id post (fun y hy => reFn_none (mToc_none_after_last e post hlast hene y hy))]
  · have : w ++ (a ++ e ++ post) = T ++ post := by rw [hTe]; simp
    rw [this]; exact hstart
  · intro x y hxy hy
    have := hno x y hxy hy
    rw [hTe] at this
    exact this


/-- When the span that the table-of-contents pattern finds in `A ++ T ++ B` is
the text `T`, it is found at that place: the first pass replaces exactly this
occurrence of `T`. -/
theorem tocPass_of_findString (A T B : List Char)
    (hm : Regex.matchString tableOfContentsPattern (A ++ T ++ B) = true)
    (hfind : Regex.findString tableOfContentsPattern (A ++ T ++ B) = T) :
    tocPass (A ++ T ++ B) = A ++ tablePlaceholder ++ B := by
  obtain ⟨pre, w, a, e, post, htext, hT, hpass, hwl, hel, hstart, hend, hlast, hno⟩ :=
    toc_split_full _ hm
  have hTe : T = w ++ a ++ e := by rw [← hfind, hT]
  have hstart2 : ∀ t2, Regex.matchFront tocStartMarker 0 (w ++ t2) = some t2 :=
    matchFront_simple_front tocStartMarker_isSimple hstart
  have hend2 : ∀ t2, Regex.matchFront tocEndMarker 0 (e ++ t2) = some t2 :=
    matchFront_simple_front tocEndMarker_isSimple hend
  have heq : A ++ (T ++ B) = pre ++ (T ++ post) := by
    have := htext
    rw [← hTe] at this
    simpa using this
  have hlen : A.length + B.length = pre.length + post.length := by
    have := congrArg List.length heq
    simp only [List.length_append] at this
    omega
  have hkey : pre.length = A.length := by
    rcases Nat.lt_trichotomy pre.length A.length with hlt | heq2 | hgt
    · exfalso
      have hpre : pre <+: A :=
        List.prefix_of_prefix_length_le ⟨T ++ post, heq.symm⟩ ⟨T ++ B, rfl⟩ (by omega)
      obtain ⟨d, hd⟩ := hpre
      have h1 : d ++ (T ++ B) = T ++ post := by
        have : pre ++ (d ++ (T ++ B)) = pre ++ (T ++ post) := by
          rw [← heq, ← hd]; simp
        exact List.append_cancel_left this
      have hdlen : d.length = A.length - pre.length := by
        have := congrArg List.length hd
        simp only [List.length_append] at this
        omega
      have hs1 : (e ++ B) <:+ (T ++ post) := by
        rw [← h1, hTe]
        exact ⟨d ++ (w ++ a), by simp⟩
      have hs2 : (e ++ post) <:+ (T ++ post) := by
        rw [hTe]
        exact ⟨w ++ a, by simp⟩
      have hsuf : (e ++ B) <:+ (e ++ post) :=
        List.suffix_of_suffix_length_le hs1 hs2 (by simp only [List.length_append]; omega)
      obtain ⟨x, hx⟩ := hsuf
      have hxne : x ≠ [] := by
        intro h0
        rw [h0] at hx
        have := congrArg List.length hx
        simp only [List.nil_append, List.length_append] at this
        omega
      have := hlast x (e ++ B) hx.symm hxne
      rw [hend2 B] at this
      simp at this
    · exact heq2
    · exfalso
      have hpre : A <+: pre :=
        List.prefix_of_prefix_length_le ⟨T ++ B, rfl⟩ ⟨T ++ post, heq.symm⟩ (by omega)
      obtain ⟨d, hd⟩ := hpre
      have hdne : d ≠ [] := by
        intro h0
        rw [h0] at hd
        have := congrArg List.length hd
        simp only [List.append_nil] at this
        omega
      have h1 : T ++ B = d ++ (T ++ post) := by
        have : A ++ (T ++ B) = A ++ (d ++ (T ++ post)) := by
          rw [heq, ← hd]; simp
        exact List.append_cancel_left this
      have hnone := hno A d hd.symm hdne
      have h2 : d ++ (w ++ a ++ e ++ post) = w ++ (a ++ e ++ B) := by
        have : d ++ (w ++ a ++ e ++ post) = d ++ (T ++ post) := by rw [hTe]
        rw [this, ← h1, hTe]; simp
      rw [h2] at hnone
      simp only [mToc, hstart2, Option.some_bind] at hnone
      refine lastEnd_ne_none (u := e ++ B) ⟨a, by simp⟩ ?_ hnone
      rw [hend2 B]; simp
  have hA : A = pre := (List.append_inj heq hkey.symm).1
  have hB : T ++ B = T ++ post := (List.append_inj heq hkey.symm).2
  rw [hpass, hA, List.append_cancel_left hB]

theorem matchString_of_findString_ne_nil {text : List Char}
    (h : Regex.findString tableOfContentsPattern text ≠ []) :
    Regex.matchString tableOfContentsPattern text = true := by
  cases hm : Regex.matchString tableOfContentsPattern text with
  | true => rfl
  | false => exact absurd (findString_of_no_match text hm) h

theorem findString_ne_nil_of_match {text : List Char}
    (h : Regex.matchString tableOfContentsPattern text = true) :
    Regex.findString tableOfContentsPattern text ≠ [] := by
  obtain ⟨pre, w, a, e, post, _, hT, _, hwl, _⟩ := toc_split_full text h
  rw [hT]
  intro h0
  have := congrArg List.length h0
  simp only [List.length_append, List.length_nil] at this
  omega

theorem cleanTable_ne_nil {T : List Char} (h : cleanTable T = []) : T = [] := by
  cases T with
  | nil => rfl
  | cons c cs =>
    exfalso
    cases hm : reFn mNL2 newLine (c :: cs) with
    | some p =>
      obtain ⟨out, rest⟩ := p
      obtain ⟨ho, _⟩ := reFn_eq_some hm
      rw [cleanTable, rewrite_match (shrinks_nl2 _) hm, ho] at h
      simp [newLine] at h
    | none =>
      rw [cleanTable, rewrite_skip hm] at h
      simp at h

/-- A cleaned table without two adjacent newlines is left unchanged by a
second cleaning. -/
theorem cleanTable_fixed {s : List Char} (h : ¬ ['\n', '\n'] <:+: s) : cleanTable s = s := by
  refine rewrite_id s ?_
  intro t ht
  refine reFn_none ?_
  cases hm : mNL2 t with
  | none => rfl
  | some rest =>
    exfalso
    apply h
    rcases mNL2_eq_some hm with ⟨u, hu, _⟩ | ⟨u, hu, _⟩
    · exact infix_in_suffix ⟨[], u, by rw [hu]; rfl⟩ ht
    · exact infix_in_suffix ⟨['\r'], u, by rw [hu]; rfl⟩ ht


/-! ## Normalising twice, with a table of contents -/

/-- The output of `cleanWhitespace` when the first pass has put the
placeholder between two texts without placeholder literals. -/
theorem cleanWhitespace_of_pass (text A T B : List Char)
    (hfind : Regex.findString tableOfContentsPattern text = T)
    (hpass : tocPass text = A ++ tablePlaceholder ++ B)
    (hNA : ¬ newLinesPlaceholder <:+: A) (hNB : ¬ newLinesPlaceholder <:+: B)
    (hTA : ¬ tablePlaceholder <:+: A) (hTB : ¬ tablePlaceholder <:+: B) :
    cleanWhitespace text = canon newLines A ++ cleanTable T ++ canon newLines B := by
  rw [cleanWhitespace_eq, hfind, hpass, wsPass_nlPass,
    nlRestore_canon _ (newLinesPlaceholder_around A B hNA hNB), canon_around_placeholder,
    tableRestore_around _ _ _ (fun hin => hTA (tablePlaceholder_canon A hin))
      (fun hin => hTB (tablePlaceholder_canon B hin))]

/-- Normalising twice, for a text already without header lines: the second
run changes nothing when the text has no placeholder literals, the cleaned
table has no two adjacent newlines left to collapse, and the second run finds
the table of contents where the first run has put it. -/
theorem cleanWhitespace_twice (u : List Char)
    (hN : ¬ newLinesPlaceholder <:+: u) (hT : ¬ tablePlaceholder <:+: u)
    (hcr : ¬ ['\n', '\r', '\n', '\n'] <:+: Regex.findString tableOfContentsPattern u)
    (htoc : Regex.findString tableOfContentsPattern (cleanWhitespace u) =
      cleanTable (Regex.findString tableOfContentsPattern u)) :
    cleanWhitespace (cleanWhitespace u) = cleanWhitespace u := by
  by_cases hmu : Regex.matchString tableOfContentsPattern u = true
  · obtain ⟨pre, w, a, e, post, hu, hfind, hpass, _, _, _, _, _, _⟩ := toc_split_full u hmu
    have hpre : pre <:+: u := ⟨[], w ++ a ++ e ++ post, by rw [hu]; simp⟩
    have hpost : post <:+: u := ⟨pre ++ (w ++ a ++ e), [], by rw [hu]; simp⟩
    have hNpre : ¬ newLinesPlaceholder <:+: pre := fun hin => hN (hin.trans hpre)
    have hNpost : ¬ newLinesPlaceholder <:+: post := fun hin => hN (hin.trans hpost)
    have hTpre : ¬ tablePlaceholder <:+: pre := fun hin => hT (hin.trans hpre)
    have hTpost : ¬ tablePlaceholder <:+: post := fun hin => hT (hin.trans hpost)
    have hv : cleanWhitespace u =
        canon newLines pre ++ cleanTable (w ++ a ++ e) ++ canon newLines post :=
      cleanWhitespace_of_pass u pre _ post hfind hpass hNpre hNpost hTpre hTpost
    rw [hfind] at htoc hcr
    have hne : cleanTable (w ++ a ++ e) ≠ [] := by
      intro h0
      have := cleanTable_ne_nil h0
      rw [← hfind] at this
      exact findString_ne_nil_of_match hmu this
    have hmv : Regex.matchString tableOfContentsPattern (cleanWhitespace u) = true :=
      matchString_of_findString_ne_nil (by rw [htoc]; exact hne)
    rw [hv] at htoc hmv
    have hpass2 := tocPass_of_findString _ _ _ hmv htoc
    have h2 := cleanWhitespace_of_pass _ _ _ _ htoc hpass2
      (fun hin => hNpre (newLinesPlaceholder_canon pre hin))
      (fun hin => hNpost (newLinesPlaceholder_canon post hin))
      (fun hin => hTpre (tablePlaceholder_canon pre hin))
      (fun hin => hTpost (tablePlaceholder_canon post hin))
    rw [hv, h2, canon_canon, canon_canon, cleanTable_fixed (cleanTable_aux _ hcr).1]
  · have hmu2 : Regex.matchString tableOfContentsPattern u = false := Bool.eq_false_iff.mpr hmu
    have hv : cleanWhitespace u = canon newLines u := cleanWhitespace_eq_canon u hmu2 hN hT
    rw [findString_of_no_match u hmu2, cleanTable_nil] at htoc
    have hmv : Regex.matchString tableOfContentsPattern (cleanWhitespace u) = false := by
      cases hm : Regex.matchString tableOfContentsPattern (cleanWhitespace u) with
      | false => rfl
      | true => exact absurd htoc (findString_ne_nil_of_match hm)
    rw [cleanWhitespace_eq_canon _ hmv
      (by rw [hv]; exact fun hin => hN (newLinesPlaceholder_canon u hin))
      (by rw [hv]; exact fun hin => hT (tablePlaceholder_canon u hin)), hv, canon_canon]

/-- C1, as the code has it. Normalising twice gives the result of normalising
once, with or without a table of contents, for every input text `t` such that:
`t` contains neither placeholder literal; in the span of the table of contents
of the header-stripped text no newline is directly followed by `\r\n\n`; the
second run finds as table of contents exactly the cleaned span of the first
run (none when the first run found none); and the second run finds no header
line, that is, no line of `normalize t` matches a header pattern. -/
theorem normalize_idempotent (text : List Char)
    (hN : ¬ newLinesPlaceholder <:+: text) (hT : ¬ tablePlaceholder <:+: text)
    (hcr : ¬ ['\n', '\r', '\n', '\n'] <:+:
      Regex.findString tableOfContentsPattern (removePageHeader text))
    (htoc : Regex.findString tableOfContentsPattern (normalize text) =
      Regex.replaceAllString newLinesPattern2
        (Regex.findString tableOfContentsPattern (removePageHeader text)) newLine)
    (hhdr : ∀ line ∈ stringsSplit (normalize text) '\n',
      Regex.matchString firstPageHeaderPattern line = false ∧
        Regex.matchString secondPageHeaderPattern line = false) :
    normalize (normalize text) = normalize text := by
  have hid : removePageHeader (normalize text) = normalize text :=
    removePageHeader_of_no_header _ (fun l hl => (isPageHeader_eq_false l).mpr (hhdr l hl))
  have h2 : normalize (normalize text) = cleanWhitespace (normalize text) := by
    show cleanWhitespace (removePageHeader (normalize text)) = _
    rw [hid]
  rw [replaceAllString_eq newLinesPattern2 _ _ mNL2 matchFront_newLinesPattern2 mNL2_lt] at htoc
  rw [h2]
  exact cleanWhitespace_twice (removePageHeader text)
    (fun hin => hN (infix_removePageHeader newline_not_mem_newLinesPlaceholder text hin))
    (fun hin => hT (infix_removePageHeader newline_not_mem_tablePlaceholder text hin))
    hcr htoc

set_option maxRecDepth 100000 in
theorem normalize_idempotent_witness :
    Regex.matchString tableOfContentsPattern (removePageHeader
      "Abstract\n\n  text\n\nDoe      Standards Track      [Page 1]\nRFC 1      Title      May 2008\n\nTable of Contents\n\n   1.  Introduction  3\n   2.  Foo\n\n1.  Introduction\n\n  more\ntext".toList)
      = true ∧
    normalize
      "Abstract\n\n  text\n\nDoe      Standards Track      [Page 1]\nRFC 1      Title      May 2008\n\nTable of Contents\n\n   1.  Introduction  3\n   2.  Foo\n\n1.  Introduction\n\n  more\ntext".toList
      = "Abstract\n\ntext\n\nTable of Contents\n   1.  Introduction  3\n   2.  Foo\n1.  Introduction\n\nmore text".toList ∧
    normalize (normalize
      "Abstract\n\n  text\n\nDoe      Standards Track      [Page 1]\nRFC 1      Title      May 2008\n\nTable of Contents\n\n   1.  Introduction  3\n   2.  Foo\n\n1.  Introduction\n\n  more\ntext".toList)
      = normalize
      "Abstract\n\n  text\n\nDoe      Standards Track      [Page 1]\nRFC 1      Title      May 2008\n\nTable of Contents\n\n   1.  Introduction  3\n   2.  Foo\n\n1.  Introduction\n\n  more\ntext".toList :=
  ⟨by decide, by decide,
    normalize_idempotent _ (by decide) (by decide) (by decide) (by decide) (by decide)⟩

set_option maxRecDepth 20000 in
/-- C1, as stated, fails, in seven ways: joining lines can form a header line,
which the second run removes; a `NEWLINES_PLACEHOLDER` literal becomes a
paragraph break, whose following whitespace the second run removes; deleting a
`TABLE_PLACEHOLDER` literal can form a new one, which the second run deletes;
collapsing whitespace can form the markers of a table of contents, which the
second run treats as one; cleaning the table of contents can destroy its end
marker, so that the second run reflows the table; a carriage return between
newline runs leaves two newlines in the cleaned table, which the second run
collapses; and collapsing whitespace can form a start marker before the table,
so that the second run takes a longer span. -/
theorem normalize_not_idempotent :
    (normalize "RFC 1 a\nb 2008".toList = "RFC 1 a b 2008".toList ∧
      normalize (normalize "RFC 1 a\nb 2008".toList) = []) ∧
    (normalize "aNEWLINES_PLACEHOLDER b".toList = "a\n\n b".toList ∧
      normalize (normalize "aNEWLINES_PLACEHOLDER b".toList) = "a\n\nb".toList) ∧
    (normalize "TABLE_TABLE_PLACEHOLDERPLACEHOLDER".toList = "TABLE_PLACEHOLDER".toList ∧
      normalize (normalize "TABLE_TABLE_PLACEHOLDERPLACEHOLDER".toList) = []) ∧
    (Regex.matchString tableOfContentsPattern
        "Table  of Contents 1.\n\n\nIntroduction".toList = false ∧
      normalize "Table  of Contents 1.\n\n\nIntroduction".toList =
        "Table of Contents 1.\n\nIntroduction".toList ∧
      normalize (normalize "Table  of Contents 1.\n\n\nIntroduction".toList) =
        "Table of Contents 1.\nIntroduction".toList) ∧
    (normalize "Table of Contents\nx\n1.\n\nIntroduction".toList =
        "Table of Contents\nx\n1.\nIntroduction".toList ∧
      normalize (normalize "Table of Contents\nx\n1.\n\nIntroduction".toList) =
        "Table of Contents x 1. Introduction".toList) ∧
    (normalize "Table of Contents\n\n\r\n\n1.  Introduction".toList =
        "Table of Contents\n\n1.  Introduction".toList ∧
      normalize (normalize "Table of Contents\n\n\r\n\n1.  Introduction".toList) =
        "Table of Contents\n1.  Introduction".toList) ∧
    (normalize "Table  of Contents a\n\nb Table of Contents\nx\n1.  Introduction".toList =
        "Table of Contents a\n\nb Table of Contents\nx\n1.  Introduction".toList ∧
      normalize (normalize
        "Table  of Contents a\n\nb Table of Contents\nx\n1.  Introduction".toList) =
        "Table of Contents a\nb Table of Contents\nx\n1.  Introduction".toList) :=
  ⟨⟨by decide, by decide⟩, ⟨by decide, by decide⟩, ⟨by decide, by decide⟩,
    ⟨by decide, by decide, by decide⟩, ⟨by decide, by decide⟩, ⟨by decide, by decide⟩,
    by decide, by decide⟩

/-! ## What a match of a header pattern needs -/

section HeaderFeatures
open Regex

theorem starLoop_suffix {α : Type} (step : List Char → (List Char → Option α) → Option α)
    (hstep : ∀ s j x, step s j = some x → ∃ t, t <:+ s ∧ j t = some x)
    (k : List Char → Option α) :
    ∀ (fuel : Nat) (s : List Char) (x : α), starLoop step k fuel s = some x →
      ∃ t, t <:+ s ∧ k t = some x := by
  intro fuel
  induction fuel with
  | zero =>
    intro s x h
    exact ⟨s, List.suffix_refl s, h⟩
  | succ fuel ih =>
    intro s x h
    rw [starLoop_succ] at h
    cases hs : step s (fun t => if t.length < s.length then starLoop step k fuel t else none) with
    | some y =>
      rw [hs] at h
      simp only [Option.some.injEq] at h
      subst h
      obtain ⟨t, ht, hj⟩ := hstep _ _ _ hs
      by_cases hl : t.length < s.length
      · rw [if_pos hl] at hj
        obtain ⟨t2, ht2, hk⟩ := ih t y hj
        exact ⟨t2, ht2.trans ht, hk⟩
      · rw [if_neg hl] at hj
        simp at hj
    | none =>
      rw [hs] at h
      exact ⟨s, List.suffix_refl s, h⟩

/-- The matcher hands a suffix of the text to its continuation. -/
theorem run_suffix (n : Nat) :
    ∀ (r : Regex) (α : Type) (s : List Char) (k : List Char → Option α) (x : α),
      run n r s k = some x → ∃ t, t <:+ s ∧ k t = some x := by
  intro r
  induction r with
  | eps =>
    intro α s k x h
    exact ⟨s, List.suffix_refl s, h⟩
  | cls p =>
    intro α s k x h
    cases s with
    | nil => simp [run] at h
    | cons c cs =>
      rw [run_cls_cons] at h
      by_cases hp : p c = true
      · rw [if_pos hp] at h
        exact ⟨cs, List.suffix_cons c cs, h⟩
      · rw [if_neg hp] at h
        simp at h
  | seq a b iha ihb =>
    intro α s k x h
    rw [run_seq] at h
    obtain ⟨t, ht, h2⟩ := iha α s _ x h
    obtain ⟨t2, ht2, h3⟩ := ihb α t k x h2
    exact ⟨t2, ht2.trans ht, h3⟩
  | alt a b iha ihb =>
    intro α s k x h
    rw [run_alt] at h
    cases ha : run n a s k with
    | some y =>
      rw [ha] at h
      simp only [Option.some.injEq] at h
      subst h
      exact iha α s k y ha
    | none =>
      rw [ha] at h
      exact ihb α s k x h
  | star a iha =>
    intro α s k x h
    rw [run_star] at h
    exact starLoop_suffix _ (fun t j y hy => iha α t j y hy) k _ s x h
  | bot =>
    intro α s k x h
    simp only [run] at h
    by_cases hl : s.length = n
    · rw [if_pos hl] at h
      exact ⟨s, List.suffix_refl s, h⟩
    · rw [if_neg hl] at h
      simp at h
  | eot =>
    intro α s k x h
    simp only [run] at h
    by_cases hl : s.isEmpty = true
    · rw [if_pos hl] at h
      exact ⟨s, List.suffix_refl s, h⟩
    · rw [if_neg hl] at h
      simp at h

/-- A literal matches only at the front of a text that starts with it. -/
theorem run_lit {α : Type} (n : Nat) :
    ∀ (w s : List Char) (k : List Char → Option α) (x : α),
      run n (lit w) s k = some x → ∃ t, s = w ++ t ∧ k t = some x := by
  intro w
  induction w with
  | nil =>
    intro s k x h
    exact ⟨s, rfl, h⟩
  | cons c w ih =>
    intro s k x h
    rw [show lit (c :: w) = seq (chr c) (lit w) from rfl, run_seq] at h
    cases s with
    | nil => rw [run_chr_nil] at h; simp at h
    | cons d ds =>
      rw [run_chr_cons] at h
      by_cases hd : d = c
      · rw [if_pos hd] at h
        obtain ⟨t, ht, hk⟩ := ih ds k x h
        exact ⟨t, by rw [ht, hd]; rfl, hk⟩
      · rw [if_neg hd] at h
        simp at h

/-- A pattern that starts with `^` matches a text only at its front. -/
theorem matchString_bot (r : Regex) (s : List Char)
    (h : matchString (seq bot r) s = true) :
    ∃ rest, run s.length r s some = some rest := by
  unfold matchString at h
  cases hf : findFrom (seq bot r) s.length s with
  | none => rw [hf] at h; simp at h
  | some p =>
    obtain ⟨m, rest⟩ := p
    obtain ⟨hm, pre, hpre, _⟩ := findFrom_some _ _ s m rest hf
    unfold matchFront at hm
    rw [run_seq] at hm
    simp only [run] at hm
    by_cases hl : m.length = s.length
    · have hpre0 : pre = [] := by
        have := congrArg List.length hpre
        rw [List.length_append] at this
        exact List.length_eq_zero.mp (by omega)
      rw [hpre0, List.nil_append] at hpre
      rw [if_pos hl, ← hpre] at hm
      exact ⟨rest, hm⟩
    · rw [if_neg hl] at hm
      simp at hm

end HeaderFeatures
section HeaderFeatures2
open Regex

/-- A line that matches the second header pattern starts with `RFC`. -/
theorem secondPageHeader_starts (line : List Char)
    (h : matchString secondPageHeaderPattern line = true) : "RFC".toList <+: line := by
  obtain ⟨rest, hr⟩ := matchString_bot _ line h
  rw [run_seq] at hr
  obtain ⟨t, ht, _⟩ := run_lit _ _ _ _ _ hr
  exact ⟨t, ht.symm⟩

/-- A line that matches the first header pattern contains `[Page`. -/
theorem firstPageHeader_page (line : List Char)
    (h : matchString firstPageHeaderPattern line = true) : "[Page".toList <:+: line := by
  obtain ⟨rest, hr⟩ := matchString_bot _ line h
  rw [run_seq] at hr
  obtain ⟨t1, ht1, h1⟩ := run_suffix _ _ _ _ _ _ hr
  rw [run_seq] at h1
  obtain ⟨t2, ht2, h2⟩ := run_suffix _ _ _ _ _ _ h1
  rw [run_seq] at h2
  obtain ⟨t3, ht3, h3⟩ := run_suffix _ _ _ _ _ _ h2
  rw [run_seq] at h3
  obtain ⟨t4, ht4, h4⟩ := run_suffix _ _ _ _ _ _ h3
  rw [run_seq] at h4
  obtain ⟨t5, ht5, _⟩ := run_lit _ _ _ _ _ h4
  have hsuf : t4 <:+ line := ((ht4.trans ht3).trans ht2).trans ht1
  have hin : "[Page".toList <:+: t4 := ⟨[], ' ' :: t5, by rw [ht5]; rfl⟩
  exact hin.trans hsuf.isInfix

end HeaderFeatures2
/-! ## Where the lines of a text start -/

/-- A member of a joined list starts the text or follows a separator. -/
theorem mem_stringsJoin_start (c : Char) :
    ∀ (ls : List (List Char)) (l : List Char), l ∈ ls →
      l <+: stringsJoin ls [c] ∨ (c :: l) <:+: stringsJoin ls [c] := by
  intro ls
  induction ls with
  | nil => intro l h; simp at h
  | cons l0 ls ih =>
    intro l h
    cases ls with
    | nil =>
      rw [stringsJoin_single]
      simp only [List.mem_singleton] at h
      rw [h]
      exact Or.inl (List.prefix_refl _)
    | cons l2 ls =>
      rw [stringsJoin_cons_cons]
      rcases List.mem_cons.mp h with h1 | h1
      · rw [h1]; exact Or.inl (List.prefix_append _ _)
      · right
        rcases ih l h1 with h2 | h2
        · obtain ⟨t, ht⟩ := h2
          exact ⟨l0, t, by rw [← ht]; simp⟩
        · exact infix_in_suffix h2 ⟨l0 ++ [c], by simp⟩

/-- A line of a text that starts with `w`: the text starts with `w`, or `w`
follows a newline in it. -/
theorem line_start (s line w : List Char) (h : line ∈ stringsSplit s '\n') (hw : w <+: line) :
    w <+: s ∨ ('\n' :: w) <:+: s := by
  have h1 := mem_stringsJoin_start '\n' _ line h
  rw [stringsJoin_stringsSplit] at h1
  rcases h1 with h2 | h2
  · exact Or.inl (hw.trans h2)
  · right
    obtain ⟨t, ht⟩ := hw
    have : ('\n' :: w) <+: ('\n' :: line) := ⟨t, by rw [← ht]; rfl⟩
    exact this.isInfix.trans h2

/-- A line of a text that contains `w`: the text contains `w`. -/
theorem line_contains (s line w : List Char) (h : line ∈ stringsSplit s '\n') (hw : w <:+: line) :
    w <:+: s := by
  have h1 := mem_infix_stringsJoin '\n' _ line h
  rw [stringsJoin_stringsSplit] at h1
  exact hw.trans h1

/-- An occurrence of `w` in a concatenation lies in one of the two parts or
reaches over their border. -/
theorem infix_append_cases {w : List Char} :
    ∀ (X Y : List Char), w <:+: X ++ Y →
      w <:+: X ∨ w <:+: Y ∨
        ∃ w1 w2, w = w1 ++ w2 ∧ w1 ≠ [] ∧ w2 ≠ [] ∧ w1 <:+ X ∧ w2 <+: Y := by
  intro X
  induction X with
  | nil => intro Y h; exact Or.inr (Or.inl h)
  | cons x X ih =>
    intro Y h
    rw [List.cons_append, List.infix_cons_iff] at h
    rcases h with h1 | h1
    · rw [← List.cons_append] at h1
      rcases prefix_append_cases h1 with h2 | ⟨t, ht, ht2⟩
      · exact Or.inl h2.isInfix
      · by_cases ht0 : t = []
        · left
          rw [ht, ht0, List.append_nil]
        · right; right
          exact ⟨x :: X, t, ht, by simp, ht0, List.suffix_refl _, ht2⟩
    · rcases ih Y h1 with h2 | h2 | ⟨w1, w2, hw, h3, h4, h5, h6⟩
      · exact Or.inl (infix_in_suffix h2 (List.suffix_cons x X))
      · exact Or.inr (Or.inl h2)
      · exact Or.inr (Or.inr ⟨w1, w2, hw, h3, h4, h5.trans (List.suffix_cons x X), h6⟩)

/-- An occurrence of `w` around a middle part that starts with a character
`a` and ends with a character `b`, neither of them in `w`, lies in one of the
three parts. -/
theorem infix_three {w : List Char} {a b : Char} (ha : a ∉ w) (hb : b ∉ w)
    (X M Y : List Char) (hM : M.head? = some a) (hM2 : M.getLast? = some b)
    (h : w <:+: X ++ M ++ Y) : w <:+: X ∨ w <:+: M ∨ w <:+: Y := by
  rcases infix_append_cases _ _ h with h1 | h1 | ⟨w1, w2, hw, h3, _, h5, _⟩
  · rcases infix_append_cases _ _ h1 with h2 | h2 | ⟨w1, w2, hw, _, h4, _, h6⟩
    · exact Or.inl h2
    · exact Or.inr (Or.inl h2)
    · exfalso
      cases w2 with
      | nil => exact h4 rfl
      | cons d w2 =>
        cases M with
        | nil => simp at hM
        | cons m M =>
          rw [List.cons_prefix_cons] at h6
          simp only [List.head?_cons, Option.some.injEq] at hM
          apply ha
          rw [hw, ← hM, ← h6.1]
          simp
  · exact Or.inr (Or.inr h1)
  · exfalso
    have hne : M ≠ [] := by
      intro h0; rw [h0] at hM; simp at hM
    have hl : (X ++ M).getLast? = some b := by
      rw [List.getLast?_append_of_ne_nil _ hne]; exact hM2
    obtain ⟨p, hp⟩ := h5
    have hl1 : w1.getLast? = some b := by
      rw [← hp, List.getLast?_append_of_ne_nil _ h3] at hl; exact hl
    apply hb
    rw [hw]
    exact List.mem_append_left _ (List.mem_of_mem_getLast? hl1)
/-! ## Where the lines of the canonical form start -/

theorem canon_out_head {w : List Char} (hw : ∀ c ∈ w, isSpace c = false) :
    ∀ t out rest, mCanon newLines t = some (out, rest) → ∃ o os, out = o :: os ∧ o ∉ w := by
  intro t out rest hm
  cases t with
  | nil => simp [mCanon] at hm
  | cons c cs =>
    rcases mCanon_cases newLines c cs with ⟨_, _, h3⟩ | ⟨_, _, h3⟩ | ⟨_, _, h3⟩
    · rw [h3] at hm
      simp only [Option.some.injEq, Prod.mk.injEq] at hm
      refine ⟨'\n', ['\n'], hm.1.symm, ?_⟩
      intro hin
      have := hw _ hin
      rw [isSpace_nl] at this; simp at this
    · rw [h3] at hm
      simp only [Option.some.injEq, Prod.mk.injEq] at hm
      refine ⟨' ', [], hm.1.symm, ?_⟩
      intro hin
      have := hw _ hin
      simp [isSpace] at this
    · rw [h3] at hm; simp at hm

/-- A word at the front of the canonical form is at the front of the text. -/
theorem canon_prefix_word {w : List Char} (hw : ∀ c ∈ w, isSpace c = false) (s : List Char)
    (h : w <+: canon newLines s) : w <+: s :=
  prefix_rewrite (shrinks_canon _) w s (canon_out_head hw) h

/-- A word that follows a newline in the canonical form follows a paragraph
break of the text: two newlines and the whitespace after them. -/
theorem canon_line_start {w : List Char} (hw : ∀ c ∈ w, isSpace c = false) (hne : w ≠ []) :
    ∀ s : List Char, ('\n' :: w) <:+: canon newLines s →
      ∃ Q, Q <:+ s ∧ newLines <+: Q ∧ w <+: Q.dropWhile isSpace := by
  have hhead : ∀ R : List Char, ¬ w <+: '\n' :: R := by
    intro R h
    cases w with
    | nil => exact hne rfl
    | cons d w =>
      rw [List.cons_prefix_cons] at h
      have := hw d (List.mem_cons_self _ _)
      rw [h.1, isSpace_nl] at this; simp at this
  refine canon_induction _ ?_ ?_ ?_ ?_
  · intro h
    rw [canon_nil] at h
    have := List.eq_nil_of_infix_nil h
    simp at this
  · intro c cs h1 hsp ih h
    rw [canon_break _ h1, show newLines ++ canon newLines ((c :: cs).dropWhile isSpace) =
      '\n' :: '\n' :: canon newLines ((c :: cs).dropWhile isSpace) from rfl,
      List.infix_cons_iff] at h
    rcases h with h2 | h2
    · rw [List.cons_prefix_cons] at h2
      exact absurd h2.2 (hhead _)
    · rw [List.infix_cons_iff] at h2
      rcases h2 with h3 | h3
      · rw [List.cons_prefix_cons] at h3
        have h4 := canon_prefix_word hw _ h3.2
        rcases (startsNL_iff _).mp h1 with ⟨t, ht⟩ | ⟨t, ht⟩
        · exact ⟨c :: cs, List.suffix_refl _, ⟨t, ht.symm⟩, h4⟩
        · refine ⟨cs, List.suffix_cons c cs, ?_, ?_⟩
          · simp only [List.cons.injEq] at ht
            exact ⟨t, ht.2.symm⟩
          · rw [List.dropWhile_cons, if_pos hsp] at h4
            exact h4
      · obtain ⟨Q, hQ, hQ2, hQ3⟩ := ih h3
        exact ⟨Q, hQ.trans (List.dropWhile_suffix _), hQ2, hQ3⟩
  · intro c cs h1 hsp ih h
    rw [canon_space _ h1 hsp, List.infix_cons_iff] at h
    rcases h with h2 | h2
    · rw [List.cons_prefix_cons] at h2
      exact absurd h2.1 (by decide)
    · obtain ⟨Q, hQ, hQ2, hQ3⟩ := ih h2
      exact ⟨Q, (hQ.trans (skipWS_suffix cs)).trans (List.suffix_cons c cs), hQ2, hQ3⟩
  · intro c cs hc ih h
    rw [canon_word _ _ hc, List.infix_cons_iff] at h
    rcases h with h2 | h2
    · rw [List.cons_prefix_cons] at h2
      rw [← h2.1, isSpace_nl] at hc; simp at hc
    · obtain ⟨Q, hQ, hQ2, hQ3⟩ := ih h2
      exact ⟨Q, hQ.trans (List.suffix_cons c cs), hQ2, hQ3⟩
/-! ## Where the lines of the cleaned table start -/

theorem mNL2_suffix {s rest : List Char} (h : mNL2 s = some rest) : rest <:+ s := by
  obtain ⟨B, hB⟩ := mNL2_newline_before h
  exact ⟨B ++ ['\n'], by rw [hB]; simp⟩

theorem cleanTable_out_head {w : List Char} (hw : '\n' ∉ w) :
    ∀ t out rest, reFn mNL2 newLine t = some (out, rest) → ∃ o os, out = o :: os ∧ o ∉ w := by
  intro t out rest hm
  obtain ⟨ho, _⟩ := reFn_eq_some hm
  exact ⟨'\n', [], ho, hw⟩

/-- A word at the front of the cleaned table is at the front of the table. -/
theorem cleanTable_prefix_word {w : List Char} (hw : '\n' ∉ w) (s : List Char)
    (h : w <+: cleanTable s) : w <+: s :=
  prefix_rewrite (shrinks_nl2 _) w s (cleanTable_out_head hw) h

/-- A word in the cleaned table is in the table. -/
theorem cleanTable_infix_word {w : List Char} (hw : '\n' ∉ w) (hh : w.head? ≠ some '\n')
    (s : List Char) (h : w <:+: cleanTable s) : w <:+: s := by
  refine infix_rewrite (shrinks_nl2 _) ?_ s h
  exact fresh_re '\n' [] (fun s rest h => mNL2_suffix h) hw
    (by intro x hx; simp only [List.mem_singleton] at hx; rw [hx]; exact hh)

/-- A word that follows a newline in the cleaned table follows a newline in
the table. -/
theorem cleanTable_line_start {w : List Char} (hw : '\n' ∉ w) :
    ∀ s : List Char, ('\n' :: w) <:+: cleanTable s → ('\n' :: w) <:+: s := by
  intro s
  refine rewrite_induction (shrinks_nl2 newLine)
    (fun s => ('\n' :: w) <:+: cleanTable s → ('\n' :: w) <:+: s) ?_ ?_ ?_ s
  · intro h
    rw [cleanTable_nil] at h; exact h
  · intro s out rest hm ih h
    obtain ⟨ho, hm2⟩ := reFn_eq_some hm
    obtain ⟨B, hB⟩ := mNL2_newline_before hm2
    rw [cleanTable, rewrite_match (shrinks_nl2 _) hm, ho,
      show newLine ++ rewrite (reFn mNL2 newLine) rest = '\n' :: cleanTable rest from rfl,
      List.infix_cons_iff] at h
    rcases h with h1 | h1
    · rw [List.cons_prefix_cons] at h1
      obtain ⟨t, ht⟩ := cleanTable_prefix_word hw rest h1.2
      exact ⟨B, t, by rw [hB, ← ht]; simp⟩
    · exact infix_in_suffix (ih h1) (mNL2_suffix hm2)
  · intro c cs hm ih h
    rw [cleanTable, rewrite_skip hm, List.infix_cons_iff] at h
    rcases h with h1 | h1
    · rw [List.cons_prefix_cons] at h1
      obtain ⟨t, ht⟩ := cleanTable_prefix_word hw cs h1.2
      exact ⟨[], t, by rw [← ht, h1.1]; rfl⟩
    · exact infix_in_suffix (ih h1) (List.suffix_cons c cs)

/-- The cleaned table starts with the character the table starts with, when
that is not whitespace. -/
theorem cleanTable_head {a : Char} (ha : isSpace a = false) (s : List Char)
    (h : s.head? = some a) : (cleanTable s).head? = some a := by
  cases s with
  | nil => simp at h
  | cons c cs =>
    simp only [List.head?_cons, Option.some.injEq] at h
    subst h
    have hn : c ≠ '\n' := by
      intro h0; rw [h0, isSpace_nl] at ha; simp at ha
    have hr : c ≠ '\r' := by
      intro h0; rw [h0, isSpace_cr] at ha; simp at ha
    have hm : reFn mNL2 newLine (c :: cs) = none := by
      have hn2 : ¬ '\n' = c := fun h0 => hn h0.symm
      simp [reFn, mNL2, hr, newLines, List.isPrefixOf, hn2]
    rw [cleanTable, rewrite_skip hm]
    rfl

/-- The cleaned table ends with the character the table ends with, when that
is not whitespace. -/
theorem cleanTable_getLast {b : Char} (hb : isSpace b = false) :
    ∀ s : List Char, s.getLast? = some b → (cleanTable s).getLast? = some b := by
  intro s
  refine rewrite_induction (shrinks_nl2 newLine)
    (fun s => s.getLast? = some b → (cleanTable s).getLast? = some b) ?_ ?_ ?_ s
  · intro h; simp at h
  · intro s out rest hm ih h
    obtain ⟨ho, hm2⟩ := reFn_eq_some hm
    obtain ⟨B, hB⟩ := mNL2_newline_before hm2
    have hrest : rest ≠ [] := by
      intro h0
      rw [hB, h0, List.getLast?_append_of_ne_nil _ (by simp)] at h
      simp only [List.getLast?_singleton, Option.some.injEq] at h
      rw [← h, isSpace_nl] at hb; simp at hb
    have h2 : rest.getLast? = some b := by
      rw [hB, show B ++ '\n' :: rest = (B ++ ['\n']) ++ rest by simp,
        List.getLast?_append_of_ne_nil _ hrest] at h
      exact h
    have h3 := ih h2
    have hne : cleanTable rest ≠ [] := by
      intro h0; rw [h0] at h3; simp at h3
    rw [cleanTable, rewrite_match (shrinks_nl2 _) hm, ho,
      show newLine ++ rewrite (reFn mNL2 newLine) rest = newLine ++ cleanTable rest from rfl,
      List.getLast?_append_of_ne_nil _ hne]
    exact h3
  · intro c cs hm ih h
    rw [cleanTable, rewrite_skip hm]
    cases cs with
    | nil =>
      rw [show rewrite (reFn mNL2 newLine) [] = [] from cleanTable_nil]
      exact h
    | cons d ds =>
      have h2 : (d :: ds).getLast? = some b := by
        rw [List.getLast?_cons_cons] at h; exact h
      have h3 := ih h2
      have hne : cleanTable (d :: ds) ≠ [] := by
        intro h0; rw [h0] at h3; simp at h3
      rw [show c :: rewrite (reFn mNL2 newLine) (d :: ds) = [c] ++ cleanTable (d :: ds) from rfl,
        List.getLast?_append_of_ne_nil _ hne]
      exact h3
/-! ## The output with a table of contents -/

section TocForm
open Regex

theorem tocStartMarker_head (s r : List Char)
    (h : matchFront tocStartMarker 0 s = some r) : s.head? = some 'T' := by
  unfold matchFront tocStartMarker at h
  rw [run_seq] at h
  obtain ⟨t, ht, _⟩ := run_lit _ _ _ _ _ h
  rw [ht]; rfl

theorem tocEndMarker_last (s r : List Char)
    (h : matchFront tocEndMarker 0 s = some r) :
    ∃ P, s = P ++ "Introduction".toList ++ r := by
  unfold matchFront tocEndMarker at h
  rw [run_seq] at h
  obtain ⟨t1, ht1, h1⟩ := run_suffix _ _ _ _ _ _ h
  rw [run_seq] at h1
  obtain ⟨t2, ht2, h2⟩ := run_suffix _ _ _ _ _ _ h1
  rw [run_seq] at h2
  obtain ⟨t3, ht3, h3⟩ := run_suffix _ _ _ _ _ _ h2
  rw [run_seq] at h3
  obtain ⟨t4, ht4, h4⟩ := run_suffix _ _ _ _ _ _ h3
  obtain ⟨t5, ht5, h5⟩ := run_lit _ _ _ _ _ h4
  simp only [Option.some.injEq] at h5
  obtain ⟨P, hP⟩ := ((ht4.trans ht3).trans ht2).trans ht1
  exact ⟨P, by rw [← hP, ht5, h5]; simp⟩

/-- The output of `cleanWhitespace` for a text with a table of contents and
without placeholder literals: the canonical form of the text before the table,
the cleaned table, and the canonical form of the text after it. -/
theorem cleanWhitespace_toc_form (u : List Char)
    (hm : matchString tableOfContentsPattern u = true)
    (hN : ¬ newLinesPlaceholder <:+: u) (hT : ¬ tablePlaceholder <:+: u) :
    ∃ A T B, u = A ++ T ++ B ∧ findString tableOfContentsPattern u = T ∧
      cleanWhitespace u = canon newLines A ++ cleanTable T ++ canon newLines B ∧
      T.head? = some 'T' ∧ T.getLast? = some 'n' := by
  obtain ⟨pre, w, a, e, post, hu, hfind, hpass, hwl, hel, hstart, hend, _, _⟩ :=
    toc_split_full u hm
  have hpre : pre <:+: u := ⟨[], w ++ a ++ e ++ post, by rw [hu]; simp⟩
  have hpost : post <:+: u := ⟨pre ++ (w ++ a ++ e), [], by rw [hu]; simp⟩
  have hv : cleanWhitespace u =
      canon newLines pre ++ cleanTable (w ++ a ++ e) ++ canon newLines post :=
    cleanWhitespace_of_pass u pre _ post hfind hpass (fun hin => hN (hin.trans hpre))
      (fun hin => hN (hin.trans hpost)) (fun hin => hT (hin.trans hpre))
      (fun hin => hT (hin.trans hpost))
  refine ⟨pre, w ++ a ++ e, post, hu, hfind, hv, ?_, ?_⟩
  · have h1 := tocStartMarker_head _ _ hstart
    cases w with
    | nil => simp at hwl
    | cons c w => simpa using h1
  · obtain ⟨P, hP⟩ := tocEndMarker_last _ _ hend
    have he : e = P ++ "Introduction".toList := List.append_cancel_right hP
    rw [he, ← List.append_assoc, List.getLast?_append_of_ne_nil _ (by decide)]
    rfl

end TocForm
/-! ## Header lines in the output -/

theorem dropWhile_append_of_ne_nil (p : Char → Bool) :
    ∀ (Q X : List Char), Q.dropWhile p ≠ [] → (Q ++ X).dropWhile p = Q.dropWhile p ++ X := by
  intro Q
  induction Q with
  | nil => intro X h; simp at h
  | cons c Q ih =>
    intro X h
    by_cases hc : p c = true
    · rw [List.dropWhile_cons, if_pos hc] at h
      rw [List.cons_append, List.dropWhile_cons, if_pos hc, List.dropWhile_cons, if_pos hc]
      exact ih X h
    · rw [List.cons_append, List.dropWhile_cons, if_neg hc, List.dropWhile_cons, if_neg hc]
      rfl

/-- An occurrence of `[Page` in the output of `cleanWhitespace` is an
occurrence in its input. -/
theorem page_cleanWhitespace (u : List Char)
    (hN : ¬ newLinesPlaceholder <:+: u) (hT : ¬ tablePlaceholder <:+: u)
    (h : "[Page".toList <:+: cleanWhitespace u) : "[Page".toList <:+: u := by
  have hc : ∀ s, "[Page".toList <:+: canon newLines s → "[Page".toList <:+: s := fun s =>
    infix_rewrite (shrinks_canon _)
      (fresh_canon (by decide) (by decide) (by decide) (by decide)) s
  by_cases hm : Regex.matchString tableOfContentsPattern u = true
  · obtain ⟨A, T, B, hu, _, hv, hh, hl⟩ := cleanWhitespace_toc_form u hm hN hT
    rw [hv] at h
    have hA : A <:+: u := ⟨[], T ++ B, by rw [hu]; simp⟩
    have hTi : T <:+: u := ⟨A, B, by rw [hu]⟩
    have hB : B <:+: u := ⟨A ++ T, [], by rw [hu]; simp⟩
    rcases infix_three (by decide : 'T' ∉ "[Page".toList) (by decide : 'n' ∉ "[Page".toList)
      _ _ _ (cleanTable_head (by decide) T hh) (cleanTable_getLast (by decide) T hl) h with
      h1 | h1 | h1
    · exact (hc A h1).trans hA
    · exact (cleanTable_infix_word (by decide) (by decide) T h1).trans hTi
    · exact (hc B h1).trans hB
  · rw [cleanWhitespace_eq_canon u (Bool.eq_false_iff.mpr hm) hN hT] at h
    exact hc u h

/-- A line of the output of `cleanWhitespace` that starts with `RFC` comes
from the start of the input, from a paragraph break followed by `RFC`, or from
a line of the table of contents that starts with `RFC`. -/
theorem rfc_cleanWhitespace (u line : List Char)
    (hN : ¬ newLinesPlaceholder <:+: u) (hT : ¬ tablePlaceholder <:+: u)
    (hl : line ∈ stringsSplit (cleanWhitespace u) '\n') (h : "RFC".toList <+: line) :
    "RFC".toList <+: u ∨
    (∃ Q, Q <:+ u ∧ newLines <+: Q ∧ "RFC".toList <+: Q.dropWhile isSpace) ∨
    "\nRFC".toList <:+: Regex.findString tableOfContentsPattern u := by
  have hw : ∀ c ∈ "RFC".toList, isSpace c = false := by decide
  have hne : "RFC".toList ≠ [] := by decide
  by_cases hm : Regex.matchString tableOfContentsPattern u = true
  · obtain ⟨A, T, B, hu, hfind, hv, hh, hlast⟩ := cleanWhitespace_toc_form u hm hN hT
    rw [hv] at hl
    have hch := cleanTable_head (by decide) T hh
    rcases line_start _ _ _ hl h with h1 | h1
    · left
      rw [List.append_assoc] at h1
      have hpre : "RFC".toList <+: canon newLines A := by
        rcases prefix_append_cases h1 with h2 | ⟨t, ht, ht2⟩
        · exact h2
        · cases t with
          | nil => rw [ht, List.append_nil]
          | cons d t =>
            exfalso
            cases hT2 : cleanTable T with
            | nil => rw [hT2] at hch; simp at hch
            | cons m M =>
              rw [hT2] at hch ht2
              simp only [List.head?_cons, Option.some.injEq] at hch
              rw [List.cons_append, List.cons_prefix_cons] at ht2
              have hmem : 'T' ∈ "RFC".toList := by
                rw [ht, ← hch, ← ht2.1]; simp
              exact absurd hmem (by decide)
      obtain ⟨t, ht⟩ := canon_prefix_word hw A hpre
      exact ⟨t ++ (T ++ B), by rw [hu, ← ht]; simp⟩
    · rcases infix_three (by decide : 'T' ∉ "\nRFC".toList) (by decide : 'n' ∉ "\nRFC".toList)
        _ _ _ hch (cleanTable_getLast (by decide) T hlast) h1 with h2 | h2 | h2
      · right; left
        obtain ⟨Q, hQ, hQ2, hQ3⟩ := canon_line_start hw hne A h2
        have hd : Q.dropWhile isSpace ≠ [] := by
          intro h0; rw [h0] at hQ3
          exact hne (List.prefix_nil.mp hQ3)
        refine ⟨Q ++ (T ++ B), ?_, hQ2.trans (List.prefix_append _ _), ?_⟩
        · obtain ⟨p, hp⟩ := hQ
          exact ⟨p, by rw [hu, ← hp]; simp⟩
        · rw [dropWhile_append_of_ne_nil _ _ _ hd]
          exact hQ3.trans (List.prefix_append _ _)
      · right; right
        rw [hfind]
        exact cleanTable_line_start (by decide) T h2
      · right; left
        obtain ⟨Q, hQ, hQ2, hQ3⟩ := canon_line_start hw hne B h2
        exact ⟨Q, hQ.trans ⟨A ++ T, by rw [hu]⟩, hQ2, hQ3⟩
  · rw [cleanWhitespace_eq_canon u (Bool.eq_false_iff.mpr hm) hN hT] at hl
    rcases line_start _ _ _ hl h with h1 | h1
    · exact Or.inl (canon_prefix_word hw u h1)
    · exact Or.inr (Or.inl (canon_line_start hw hne u h1))
/-! ## C6: header lines in the output -/

/-- C6, as the code has it. No line of the output of `normalize` matches a
header pattern, for every input text such that: the text contains neither
placeholder literal; and in the header-stripped text `[Page` does not occur,
the text does not start with `RFC`, no paragraph break (two newlines and the
whitespace after them) is followed by `RFC`, and no line of the span of the
table of contents starts with `RFC`. -/
theorem normalize_no_header_line (text : List Char)
    (hN : ¬ newLinesPlaceholder <:+: text) (hT : ¬ tablePlaceholder <:+: text)
    (hpage : ¬ "[Page".toList <:+: removePageHeader text)
    (hstart : ¬ "RFC".toList <+: removePageHeader text)
    (hbreak : ∀ Q, Q <:+ removePageHeader text → newLines <+: Q →
      ¬ "RFC".toList <+: Q.dropWhile isSpace)
    (htoc : ¬ "\nRFC".toList <:+:
      Regex.findString tableOfContentsPattern (removePageHeader text)) :
    ∀ line ∈ stringsSplit (normalize text) '\n',
      Regex.matchString firstPageHeaderPattern line = false ∧
        Regex.matchString secondPageHeaderPattern line = false := by
  have hN2 : ¬ newLinesPlaceholder <:+: removePageHeader text :=
    fun hin => hN (infix_removePageHeader newline_not_mem_newLinesPlaceholder text hin)
  have hT2 : ¬ tablePlaceholder <:+: removePageHeader text :=
    fun hin => hT (infix_removePageHeader newline_not_mem_tablePlaceholder text hin)
  intro line hl
  refine ⟨Bool.eq_false_iff.mpr ?_, Bool.eq_false_iff.mpr ?_⟩
  · intro h
    exact hpage (page_cleanWhitespace _ hN2 hT2 (line_contains _ _ _ hl (firstPageHeader_page line h)))
  · intro h
    rcases rfc_cleanWhitespace _ line hN2 hT2 hl (secondPageHeader_starts line h) with
      h1 | ⟨Q, hQ, hQ2, hQ3⟩ | h1
    · exact hstart h1
    · exact hbreak Q hQ hQ2 hQ3
    · exact htoc h1

set_option maxRecDepth 100000 in
theorem normalize_no_header_line_witness :
    Regex.matchString tableOfContentsPattern (removePageHeader
      "Abstract\n\n  This memo updates\n  RFC 2119 in part.\n\nDoe      Standards Track      [Page 1]\nRFC 1      Title      May 2008\n\nTable of Contents\n\n   1.  Introduction  3\n   2.  Foo\n\n1.  Introduction\n\n  more\ntext".toList)
      = true ∧
    normalize
      "Abstract\n\n  This memo updates\n  RFC 2119 in part.\n\nDoe      Standards Track      [Page 1]\nRFC 1      Title      May 2008\n\nTable of Contents\n\n   1.  Introduction  3\n   2.  Foo\n\n1.  Introduction\n\n  more\ntext".toList
      = "Abstract\n\nThis memo updates RFC 2119 in part.\n\nTable of Contents\n   1.  Introduction  3\n   2.  Foo\n1.  Introduction\n\nmore text".toList ∧
    ∀ line ∈ stringsSplit (normalize
      "Abstract\n\n  This memo updates\n  RFC 2119 in part.\n\nDoe      Standards Track      [Page 1]\nRFC 1      Title      May 2008\n\nTable of Contents\n\n   1.  Introduction  3\n   2.  Foo\n\n1.  Introduction\n\n  more\ntext".toList) '\n',
      Regex.matchString firstPageHeaderPattern line = false ∧
        Regex.matchString secondPageHeaderPattern line = false :=
  ⟨by decide, by decide,
    normalize_no_header_line _ (by decide) (by decide) (by decide) (by decide)
      (fun Q hQ => (by decide : ∀ Q ∈ (removePageHeader
        "Abstract\n\n  This memo updates\n  RFC 2119 in part.\n\nDoe      Standards Track      [Page 1]\nRFC 1      Title      May 2008\n\nTable of Contents\n\n   1.  Introduction  3\n   2.  Foo\n\n1.  Introduction\n\n  more\ntext".toList).tails,
          newLines <+: Q → ¬ "RFC".toList <+: Q.dropWhile isSpace) Q
        ((List.mem_tails _ _).mpr hQ))
      (by decide)⟩

set_option maxRecDepth 20000 in
/-- C6, as stated, fails. The whitespace stage runs after the header removal
and can form a line that matches a header pattern: by joining two lines (the
first two texts); by turning a `NEWLINES_PLACEHOLDER` literal into a paragraph
break; by deleting a `TABLE_PLACEHOLDER` literal; by removing the whitespace
after a paragraph break and joining the lines that follow; and, in the table of
contents, by replacing a carriage return and two newlines by one newline. -/
theorem normalize_header_line :
    (normalize "RFC 1 a\nb 2008".toList = "RFC 1 a b 2008".toList ∧
      "RFC 1 a b 2008".toList ∈ stringsSplit (normalize "RFC 1 a\nb 2008".toList) '\n' ∧
      Regex.matchString secondPageHeaderPattern "RFC 1 a b 2008".toList = true) ∧
    (normalize "a Standards\nTrack [Page 1]".toList = "a Standards Track [Page 1]".toList ∧
      "a Standards Track [Page 1]".toList ∈
        stringsSplit (normalize "a Standards\nTrack [Page 1]".toList) '\n' ∧
      Regex.matchString firstPageHeaderPattern "a Standards Track [Page 1]".toList = true) ∧
    (normalize "xNEWLINES_PLACEHOLDERRFC 1 a b 2008".toList = "x\n\nRFC 1 a b 2008".toList ∧
      "RFC 1 a b 2008".toList ∈
        stringsSplit (normalize "xNEWLINES_PLACEHOLDERRFC 1 a b 2008".toList) '\n') ∧
    (normalize "RTABLE_PLACEHOLDERFC 1 a b 2008".toList = "RFC 1 a b 2008".toList ∧
      "RFC 1 a b 2008".toList ∈
        stringsSplit (normalize "RTABLE_PLACEHOLDERFC 1 a b 2008".toList) '\n') ∧
    (normalize "x\n\n RFC 1 a\nb 2008".toList = "x\n\nRFC 1 a b 2008".toList ∧
      "RFC 1 a b 2008".toList ∈
        stringsSplit (normalize "x\n\n RFC 1 a\nb 2008".toList) '\n') ∧
    (normalize "Table of Contents\nRFC 1 a b 2008\r\n\n1.  Introduction".toList =
        "Table of Contents\nRFC 1 a b 2008\n1.  Introduction".toList ∧
      "RFC 1 a b 2008".toList ∈ stringsSplit
        (normalize "Table of Contents\nRFC 1 a b 2008\r\n\n1.  Introduction".toList) '\n') :=
  ⟨⟨by decide, by decide, by decide⟩, ⟨by decide, by decide, by decide⟩,
    ⟨by decide, by decide⟩, ⟨by decide, by decide⟩, ⟨by decide, by decide⟩,
    by decide, by decide⟩

end Rfc
